import Mathlib

/-!
# Threshold ElGamal with interpolation in the exponent (`elgamir.go`)

A shallow embedding of `src/elgamir.go` and a verification development over it.

Modelling conventions.

* A `*big.Int` is an `Int`.  The `math/big` operations used by the source are
  embedded one by one (`bigMod`, `Exp`, `ModInverse`, `SetBytes`, `Bytes`).
* A run-time panic (division by zero in `Mod`, dereferencing the `nil` that
  `ModInverse` returns when no inverse exists) is the outcome `none`.
* A Go result tuple `(v, err)` is a Lean pair whose last component is
  `Option String`: `none` is the `nil` error.
* Every pseudo-random draw (`Rand`, `rand.Prime`, `io.ReadFull`) is an explicit
  argument of the function that performs it.
* Exponents are natural numbers: the source exponentiates by a value drawn by
  `Rand` (never negative), by the exponent of a private share, which
  `ShareKeyGen` draws with `Rand`, or by an interpolation weight, which is `1` or
  a result of `Mod`.
-/

namespace Elgamir

/-! ## Data model -/

/-- Package variable `ReserveIdx`: first index of the virtual (refreshed) shares. -/
def ReserveIdx : Int := 1

/-- Package variable `UserIdx`: first index meant for real participants. -/
def UserIdx : Int := 100

/-- One byte of a Go `[]byte`. -/
abbrev Byte := Fin 256

/-- Go `privKeyShare{X, Y}`: index and secret exponent. -/
structure privKeyShare where
  X : Int
  Y : Nat
  deriving DecidableEq, Repr

/-- Go `PubKeyShare{X, Y}`: index and group element. -/
structure PubKeyShare where
  X : Int
  Y : Int
  deriving DecidableEq, Repr

/-- Go `KeyShare`: the two embedded structs. -/
structure KeyShare where
  privKeyShare : privKeyShare
  PubKeyShare : PubKeyShare
  deriving DecidableEq, Repr

/-- Go `ElCipher{C1, C2, C3}`.  `C1` and `C2` are pointers that the zero value
`ElCipher{}` leaves `nil`, hence optional. -/
structure ElCipher where
  C1 : Option Int
  C2 : Option Int
  C3 : List PubKeyShare
  deriving DecidableEq, Repr

/-- Go `ElgamalPara{ElgamalP, ElgamalG, ElgamalQ, ParamLen}`. -/
structure ElgamalPara where
  ElgamalP : Int
  ElgamalG : Int
  ElgamalQ : Int
  ParamLen : Int
  deriving DecidableEq, Repr

/-- The zero value `ElCipher{}` returned next to an error. -/
def ElCipher.empty : ElCipher := ⟨none, none, []⟩

/-! ## `math/big` primitives -/

/-- Go `new(big.Int).Mod(x, m)`: Euclidean modulus, a division-by-zero panic for `m = 0`. -/
def bigMod (x m : Int) : Option Int :=
  if m = 0 then none else some (x % m)

/-- Go `new(big.Int).Exp(x, y, m)` for an exponent `y ≥ 0`: `x ^ y mod |m|`, and
`x ^ y` when `m = 0`. -/
def Exp (x : Int) (y : Nat) (m : Int) : Int :=
  if m = 0 then x ^ y else x ^ y % m

/-- Extended Euclid on the remainders `r0, r1`, carrying the coefficients
`s0, s1` of the inverted number; returns the last non-zero remainder and its
coefficient. -/
def egcdLoop : Nat → Int → Int → Int → Int → Int × Int
  | 0, r0, _, s0, _ => (r0, s0)
  | fuel + 1, r0, r1, s0, s1 =>
    if r1 = 0 then (r0, s0)
    else egcdLoop fuel r1 (r0 % r1) s1 (s0 - r0 / r1 * s1)

/-- Go `new(big.Int).ModInverse(g, n)`: the inverse of `g` in `ℤ/nℤ` taken in
`[0, |n|)`, or `nil` (here `none`) when `g` and `n` are not coprime.  Both call
sites of the source use the result at once, so a `nil` result is a panic.  The
fuel `|n| + 1` is more than the number of division steps.  For `n = 0` Go
answers `1` for `g = 1`, panics for `g < 0` and answers `nil` otherwise. -/
def ModInverse (g n : Int) : Option Int :=
  if n = 0 then (if g = 1 then some 1 else none)
  else
    let m := |n|
    let r := egcdLoop (m.toNat + 1) m (g % m) 0 1
    if r.1 = 1 then some (r.2 % m) else none

/-- Go `new(big.Int).SetBytes(buf)`: big-endian unsigned integer. -/
def SetBytes (buf : List Byte) : Int :=
  buf.foldl (fun acc b => acc * 256 + (b.val : Int)) 0

/-- Big-endian digits of `n` in base 256 pushed in front of `acc`. -/
def bytesLoop : Nat → Nat → List Byte → List Byte
  | 0, _, acc => acc
  | fuel + 1, n, acc =>
    if n = 0 then acc else bytesLoop fuel (n / 256) (Fin.ofNat (n % 256) :: acc)

/-- Go `z.Bytes()`: minimal big-endian encoding of `|z|` (empty for zero). -/
def Bytes (z : Int) : List Byte :=
  bytesLoop z.natAbs z.natAbs []

/-! ## `interpolate` -/

/-- One iteration of the inner loop of `interpolate` (lines 82-93). -/
def weightStep (para : ElgamalPara) (shareX xa weight : Int) (sharej : PubKeyShare) :
    Option Int :=
  let xb := sharej.X
  if xa ≠ xb then
    let top := shareX - xb
    (bigMod (xa - xb) para.ElgamalQ).bind fun bottom =>
    (ModInverse bottom para.ElgamalQ).bind fun inv =>
    let factor := top * inv
    bigMod (weight * factor) para.ElgamalQ
  else some weight

/-- The inner loop `for _, sharej := range shares`. -/
def weightLoop (para : ElgamalPara) (shareX xa : Int) : List PubKeyShare → Int → Option Int
  | [], weight => some weight
  | sharej :: rest, weight =>
    (weightStep para shareX xa weight sharej).bind fun w => weightLoop para shareX xa rest w

/-- The outer loop `for _, sharei := range shares`; `shares` is the whole
slice, the second list what is left to visit. -/
def shareLoop (para : ElgamalPara) (shareX : Int) (shares : List PubKeyShare) :
    List PubKeyShare → Int → Option Int
  | [], shareY => some shareY
  | sharei :: rest, shareY =>
    (weightLoop para shareX sharei.X shares 1).bind fun weight =>
    let temp := Exp sharei.Y weight.toNat para.ElgamalP
    (bigMod (shareY * temp) para.ElgamalP).bind fun y => shareLoop para shareX shares rest y

/-- Go `(para *ElgamalPara) interpolate(shareX, shares)`. -/
def interpolate (para : ElgamalPara) (shareX : Int) (shares : List PubKeyShare) :
    Option PubKeyShare :=
  (shareLoop para shareX shares shares 1).map fun shareY => ⟨shareX, shareY⟩

/-! ## Key shares, key combination, encryption, decryption -/

/-- Go `ShareKeyGen(shareX)`; `share` is the value drawn by `Rand(r, ElgamalQ)`. -/
def ShareKeyGen (para : ElgamalPara) (shareX : Int) (share : Nat) : KeyShare :=
  let gshare := Exp para.ElgamalG share para.ElgamalP
  ⟨⟨shareX, share⟩, ⟨shareX, gshare⟩⟩

/-- The loop `for i := 0; i < shareLen; i++` of `getPubkey`, over the values of `i`. -/
def refreshLoop (para : ElgamalPara) (shares : List PubKeyShare) :
    List Nat → Option (List PubKeyShare)
  | [] => some []
  | i :: rest =>
    (interpolate para (ReserveIdx + (i : Int)) shares).bind fun s =>
    (refreshLoop para shares rest).map fun l => s :: l

/-- Go `getPubkey(shares)`; `secret` is the value drawn by `Rand(r, ElgamalQ)`.
Returns `(pubkey, newShares, err)`. -/
def getPubkey (para : ElgamalPara) (shares : List PubKeyShare) (secret : Nat) :
    Option (Option Int × List PubKeyShare × Option String) :=
  let shareLen := shares.length
  let share0X : Int := 0
  let share0Y := Exp para.ElgamalG secret para.ElgamalP
  let shares := shares ++ [⟨share0X, share0Y⟩]
  (refreshLoop para shares (List.range shareLen)).bind fun newShares =>
  shares.head?.bind fun first =>
  let recovershares := newShares ++ [first]
  (interpolate para 0 recovershares).bind fun recover =>
  if recover.Y ≠ share0Y then
    some (none, [], some "getPubkey: recover secret failed.")
  else some (some share0Y, newShares, none)

/-- Go `getPrivkey(privShare, c)`. -/
def getPrivkey (para : ElgamalPara) (privShare : privKeyShare) (c : ElCipher) : Option Int :=
  c.C1.bind fun c1 =>
  let y := Exp c1 privShare.Y para.ElgamalP
  let c3 := c.C3 ++ [⟨privShare.X, y⟩]
  (interpolate para 0 c3).map fun secret => secret.Y

/-- Go `Encrypt(shares, msg)`; `secret` is the draw made inside `getPubkey`,
`y` the draw made by `Encrypt` itself.  Returns `(cipher, err)`. -/
def Encrypt (para : ElgamalPara) (shares : List PubKeyShare) (msg : List Byte)
    (secret y : Nat) : Option (ElCipher × Option String) :=
  (getPubkey para shares secret).bind fun r =>
  match r with
  | (some pubkey, newShares, none) =>
    let c1 := Exp para.ElgamalG y para.ElgamalP
    let s := Exp pubkey y para.ElgamalP
    (bigMod (s * SetBytes msg) para.ElgamalP).map fun c2 =>
    let c3 := newShares.map fun share => (⟨share.X, Exp share.Y y para.ElgamalP⟩ : PubKeyShare)
    (⟨some c1, some c2, c3⟩, none)
  | (none, _, none) => none
  | (_, _, some _) => some (ElCipher.empty, some "genPubkey error")

/-- Go `Decrypt(privShare, c)`. -/
def Decrypt (para : ElgamalPara) (privShare : privKeyShare) (c : ElCipher) :
    Option (List Byte) :=
  (getPrivkey para privShare c).bind fun s =>
  (ModInverse s para.ElgamalP).bind fun sinv =>
  c.C2.bind fun c2 =>
  (bigMod (c2 * sinv) para.ElgamalP).map fun msg => Bytes msg

/-! ## `Setup` -/

/-- Go `q.ProbablyPrime(50)` read as an exact primality test. -/
def ProbablyPrime (q : Int) : Bool :=
  decide (Nat.Prime q.toNat)

/-- The first loop of `Setup` over the successive results of `rand.Prime`:
`none` in the list is a failed draw, which leaves `ElgamalP` nil and makes `Sub`
panic.  The result `none` means that the loop has not ended on these draws or
has panicked. -/
def primeLoop : List (Option Int) → Option (Int × Int)
  | [] => none
  | none :: _ => none
  | some P :: rest =>
    let Q := (P - 1) / 2
    if ProbablyPrime Q = true then some (P, Q) else primeLoop rest

/-- The second loop of `Setup` over the successive results of `io.ReadFull`:
`none` in the list is a read error.  Returns the accepted `ElgamalG` or the error. -/
def generatorLoop (Q : Int) : List (Option (List Byte)) → Option (Except String Int)
  | [] => none
  | none :: _ => some (Except.error "RandFull error.")
  | some k :: rest =>
    let G := SetBytes k * SetBytes k
    if G < 4 then generatorLoop Q rest
    else if G < Q then some (Except.ok G)
    else generatorLoop Q rest

/-- Go `Setup(ParamLen)`; `primes` are the results of the calls of `rand.Prime`
and `reads` those of `io.ReadFull`, in order.  `rand.Prime` fails for a bit length
below two, which leaves `ElgamalP` nil.  The error return carries the zero value
`ElgamalPara{}`, which holds no information and is not represented. -/
def Setup (ParamLen : Int) (primes : List (Option Int)) (reads : List (Option (List Byte))) :
    Option (Except String ElgamalPara) :=
  if ParamLen * 8 < 2 then none
  else
    (primeLoop primes).bind fun pq =>
    (generatorLoop pq.2 reads).map fun r =>
      match r with
      | Except.ok G => Except.ok ⟨pq.1, G, pq.2, ParamLen⟩
      | Except.error e => Except.error e

/-! ## Definitions used to state the properties -/

/-- The interpolation weight of the point with index `xa` as an element of
`ZMod q`: the product over the points whose index differs from `xa`. -/
def weightZ (q : Nat) (shareX xa : Int) (shares : List PubKeyShare) : ZMod q :=
  ((shares.filter fun s => decide (s.X ≠ xa)).map fun s =>
    ((shareX : ZMod q) - (s.X : ZMod q)) * ((xa : ZMod q) - (s.X : ZMod q))⁻¹).prod

/-- Any two points either carry the same integer index or indices that differ
modulo `q`: the condition under which `interpolate` does not panic. -/
def Separated (q : Nat) (shares : List PubKeyShare) : Prop :=
  ∀ a ∈ shares, ∀ b ∈ shares, a.X = b.X ∨ ((a.X : Int) : ZMod q) ≠ ((b.X : Int) : ZMod q)

/-- The group description is valid: `P` and `Q = (P - 1) / 2` are prime and `G`
has order `Q` modulo `P` (`G ^ Q ≡ 1` and `G ≢ 1`). -/
def ValidGroup (para : ElgamalPara) : Prop :=
  Nat.Prime para.ElgamalP.toNat ∧ Nat.Prime para.ElgamalQ.toNat ∧
  para.ElgamalQ = (para.ElgamalP - 1) / 2 ∧
  para.ElgamalG ^ para.ElgamalQ.toNat % para.ElgamalP = 1 ∧
  para.ElgamalG % para.ElgamalP ≠ 1

/-- The virtual indices `ReserveIdx, ..., ReserveIdx + n - 1` used by `getPubkey`. -/
def virtualIdx (n : Nat) : List Int :=
  (List.range n).map fun (i : Nat) => ReserveIdx + (i : Int)

/-- The public shares issued by `ShareKeyGen` for the draws `(index, exponent)`. -/
def publicShares (para : ElgamalPara) (draws : List (Int × Nat)) : List PubKeyShare :=
  draws.map fun d => (ShareKeyGen para d.1 d.2).PubKeyShare

/-- No index collision modulo `Q` among `0`, the virtual indices and the real
indices `xs`: their residues are pairwise distinct. -/
def NoCollision (para : ElgamalPara) (xs : List Int) : Prop :=
  (((0 : Int) :: (virtualIdx xs.length ++ xs)).map fun x => x % para.ElgamalQ).Nodup

instance (para : ElgamalPara) (xs : List Int) : Decidable (NoCollision para xs) := by
  unfold NoCollision
  infer_instance

/-- The real indices `xs` avoid `0` and every virtual index modulo `Q`. -/
def AvoidsReserved (para : ElgamalPara) (xs : List Int) : Prop :=
  ∀ x ∈ xs, ∀ v ∈ (0 : Int) :: virtualIdx xs.length, x % para.ElgamalQ ≠ v % para.ElgamalQ

instance (para : ElgamalPara) (xs : List Int) : Decidable (AvoidsReserved para xs) := by
  unfold AvoidsReserved
  infer_instance

/-- The weight of the point at position `i` as the specification words it: the
product over the positions `j ≠ i` of `(t - x_j) * (x_i - x_j)⁻¹` modulo `q`,
reduced into `[0, q)`. -/
def specWeight (q : Nat) (t : Int) (shares : List PubKeyShare) (i : Nat) : Nat :=
  (((shares.eraseIdx i).map fun sj =>
    ((t : ZMod q) - (sj.X : ZMod q)) *
      (((shares.getD i ⟨0, 0⟩).X : ZMod q) - (sj.X : ZMod q))⁻¹).prod).val

/-- The closed form of the specification: `(t, Π_i Y_i ^ w_i mod P)`. -/
def interpolateSpec (para : ElgamalPara) (t : Int) (shares : List PubKeyShare) : PubKeyShare :=
  ⟨t, ((List.range shares.length).map fun i =>
    (shares.getD i ⟨0, 0⟩).Y ^ specWeight para.ElgamalQ.toNat t shares i).prod % para.ElgamalP⟩

/-- A small valid group used for concrete runs: `P = 23`, `Q = 11`, `G = 4`. -/
def toyPara : ElgamalPara := ⟨23, 4, 11, 1⟩

/-- One hundred real indices `UserIdx, ..., UserIdx + 99`. -/
def hundredIndices : List Int :=
  (List.range 100).map fun (i : Nat) => UserIdx + (i : Int)

/-! # Verification

## `ModInverse` -/

theorem gcd_step (r0 r1 : Int) : Int.gcd r1 (r0 % r1) = Int.gcd r0 r1 := by
  have e : r0 % r1 + r1 * (r0 / r1) = r0 := Int.emod_add_ediv r0 r1
  apply Nat.dvd_antisymm
  · apply Int.natCast_dvd_natCast.mp
    apply Int.dvd_gcd
    · have h1 : ((Int.gcd r1 (r0 % r1) : Nat) : Int) ∣ r0 % r1 + r1 * (r0 / r1) :=
        dvd_add Int.gcd_dvd_right (Dvd.dvd.mul_right Int.gcd_dvd_left _)
      rwa [e] at h1
    · exact Int.gcd_dvd_left
  · apply Int.natCast_dvd_natCast.mp
    apply Int.dvd_gcd
    · exact Int.gcd_dvd_right
    · have h1 : ((Int.gcd r0 r1 : Nat) : Int) ∣ r0 - r1 * (r0 / r1) :=
        dvd_sub Int.gcd_dvd_left (Dvd.dvd.mul_right Int.gcd_dvd_right _)
      have e2 : r0 - r1 * (r0 / r1) = r0 % r1 := by linarith
      rwa [e2] at h1

theorem egcdLoop_spec (g n : Int) : ∀ (fuel : Nat) (r0 r1 s0 s1 : Int),
    0 ≤ r0 → 0 ≤ r1 → r1 < fuel → n ∣ (s0 * g - r0) → n ∣ (s1 * g - r1) →
    (egcdLoop fuel r0 r1 s0 s1).1 = Int.gcd r0 r1 ∧
      n ∣ ((egcdLoop fuel r0 r1 s0 s1).2 * g - (egcdLoop fuel r0 r1 s0 s1).1) := by
  intro fuel
  induction fuel with
  | zero =>
    intro r0 r1 s0 s1 _ h1 h2
    simp at h2
    omega
  | succ k ih =>
    intro r0 r1 s0 s1 h0 h1 h2 d0 d1
    unfold egcdLoop
    by_cases hz : r1 = 0
    · subst hz
      simp only [if_true]
      refine ⟨?_, d0⟩
      simp [Int.gcd_zero_right, abs_of_nonneg h0]
    · simp only [if_neg hz]
      have hpos : 0 < r1 := lt_of_le_of_ne h1 (Ne.symm hz)
      have hlt : r0 % r1 < r1 := Int.emod_lt_of_pos r0 hpos
      have hnn : 0 ≤ r0 % r1 := Int.emod_nonneg r0 hz
      have hk : r0 % r1 < (k : Int) := by push_cast at h2; omega
      have hd : n ∣ ((s0 - r0 / r1 * s1) * g - r0 % r1) := by
        have e : (s0 - r0 / r1 * s1) * g - r0 % r1
            = (s0 * g - r0) - (r0 / r1) * (s1 * g - r1) := by
          have := Int.emod_add_ediv r0 r1
          linear_combination (-1 : Int) * this
        rw [e]
        exact dvd_sub d0 (Dvd.dvd.mul_left d1 _)
      have := ih r1 (r0 % r1) s1 (s0 - r0 / r1 * s1) h1 hnn hk d1 hd
      rw [gcd_step] at this
      exact this

theorem ModInverse_of_coprime (g n : Int) (hn : n ≠ 0) (h : Int.gcd g n = 1) :
    ∃ z, ModInverse g n = some z ∧ 0 ≤ z ∧ z < |n| ∧ n ∣ (g * z - 1) := by
  have hm : 0 < |n| := abs_pos.mpr hn
  have hm0 : |n| ≠ 0 := ne_of_gt hm
  have hg0 : 0 ≤ g % |n| := Int.emod_nonneg g hm0
  have hg1 : g % |n| < |n| := Int.emod_lt_of_pos g hm
  have hfuel : g % |n| < ((|n|.toNat + 1 : Nat) : Int) := by
    push_cast
    rw [Int.toNat_of_nonneg (le_of_lt hm)]
    omega
  have d0 : |n| ∣ ((0 : Int) * g - |n|) := by simp
  have d1 : |n| ∣ ((1 : Int) * g - g % |n|) := by
    rw [one_mul]
    exact Int.dvd_sub_of_emod_eq rfl
  obtain ⟨e1, e2⟩ := egcdLoop_spec g |n| (|n|.toNat + 1) |n| (g % |n|) 0 1
    (le_of_lt hm) hg0 hfuel d0 d1
  have hgcd : Int.gcd |n| (g % |n|) = 1 := by
    rw [gcd_step, Int.gcd_def, Int.natAbs_abs, ← Int.gcd_def]
    exact h
  rw [hgcd] at e1
  have e1' : (egcdLoop (|n|.toNat + 1) |n| (g % |n|) 0 1).1 = 1 := by simpa using e1
  refine ⟨(egcdLoop (|n|.toNat + 1) |n| (g % |n|) 0 1).2 % |n|, ?_, ?_, ?_, ?_⟩
  · simp only [ModInverse, if_neg hn, e1', if_true]
  · exact Int.emod_nonneg _ hm0
  · exact Int.emod_lt_of_pos _ hm
  · rw [e1'] at e2
    have e3 : |n| ∣ (g * ((egcdLoop (|n|.toNat + 1) |n| (g % |n|) 0 1).2 % |n|) - 1) := by
      have : g * ((egcdLoop (|n|.toNat + 1) |n| (g % |n|) 0 1).2 % |n|) - 1
          = ((egcdLoop (|n|.toNat + 1) |n| (g % |n|) 0 1).2 * g - 1)
            - g * (|n| * ((egcdLoop (|n|.toNat + 1) |n| (g % |n|) 0 1).2 / |n|)) := by
        have := Int.emod_add_ediv (egcdLoop (|n|.toNat + 1) |n| (g % |n|) 0 1).2 |n|
        linear_combination g * this
      rw [this]
      exact dvd_sub e2 (Dvd.dvd.mul_left (Dvd.intro _ rfl) _)
    exact (abs_dvd n _).mp e3

theorem ModInverse_of_not_coprime (g n : Int) (hn : n ≠ 0) (h : Int.gcd g n ≠ 1) :
    ModInverse g n = none := by
  have hm : 0 < |n| := abs_pos.mpr hn
  have hm0 : |n| ≠ 0 := ne_of_gt hm
  have hg0 : 0 ≤ g % |n| := Int.emod_nonneg g hm0
  have hg1 : g % |n| < |n| := Int.emod_lt_of_pos g hm
  have hfuel : g % |n| < ((|n|.toNat + 1 : Nat) : Int) := by
    push_cast
    rw [Int.toNat_of_nonneg (le_of_lt hm)]
    omega
  have d0 : |n| ∣ ((0 : Int) * g - |n|) := by simp
  have d1 : |n| ∣ ((1 : Int) * g - g % |n|) := by
    rw [one_mul]
    exact Int.dvd_sub_of_emod_eq rfl
  obtain ⟨e1, -⟩ := egcdLoop_spec g |n| (|n|.toNat + 1) |n| (g % |n|) 0 1
    (le_of_lt hm) hg0 hfuel d0 d1
  have hgcd : Int.gcd |n| (g % |n|) = Int.gcd g n := by
    rw [gcd_step, Int.gcd_def, Int.natAbs_abs, ← Int.gcd_def]
  unfold ModInverse
  simp only [if_neg hn]
  rw [if_neg]
  rw [e1, hgcd]
  exact_mod_cast h

/-! ### The inverse modulo a prime, read in `ZMod q` -/

theorem ModInverse_prime (q : Nat) [Fact q.Prime] (b : Int) (hb : (b : ZMod q) ≠ 0) :
    ∃ z, ModInverse (b % (q : Int)) (q : Int) = some z ∧ 0 ≤ z ∧ z < (q : Int) ∧
      (z : ZMod q) = (b : ZMod q)⁻¹ := by
  have hq : Nat.Prime q := Fact.out
  have hq0 : (q : Int) ≠ 0 := by exact_mod_cast hq.ne_zero
  have hcast : (((b % (q : Int)) : Int) : ZMod q) = (b : ZMod q) := ZMod.intCast_mod b q
  have hnd : ¬ (q : Int) ∣ b % (q : Int) := by
    rw [← ZMod.intCast_zmod_eq_zero_iff_dvd, hcast]
    exact hb
  have hgcd : Int.gcd (b % (q : Int)) (q : Int) = 1 := by
    rw [Int.gcd_def, Int.natAbs_ofNat, Nat.gcd_comm]
    apply (Nat.Prime.coprime_iff_not_dvd hq).2
    rwa [Int.natCast_dvd] at hnd
  obtain ⟨z, hz, hz0, hz1, hdvd⟩ := ModInverse_of_coprime (b % (q : Int)) (q : Int) hq0 hgcd
  refine ⟨z, hz, hz0, ?_, ?_⟩
  · simpa using hz1
  · have h1 : (((b % (q : Int)) * z - 1 : Int) : ZMod q) = 0 :=
      (ZMod.intCast_zmod_eq_zero_iff_dvd _ q).2 hdvd
    push_cast at h1
    have h2 : (b : ZMod q) * (z : ZMod q) = 1 := by linear_combination h1
    exact eq_inv_of_mul_eq_one_right h2

/-! ### The inner loop of `interpolate` -/

theorem weightStep_spec (q : Nat) [Fact q.Prime] (para : ElgamalPara)
    (hQ : para.ElgamalQ = (q : Int)) (t xa w : Int) (sj : PubKeyShare)
    (hne : xa ≠ sj.X) (hsep : ((sj.X : Int) : ZMod q) ≠ ((xa : Int) : ZMod q)) :
    ∃ w1, weightStep para t xa w sj = some w1 ∧ 0 ≤ w1 ∧ w1 < (q : Int) ∧
      (w1 : ZMod q) = (w : ZMod q) *
        (((t : ZMod q) - (sj.X : ZMod q)) * ((xa : ZMod q) - (sj.X : ZMod q))⁻¹) := by
  have hq : Nat.Prime q := Fact.out
  have hq0 : (q : Int) ≠ 0 := by exact_mod_cast hq.ne_zero
  have hqpos : (0 : Int) < (q : Int) := by exact_mod_cast hq.pos
  have hb : (((xa - sj.X : Int)) : ZMod q) ≠ 0 := by
    push_cast
    intro h
    exact hsep (sub_eq_zero.mp h).symm
  obtain ⟨z, hz, -, -, hzc⟩ := ModInverse_prime q (xa - sj.X) hb
  refine ⟨(w * ((t - sj.X) * z)) % (q : Int), ?_, Int.emod_nonneg _ hq0,
    Int.emod_lt_of_pos _ hqpos, ?_⟩
  · simp only [weightStep, bigMod, hQ, if_neg hq0, ne_eq, hne, not_false_eq_true, if_true,
      Option.some_bind, hz]
  · rw [ZMod.intCast_mod]
    push_cast
    rw [hzc]
    push_cast
    ring

theorem weightLoop_spec (q : Nat) [Fact q.Prime] (para : ElgamalPara)
    (hQ : para.ElgamalQ = (q : Int)) (t xa : Int) :
    ∀ (l : List PubKeyShare) (w : Int),
      (∀ s ∈ l, s.X = xa ∨ ((s.X : Int) : ZMod q) ≠ ((xa : Int) : ZMod q)) →
      ∃ w1, weightLoop para t xa l w = some w1 ∧
        (w1 : ZMod q) = (w : ZMod q) * weightZ q t xa l ∧
        (0 ≤ w ∧ w < (q : Int) → 0 ≤ w1 ∧ w1 < (q : Int)) := by
  intro l
  induction l with
  | nil =>
    intro w _
    exact ⟨w, rfl, by simp [weightZ], fun h => h⟩
  | cons sj rest ih =>
    intro w hsep
    have hrest : ∀ s ∈ rest, s.X = xa ∨ ((s.X : Int) : ZMod q) ≠ ((xa : Int) : ZMod q) :=
      fun s hs => hsep s (List.mem_cons_of_mem _ hs)
    by_cases hx : sj.X = xa
    · obtain ⟨w1, h1, h2, h3⟩ := ih w hrest
      refine ⟨w1, ?_, ?_, h3⟩
      · simp only [weightLoop, weightStep, ne_eq, hx, not_true_eq_false, if_false,
          Option.some_bind, h1]
      · rw [h2]
        simp [weightZ, hx]
    · have hne : xa ≠ sj.X := fun h => hx h.symm
      have hs : ((sj.X : Int) : ZMod q) ≠ ((xa : Int) : ZMod q) := by
        rcases hsep sj (List.mem_cons_self _ _) with h | h
        · exact absurd h hx
        · exact h
      obtain ⟨w0, e0, b0, b1, c0⟩ := weightStep_spec q para hQ t xa w sj hne hs
      obtain ⟨w1, h1, h2, h3⟩ := ih w0 hrest
      refine ⟨w1, ?_, ?_, fun _ => h3 ⟨b0, b1⟩⟩
      · simp only [weightLoop, e0, Option.some_bind, h1]
      · rw [h2, c0]
        simp [weightZ, hx, mul_assoc]

/-! ### The outer loop of `interpolate` -/

theorem weight_toNat (q : Nat) [Fact q.Prime] (w : Int) (z : ZMod q)
    (h : (w : ZMod q) = z) (h0 : 0 ≤ w) (h1 : w < (q : Int)) : w.toNat = z.val := by
  have hq : Nat.Prime q := Fact.out
  haveI : NeZero q := ⟨hq.ne_zero⟩
  have e : ((z.val : Nat) : Int) = w := by
    rw [← h, ZMod.val_intCast, Int.emod_eq_of_lt h0 h1]
  omega

theorem shareLoop_spec (p q : Nat) [Fact q.Prime] (hp : p ≠ 0) (para : ElgamalPara)
    (hP : para.ElgamalP = (p : Int)) (hQ : para.ElgamalQ = (q : Int)) (t : Int)
    (shares : List PubKeyShare) (hsep : Separated q shares) :
    ∀ (l : List PubKeyShare) (acc : Int), (∀ s ∈ l, s ∈ shares) →
      ∃ y, shareLoop para t shares l acc = some y ∧
        (y : ZMod p) = (acc : ZMod p) *
          (l.map fun s => ((s.Y : Int) : ZMod p) ^ (weightZ q t s.X shares).val).prod ∧
        (l ≠ [] → 0 ≤ y ∧ y < (p : Int)) := by
  have hq : Nat.Prime q := Fact.out
  have hp0 : (p : Int) ≠ 0 := by exact_mod_cast hp
  have hppos : (0 : Int) < (p : Int) := by
    have := Nat.pos_of_ne_zero hp
    exact_mod_cast this
  intro l
  induction l with
  | nil =>
    intro acc _
    exact ⟨acc, rfl, by simp, fun h => absurd rfl h⟩
  | cons si rest ih =>
    intro acc hmem
    have hsi : si ∈ shares := hmem si (List.mem_cons_self _ _)
    have hpre : ∀ s ∈ shares, s.X = si.X ∨ ((s.X : Int) : ZMod q) ≠ ((si.X : Int) : ZMod q) :=
      fun s hs => hsep s hs si hsi
    obtain ⟨w, hw, hwc, hwb⟩ := weightLoop_spec q para hQ t si.X shares 1 hpre
    have hq1 : (1 : Int) < (q : Int) := by exact_mod_cast hq.one_lt
    obtain ⟨hw0, hw1⟩ := hwb ⟨by norm_num, hq1⟩
    have hwz : (w : ZMod q) = weightZ q t si.X shares := by simpa using hwc
    have hnat : w.toNat = (weightZ q t si.X shares).val := weight_toNat q w _ hwz hw0 hw1
    obtain ⟨y, hy, hyc, hyb⟩ := ih ((acc * (si.Y ^ w.toNat % (p : Int))) % (p : Int))
      (fun s hs => hmem s (List.mem_cons_of_mem _ hs))
    refine ⟨y, ?_, ?_, fun _ => ?_⟩
    · simp only [shareLoop, hw, Option.some_bind, Exp, bigMod, hP, if_neg hp0, hy]
    · rw [hyc, ZMod.intCast_mod]
      push_cast
      rw [hnat, List.map_cons, List.prod_cons]
      ring
    · by_cases hr : rest = []
      · subst hr
        simp only [shareLoop, Option.some.injEq] at hy
        rw [← hy]
        exact ⟨Int.emod_nonneg _ hp0, Int.emod_lt_of_pos _ hppos⟩
      · exact hyb hr

theorem interpolate_spec (p q : Nat) [Fact q.Prime] (hp : 1 < p) (para : ElgamalPara)
    (hP : para.ElgamalP = (p : Int)) (hQ : para.ElgamalQ = (q : Int)) (t : Int)
    (shares : List PubKeyShare) (hsep : Separated q shares) :
    ∃ y, interpolate para t shares = some ⟨t, y⟩ ∧ 0 ≤ y ∧ y < (p : Int) ∧
      (y : ZMod p) =
        (shares.map fun s => ((s.Y : Int) : ZMod p) ^ (weightZ q t s.X shares).val).prod := by
  obtain ⟨y, hy, hyc, hyb⟩ := shareLoop_spec p q (by omega) para hP hQ t shares hsep shares 1
    (fun s hs => hs)
  have hb : 0 ≤ y ∧ y < (p : Int) := by
    by_cases hs : shares = []
    · subst hs
      simp only [shareLoop, Option.some.injEq] at hy
      rw [← hy]
      constructor
      · norm_num
      · exact_mod_cast hp
    · exact hyb hs
  refine ⟨y, ?_, hb.1, hb.2, ?_⟩
  · simp [interpolate, hy]
  · simpa using hyc

/-! ### Exponent arithmetic in a subgroup of order dividing `q` -/

theorem gpow_add (p q : Nat) [Fact q.Prime] (g : ZMod p) (hg : g ^ q = 1) (a b : ZMod q) :
    g ^ a.val * g ^ b.val = g ^ (a + b).val := by
  rw [← pow_add, ZMod.val_add, ← pow_eq_pow_mod _ hg]

theorem gpow_mul (p q : Nat) [Fact q.Prime] (g : ZMod p) (hg : g ^ q = 1) (a b : ZMod q) :
    (g ^ a.val) ^ b.val = g ^ (a * b).val := by
  rw [← pow_mul, ZMod.val_mul, ← pow_eq_pow_mod _ hg]

theorem gpow_list (p q : Nat) [Fact q.Prime] (g : ZMod p) (hg : g ^ q = 1)
    (e c : PubKeyShare → ZMod q) (l : List PubKeyShare) :
    (l.map fun s => (g ^ (e s).val) ^ (c s).val).prod
      = g ^ ((l.map fun s => e s * c s).sum).val := by
  induction l with
  | nil => simp
  | cons s rest ih =>
    rw [List.map_cons, List.prod_cons, ih, gpow_mul p q g hg, gpow_add p q g hg,
      List.map_cons, List.sum_cons]

/-! ### Lagrange interpolation over `ZMod q` -/

theorem weightZ_eq_basis (q : Nat) [Fact q.Prime] (t : Int) (shares : List PubKeyShare)
    (hnd : (shares.map fun s => ((s.X : Int) : ZMod q)).Nodup) (s : PubKeyShare)
    (hs : s ∈ shares) :
    weightZ q t s.X shares =
      Polynomial.eval (t : ZMod q)
        (Lagrange.basis (shares.map fun s => ((s.X : Int) : ZMod q)).toFinset id
          ((s.X : Int) : ZMod q)) := by
  have hinj := List.inj_on_of_nodup_map hnd
  have hfilter : (shares.filter fun s' => decide (s'.X ≠ s.X)) =
      shares.filter fun s' => decide (((s'.X : Int) : ZMod q) ≠ ((s.X : Int) : ZMod q)) := by
    apply List.filter_congr
    intro s' hs'
    by_cases h : s'.X = s.X
    · simp [h]
    · have : ((s'.X : Int) : ZMod q) ≠ ((s.X : Int) : ZMod q) := by
        intro hc
        exact h (congrArg PubKeyShare.X (hinj hs' hs hc))
      simp [h, this]
  have hS : Finset.filter (fun a => a ≠ ((s.X : Int) : ZMod q))
        (shares.map fun s => ((s.X : Int) : ZMod q)).toFinset =
      ((shares.map fun s => ((s.X : Int) : ZMod q)).filter
        fun a => decide (a ≠ ((s.X : Int) : ZMod q))).toFinset := by
    ext a
    simp [List.mem_filter]
  unfold Lagrange.basis
  rw [Polynomial.eval_prod, ← Finset.filter_ne', hS, List.prod_toFinset _ (hnd.filter _)]
  unfold weightZ
  rw [hfilter, List.filter_map, List.map_map]
  congr 1
  apply List.map_congr_left
  intro s' _
  simp [Lagrange.basisDivisor, mul_comm]

theorem lagrange_sum (q : Nat) [Fact q.Prime] (t : Int) (shares : List PubKeyShare)
    (hnd : (shares.map fun s => ((s.X : Int) : ZMod q)).Nodup)
    (f : Polynomial (ZMod q)) (hdeg : f.degree < (shares.length : WithBot Nat)) :
    (shares.map fun s =>
        Polynomial.eval ((s.X : Int) : ZMod q) f * weightZ q t s.X shares).sum
      = Polynomial.eval (t : ZMod q) f := by
  have hcard : (shares.map fun s => ((s.X : Int) : ZMod q)).toFinset.card = shares.length := by
    rw [List.toFinset_card_of_nodup hnd, List.length_map]
  have hf := Lagrange.eq_interpolate (s := (shares.map fun s => ((s.X : Int) : ZMod q)).toFinset)
    (v := id) (f := f) (Set.injOn_id _) (by rw [hcard]; exact hdeg)
  conv_rhs => rw [hf]
  rw [Lagrange.interpolate_apply, Polynomial.eval_finset_sum, List.sum_toFinset _ hnd,
    List.map_map]
  congr 1
  apply List.map_congr_left
  intro s hs
  simp only [Function.comp, id, Polynomial.eval_mul, Polynomial.eval_C]
  rw [weightZ_eq_basis q t shares hnd s hs]

/-! ### Interpolating points that lie on a polynomial in the exponent -/

theorem Exp_cast (p : Nat) (hp : p ≠ 0) (x : Int) (e : Nat) :
    ((Exp x e (p : Int) : Int) : ZMod p) = ((x : Int) : ZMod p) ^ e := by
  have hp0 : (p : Int) ≠ 0 := by exact_mod_cast hp
  simp only [Exp, if_neg hp0]
  rw [ZMod.intCast_mod]
  push_cast
  rfl

theorem eq_Exp_of_cast (p : Nat) (hp : p ≠ 0) (x y : Int) (e : Nat) (h0 : 0 ≤ y)
    (h1 : y < (p : Int)) (h : ((y : Int) : ZMod p) = ((x : Int) : ZMod p) ^ e) :
    y = Exp x e (p : Int) := by
  have hp0 : (p : Int) ≠ 0 := by exact_mod_cast hp
  have h2 : ((y : Int) : ZMod p) = ((x ^ e : Int) : ZMod p) := by
    rw [h]
    push_cast
    rfl
  have h3 := (ZMod.intCast_eq_intCast_iff' y (x ^ e) p).1 h2
  simp only [Exp, if_neg hp0]
  rw [← h3, Int.emod_eq_of_lt h0 h1]

theorem separated_of_nodup (q : Nat) (shares : List PubKeyShare)
    (hnd : (shares.map fun s => ((s.X : Int) : ZMod q)).Nodup) : Separated q shares := by
  intro a ha b hb
  by_cases h : ((a.X : Int) : ZMod q) = ((b.X : Int) : ZMod q)
  · left
    exact congrArg PubKeyShare.X (List.inj_on_of_nodup_map hnd ha hb h)
  · right
    exact h

theorem interpolate_poly (p q : Nat) [Fact q.Prime] (hp : 1 < p) (para : ElgamalPara)
    (hP : para.ElgamalP = (p : Int)) (hQ : para.ElgamalQ = (q : Int))
    (hg : ((para.ElgamalG : Int) : ZMod p) ^ q = 1) (t : Int) (shares : List PubKeyShare)
    (hnd : (shares.map fun s => ((s.X : Int) : ZMod q)).Nodup)
    (f : Polynomial (ZMod q)) (hdeg : f.degree < (shares.length : WithBot Nat))
    (hY : ∀ s ∈ shares, ((s.Y : Int) : ZMod p) =
      ((para.ElgamalG : Int) : ZMod p) ^ (Polynomial.eval ((s.X : Int) : ZMod q) f).val) :
    interpolate para t shares =
      some ⟨t, Exp para.ElgamalG (Polynomial.eval ((t : Int) : ZMod q) f).val para.ElgamalP⟩ := by
  obtain ⟨y, hy, h0, h1, hc⟩ := interpolate_spec p q hp para hP hQ t shares
    (separated_of_nodup q shares hnd)
  have hmap : (shares.map fun s => ((s.Y : Int) : ZMod p) ^ (weightZ q t s.X shares).val)
      = shares.map fun s =>
        (((para.ElgamalG : Int) : ZMod p) ^ (Polynomial.eval ((s.X : Int) : ZMod q) f).val)
          ^ (weightZ q t s.X shares).val := by
    apply List.map_congr_left
    intro s hs
    rw [hY s hs]
  rw [hmap, gpow_list p q _ hg (fun s => Polynomial.eval ((s.X : Int) : ZMod q) f)
    (fun s => weightZ q t s.X shares), lagrange_sum q t shares hnd f hdeg] at hc
  rw [hy, hP, eq_Exp_of_cast p (by omega) _ y _ h0 h1 hc]

/-- Values that are all powers of `g` interpolate to a power of `g`. -/
theorem interpolate_pow (p q : Nat) [Fact q.Prime] (hp : 1 < p) (para : ElgamalPara)
    (hP : para.ElgamalP = (p : Int)) (hQ : para.ElgamalQ = (q : Int)) (g : ZMod p)
    (t : Int) (shares : List PubKeyShare) (hsep : Separated q shares)
    (hY : ∀ s ∈ shares, ∃ e : Nat, ((s.Y : Int) : ZMod p) = g ^ e) :
    ∃ y e, interpolate para t shares = some ⟨t, y⟩ ∧ 0 ≤ y ∧ y < (p : Int) ∧
      ((y : Int) : ZMod p) = g ^ e := by
  obtain ⟨y, hy, h0, h1, hc⟩ := interpolate_spec p q hp para hP hQ t shares hsep
  have key : ∀ (l : List PubKeyShare), (∀ s ∈ l, s ∈ shares) →
      ∃ e : Nat, (l.map fun s => ((s.Y : Int) : ZMod p) ^ (weightZ q t s.X shares).val).prod
        = g ^ e := by
    intro l
    induction l with
    | nil => intro _; exact ⟨0, by simp⟩
    | cons s rest ih =>
      intro hm
      obtain ⟨e1, he1⟩ := ih (fun s hs => hm s (List.mem_cons_of_mem _ hs))
      obtain ⟨e0, he0⟩ := hY s (hm s (List.mem_cons_self _ _))
      refine ⟨e0 * (weightZ q t s.X shares).val + e1, ?_⟩
      rw [List.map_cons, List.prod_cons, he1, he0, pow_add, pow_mul]
  obtain ⟨e, he⟩ := key shares (fun s hs => hs)
  exact ⟨y, e, hy, h0, h1, hc.trans he⟩

/-! ### Bytes -/

theorem foldl_bytesLoop : ∀ (fuel n : Nat) (acc : List Byte), n ≤ fuel →
    (bytesLoop fuel n acc).foldl (fun a b => a * 256 + (b.val : Int)) 0
      = acc.foldl (fun a b => a * 256 + (b.val : Int)) (n : Int) := by
  intro fuel
  induction fuel with
  | zero =>
    intro n acc h
    have : n = 0 := by omega
    subst this
    simp [bytesLoop]
  | succ k ih =>
    intro n acc h
    unfold bytesLoop
    by_cases hn : n = 0
    · subst hn
      simp
    · rw [if_neg hn, ih (n / 256) _ (by omega), List.foldl_cons]
      congr 1
      simp only [Fin.ofNat, Nat.mod_mod]
      push_cast
      omega

theorem SetBytes_Bytes (m : Int) (h : 0 ≤ m) : SetBytes (Bytes m) = m := by
  unfold SetBytes Bytes
  rw [foldl_bytesLoop _ _ _ (le_refl _)]
  simp only [List.foldl_nil]
  omega

/-! ### Residues and elements of `ZMod q` -/

theorem nodup_cast_of_nodup_emod (q : Nat) (l : List Int)
    (h : (l.map fun x => x % (q : Int)).Nodup) :
    (l.map fun x => ((x : Int) : ZMod q)).Nodup := by
  have h1 : (l.map fun x => ((x : Int) : ZMod q))
      = (l.map fun x => x % (q : Int)).map fun x => ((x : Int) : ZMod q) := by
    rw [List.map_map]
    apply List.map_congr_left
    intro x _
    simp [ZMod.intCast_mod]
  rw [h1]
  apply List.Nodup.map_on _ h
  intro a ha b hb hab
  obtain ⟨x, -, rfl⟩ := List.mem_map.1 ha
  obtain ⟨y, -, rfl⟩ := List.mem_map.1 hb
  have := (ZMod.intCast_eq_intCast_iff' _ _ q).1 hab
  simpa using this

theorem gpow_congr (p q : Nat) (g : ZMod p) (hg : g ^ q = 1) (a b : Nat)
    (h : ((a : Nat) : ZMod q) = ((b : Nat) : ZMod q)) : g ^ a = g ^ b := by
  have h1 : a % q = b % q := (ZMod.natCast_eq_natCast_iff' a b q).1 h
  rw [pow_eq_pow_mod a hg, pow_eq_pow_mod b hg, h1]

theorem gpow_val (p q : Nat) [Fact q.Prime] (g : ZMod p) (hg : g ^ q = 1) (a : Nat) (z : ZMod q)
    (h : ((a : Nat) : ZMod q) = z) : g ^ z.val = g ^ a := by
  apply gpow_congr p q g hg
  rw [← h]
  simp

/-! ### `getPubkey` on honestly issued shares -/

theorem Exp_range (p : Nat) (hp : p ≠ 0) (x : Int) (e : Nat) :
    0 ≤ Exp x e (p : Int) ∧ Exp x e (p : Int) < (p : Int) := by
  have hp0 : (p : Int) ≠ 0 := by exact_mod_cast hp
  have hpos : (0 : Int) < (p : Int) := by
    have := Nat.pos_of_ne_zero hp
    exact_mod_cast this
  simp only [Exp, if_neg hp0]
  exact ⟨Int.emod_nonneg _ hp0, Int.emod_lt_of_pos _ hpos⟩

theorem Exp_val (p q : Nat) [Fact q.Prime] (hp : p ≠ 0) (x : Int)
    (hg : ((x : Int) : ZMod p) ^ q = 1) (a : Nat) (z : ZMod q)
    (h : ((a : Nat) : ZMod q) = z) : Exp x z.val (p : Int) = Exp x a (p : Int) := by
  apply eq_Exp_of_cast p hp x _ a (Exp_range p hp x _).1 (Exp_range p hp x _).2
  rw [Exp_cast p hp, gpow_val p q _ hg a z h]

theorem refreshLoop_eq (para : ElgamalPara) (shares : List PubKeyShare)
    (F : Int → PubKeyShare) : ∀ (is : List Nat),
    (∀ i ∈ is, interpolate para (ReserveIdx + (i : Int)) shares
      = some (F (ReserveIdx + (i : Int)))) →
    refreshLoop para shares is = some (is.map fun (i : Nat) => F (ReserveIdx + (i : Int))) := by
  intro is
  induction is with
  | nil => intro _; rfl
  | cons i rest ih =>
    intro h
    simp only [refreshLoop, h i (List.mem_cons_self _ _), Option.some_bind,
      ih (fun j hj => h j (List.mem_cons_of_mem _ hj)), Option.map_some', List.map_cons]

theorem nodup_real_dealer (q : Nat) (V xs : List Int)
    (hnd : (((0 : Int) :: (V ++ xs)).map fun x => ((x : Int) : ZMod q)).Nodup) :
    ((xs ++ [(0 : Int)]).map fun x => ((x : Int) : ZMod q)).Nodup := by
  have hsub : ((0 : Int) :: xs).Sublist ((0 : Int) :: (V ++ xs)) :=
    List.Sublist.cons₂ _ (List.sublist_append_right V xs)
  have h1 := List.Nodup.sublist (hsub.map _) hnd
  have hperm : List.Perm (xs ++ [(0 : Int)]) ((0 : Int) :: xs) := List.perm_append_singleton 0 xs
  exact ((hperm.map _).nodup_iff).2 h1

theorem nodup_virtual_one (q : Nat) (V xs : List Int) (a : Int) (ha : a ∈ (0 : Int) :: xs)
    (hnd : (((0 : Int) :: (V ++ xs)).map fun x => ((x : Int) : ZMod q)).Nodup) :
    ((V ++ [a]).map fun x => ((x : Int) : ZMod q)).Nodup := by
  rcases List.mem_cons.1 ha with h | h
  · subst h
    have hsub : ((0 : Int) :: V).Sublist ((0 : Int) :: (V ++ xs)) :=
      List.Sublist.cons₂ _ (List.sublist_append_left V xs)
    have h1 := List.Nodup.sublist (hsub.map _) hnd
    have hperm : List.Perm (V ++ [(0 : Int)]) ((0 : Int) :: V) := List.perm_append_singleton 0 V
    exact ((hperm.map _).nodup_iff).2 h1
  · have hsub : (V ++ [a]).Sublist ((0 : Int) :: (V ++ xs)) :=
      List.Sublist.cons _ (List.Sublist.append (List.Sublist.refl V)
        (List.singleton_sublist.2 h))
    exact List.Nodup.sublist (hsub.map _) hnd

theorem getPubkey_core (p q : Nat) [Fact q.Prime] (hp : 1 < p) (para : ElgamalPara)
    (hP : para.ElgamalP = (p : Int)) (hQ : para.ElgamalQ = (q : Int))
    (hg : ((para.ElgamalG : Int) : ZMod p) ^ q = 1) (draws : List (Int × Nat)) (secret : Nat)
    (hnd : (((0 : Int) :: (virtualIdx draws.length ++ draws.map Prod.fst)).map
      fun x => ((x : Int) : ZMod q)).Nodup)
    (f : Polynomial (ZMod q)) (hdeg : f.degree < ((draws.length + 1 : Nat) : WithBot Nat))
    (hf0 : Polynomial.eval 0 f = ((secret : Nat) : ZMod q))
    (hfx : ∀ d ∈ draws, Polynomial.eval ((d.1 : Int) : ZMod q) f = ((d.2 : Nat) : ZMod q)) :
    getPubkey para (publicShares para draws) secret =
      some (some (Exp para.ElgamalG secret para.ElgamalP),
        (virtualIdx draws.length).map (fun v =>
          (⟨v, Exp para.ElgamalG (Polynomial.eval ((v : Int) : ZMod q) f).val
            para.ElgamalP⟩ : PubKeyShare)),
        none) ∧
    ∀ first, (publicShares para draws ++
        [(⟨0, Exp para.ElgamalG secret para.ElgamalP⟩ : PubKeyShare)]).head? = some first →
      interpolate para 0 ((virtualIdx draws.length).map (fun v =>
          (⟨v, Exp para.ElgamalG (Polynomial.eval ((v : Int) : ZMod q) f).val
            para.ElgamalP⟩ : PubKeyShare)) ++ [first]) =
        some ⟨0, Exp para.ElgamalG secret para.ElgamalP⟩ := by
  have hp0 : p ≠ 0 := by omega
  -- the points handed to the first interpolations
  have hXs : ((publicShares para draws ++ [(⟨0, Exp para.ElgamalG secret para.ElgamalP⟩ : PubKeyShare)]).map
      fun s => ((s.X : Int) : ZMod q))
      = ((draws.map Prod.fst ++ [(0 : Int)]).map fun x => ((x : Int) : ZMod q)) := by
    simp [publicShares, ShareKeyGen, List.map_append, List.map_map, Function.comp]
  have hndA : ((publicShares para draws ++ [(⟨0, Exp para.ElgamalG secret para.ElgamalP⟩ : PubKeyShare)]).map
      fun s => ((s.X : Int) : ZMod q)).Nodup := by
    rw [hXs]
    exact nodup_real_dealer q _ _ hnd
  have hlenA : (publicShares para draws ++
      [(⟨0, Exp para.ElgamalG secret para.ElgamalP⟩ : PubKeyShare)]).length = draws.length + 1 := by
    simp [publicShares]
  have hYA : ∀ s ∈ publicShares para draws ++ [(⟨0, Exp para.ElgamalG secret para.ElgamalP⟩ : PubKeyShare)],
      ((s.Y : Int) : ZMod p) =
        ((para.ElgamalG : Int) : ZMod p) ^ (Polynomial.eval ((s.X : Int) : ZMod q) f).val := by
    intro s hs
    rcases List.mem_append.1 hs with h | h
    · obtain ⟨d, hd, rfl⟩ := List.mem_map.1 h
      simp only [ShareKeyGen]
      rw [hP, Exp_cast p hp0, gpow_val p q _ hg d.2 _ (hfx d hd).symm]
    · rw [List.mem_singleton] at h
      subst h
      simp only
      rw [hP, Exp_cast p hp0]
      have : Polynomial.eval (((0 : Int) : Int) : ZMod q) f = ((secret : Nat) : ZMod q) := by
        simpa using hf0
      rw [gpow_val p q _ hg secret _ this.symm]
  have hstep : ∀ t : Int,
      interpolate para t (publicShares para draws ++
        [(⟨0, Exp para.ElgamalG secret para.ElgamalP⟩ : PubKeyShare)]) =
      some ⟨t, Exp para.ElgamalG (Polynomial.eval ((t : Int) : ZMod q) f).val
        para.ElgamalP⟩ := fun t =>
    interpolate_poly p q hp para hP hQ hg t _ hndA f (by rw [hlenA]; exact hdeg) hYA
  have hrefresh := refreshLoop_eq para
    (publicShares para draws ++ [(⟨0, Exp para.ElgamalG secret para.ElgamalP⟩ : PubKeyShare)])
    (fun v => (⟨v, Exp para.ElgamalG (Polynomial.eval ((v : Int) : ZMod q) f).val
      para.ElgamalP⟩ : PubKeyShare)) (List.range draws.length) (fun i _ => hstep _)
  -- the first point of the extended slice
  obtain ⟨first, hfirst, hmem⟩ : ∃ first,
      (publicShares para draws ++ [(⟨0, Exp para.ElgamalG secret para.ElgamalP⟩ : PubKeyShare)]).head?
        = some first ∧
      first ∈ publicShares para draws ++ [(⟨0, Exp para.ElgamalG secret para.ElgamalP⟩ : PubKeyShare)] := by
    cases hl : publicShares para draws ++ [(⟨0, Exp para.ElgamalG secret para.ElgamalP⟩ : PubKeyShare)] with
    | nil => simp at hl
    | cons a rest => exact ⟨a, rfl, List.mem_cons_self _ _⟩
  have hfirstX : first.X ∈ (0 : Int) :: draws.map Prod.fst := by
    rcases List.mem_append.1 hmem with h | h
    · obtain ⟨d, hd, rfl⟩ := List.mem_map.1 h
      exact List.mem_cons_of_mem _ (List.mem_map.2 ⟨d, hd, rfl⟩)
    · rw [List.mem_singleton] at h
      subst h
      exact List.mem_cons_self _ _
  -- the self-check interpolation
  have hXr : (((virtualIdx draws.length).map (fun v =>
      (⟨v, Exp para.ElgamalG (Polynomial.eval ((v : Int) : ZMod q) f).val
        para.ElgamalP⟩ : PubKeyShare)) ++ [first]).map fun s => ((s.X : Int) : ZMod q))
      = ((virtualIdx draws.length ++ [first.X]).map fun x => ((x : Int) : ZMod q)) := by
    simp [List.map_append, List.map_map, Function.comp]
  have hrec := interpolate_poly p q hp para hP hQ hg 0
    ((virtualIdx draws.length).map (fun v =>
      (⟨v, Exp para.ElgamalG (Polynomial.eval ((v : Int) : ZMod q) f).val
        para.ElgamalP⟩ : PubKeyShare)) ++ [first])
    (by rw [hXr]; exact nodup_virtual_one q _ _ _ hfirstX hnd) f
    (by simpa [virtualIdx] using hdeg)
    (by
      intro s hs
      rcases List.mem_append.1 hs with h | h
      · obtain ⟨v, -, rfl⟩ := List.mem_map.1 h
        simp only
        rw [hP, Exp_cast p hp0]
      · rw [List.mem_singleton] at h
        subst h
        exact hYA _ hmem)
  have hval : Exp para.ElgamalG (Polynomial.eval (((0 : Int) : Int) : ZMod q) f).val
      para.ElgamalP = Exp para.ElgamalG secret para.ElgamalP := by
    rw [hP]
    apply Exp_val p q hp0 _ hg
    simpa using hf0.symm
  rw [hval] at hrec
  refine ⟨?_, fun first' h' => ?_⟩
  swap
  · rw [hfirst] at h'
    cases h'
    exact hrec
  unfold getPubkey
  simp only [virtualIdx, List.map_map, Function.comp_def] at hrec hrefresh ⊢
  simp only [publicShares] at hrec hrefresh hfirst ⊢
  simp only [List.length_map, hrefresh, Option.some_bind, hfirst, hrec,
    ne_eq, not_true_eq_false, if_false]

/-! ### The blinded polynomial -/

/-- Through `(0, secret)` and the points `(x_j, y_j)` with indices distinct
modulo `q` goes exactly one polynomial of degree at most `n` over `ZMod q`. -/
theorem exists_blinded_poly (q : Nat) [Fact q.Prime] (draws : List (Int × Nat)) (secret : Nat)
    (hnd : (((0 : Int) :: draws.map Prod.fst).map fun x => ((x : Int) : ZMod q)).Nodup) :
    ∃ f : Polynomial (ZMod q),
      (f.degree < ((draws.length + 1 : Nat) : WithBot Nat) ∧
        Polynomial.eval 0 f = ((secret : Nat) : ZMod q) ∧
        ∀ d ∈ draws, Polynomial.eval ((d.1 : Int) : ZMod q) f = ((d.2 : Nat) : ZMod q)) ∧
      ∀ f' : Polynomial (ZMod q),
        (f'.degree < ((draws.length + 1 : Nat) : WithBot Nat) ∧
          Polynomial.eval 0 f' = ((secret : Nat) : ZMod q) ∧
          ∀ d ∈ draws, Polynomial.eval ((d.1 : Int) : ZMod q) f' = ((d.2 : Nat) : ZMod q)) →
        f' = f := by
  classical
  let nodes : List (ZMod q) := ((0 : Int) :: draws.map Prod.fst).map fun x => ((x : Int) : ZMod q)
  let r : ZMod q → ZMod q := fun a =>
    match draws.find? (fun d => decide (((d.1 : Int) : ZMod q) = a)) with
    | some d => ((d.2 : Nat) : ZMod q)
    | none => ((secret : Nat) : ZMod q)
  have hcard : nodes.toFinset.card = draws.length + 1 := by
    rw [List.toFinset_card_of_nodup hnd]
    simp [nodes]
  have hinj : Set.InjOn (id : ZMod q → ZMod q) (nodes.toFinset : Set (ZMod q)) :=
    Set.injOn_id _
  have hnd2 : (draws.map fun d => ((d.1 : Int) : ZMod q)).Nodup := by
    have := (List.nodup_cons.1 (by simpa [List.map_cons] using hnd :
      (((0 : Int) : ZMod q) :: (draws.map Prod.fst).map fun x => ((x : Int) : ZMod q)).Nodup)).2
    simpa [List.map_map, Function.comp_def] using this
  have h0not : ∀ d ∈ draws, ((d.1 : Int) : ZMod q) ≠ 0 := by
    intro d hd hz
    have h1 := (List.nodup_cons.1 (by simpa [List.map_cons] using hnd :
      (((0 : Int) : ZMod q) :: (draws.map Prod.fst).map fun x => ((x : Int) : ZMod q)).Nodup)).1
    apply h1
    have hz' : ((d.1 : Int) : ZMod q) = (((0 : Int) : Int) : ZMod q) := by simpa using hz
    rw [← hz']
    exact List.mem_map.2 ⟨d.1, List.mem_map.2 ⟨d, hd, rfl⟩, rfl⟩
  have hr0 : r 0 = ((secret : Nat) : ZMod q) := by
    have : draws.find? (fun d => decide (((d.1 : Int) : ZMod q) = 0)) = none := by
      rw [List.find?_eq_none]
      intro d hd
      simpa using h0not d hd
    simp only [r, this]
  have hrd : ∀ d ∈ draws, r ((d.1 : Int) : ZMod q) = ((d.2 : Nat) : ZMod q) := by
    intro d hd
    cases hfind : draws.find? (fun d' => decide (((d'.1 : Int) : ZMod q) = ((d.1 : Int) : ZMod q)))
      with
    | none =>
      rw [List.find?_eq_none] at hfind
      exact absurd (by simp) (hfind d hd)
    | some d' =>
      have hp := List.find?_some hfind
      have hm := List.mem_of_find?_eq_some hfind
      have : d' = d := List.inj_on_of_nodup_map hnd2 hm hd (by simpa using hp)
      simp only [r, hfind, this]
  have hmem0 : (0 : ZMod q) ∈ nodes.toFinset := by
    simp [nodes]
  have hmemd : ∀ d ∈ draws, ((d.1 : Int) : ZMod q) ∈ nodes.toFinset := by
    intro d hd
    rw [List.mem_toFinset]
    exact List.mem_map.2 ⟨d.1, List.mem_cons_of_mem _ (List.mem_map.2 ⟨d, hd, rfl⟩), rfl⟩
  refine ⟨Lagrange.interpolate nodes.toFinset id r, ⟨?_, ?_, ?_⟩, ?_⟩
  · have := Lagrange.degree_interpolate_lt (s := nodes.toFinset) (v := id) r hinj
    rwa [hcard] at this
  · have := Lagrange.eval_interpolate_at_node (s := nodes.toFinset) (v := id) r hinj hmem0
    simpa [hr0] using this
  · intro d hd
    have := Lagrange.eval_interpolate_at_node (s := nodes.toFinset) (v := id) r hinj
      (hmemd d hd)
    simpa [hrd d hd] using this
  · rintro f' ⟨hdeg, hf0, hfx⟩
    apply Lagrange.eq_interpolate_of_eval_eq r hinj (by rw [hcard]; exact hdeg)
    intro a ha
    rw [List.mem_toFinset] at ha
    obtain ⟨x, hx, rfl⟩ := List.mem_map.1 ha
    rcases List.mem_cons.1 hx with h | h
    · subst h
      simpa [hr0] using hf0
    · obtain ⟨d, hd, rfl⟩ := List.mem_map.1 h
      simpa [hrd d hd] using hfx d hd

/-! ### Parameters of a valid group -/

theorem validGroup_params (para : ElgamalPara) (hv : ValidGroup para) :
    ∃ p q : Nat, Nat.Prime q ∧ 1 < p ∧ para.ElgamalP = (p : Int) ∧ para.ElgamalQ = (q : Int) ∧
      ((para.ElgamalG : Int) : ZMod p) ^ q = 1 := by
  obtain ⟨hP, hQ, -, hG, -⟩ := hv
  have hp1 := hP.one_lt
  have hq1 := hQ.one_lt
  obtain ⟨p, ep⟩ : ∃ p : Nat, para.ElgamalP = (p : Int) := ⟨para.ElgamalP.toNat, by omega⟩
  obtain ⟨q, eq⟩ : ∃ q : Nat, para.ElgamalQ = (q : Int) := ⟨para.ElgamalQ.toNat, by omega⟩
  rw [ep, eq] at hG
  rw [ep] at hp1 hP
  rw [eq] at hQ
  simp only [Int.toNat_natCast] at hG hp1 hP hQ
  refine ⟨p, q, hQ, hp1, ep, eq, ?_⟩
  have h1 : (((para.ElgamalG ^ q % (p : Int) : Int)) : ZMod p) = (((1 : Int) : Int) : ZMod p) := by
    rw [hG]
  rw [ZMod.intCast_mod] at h1
  simpa using h1

theorem nodup_of_noCollision (q : Nat) (para : ElgamalPara) (hQ : para.ElgamalQ = (q : Int))
    (xs : List Int) (h : NoCollision para xs) :
    (((0 : Int) :: (virtualIdx xs.length ++ xs)).map fun x => ((x : Int) : ZMod q)).Nodup := by
  unfold NoCollision at h
  rw [hQ] at h
  exact nodup_cast_of_nodup_emod q _ h

/-! ### `Encrypt` and `Decrypt` -/

theorem Encrypt_ok (para : ElgamalPara) (hP : para.ElgamalP ≠ 0) (shares : List PubKeyShare)
    (msg : List Byte) (secret y : Nat) (pk : Int) (rs : List PubKeyShare)
    (h : getPubkey para shares secret = some (some pk, rs, none)) :
    Encrypt para shares msg secret y =
      some (⟨some (Exp para.ElgamalG y para.ElgamalP),
          some (Exp pk y para.ElgamalP * SetBytes msg % para.ElgamalP),
          rs.map fun share => (⟨share.X, Exp share.Y y para.ElgamalP⟩ : PubKeyShare)⟩,
        none) := by
  simp only [Encrypt, h, Option.some_bind, bigMod, if_neg hP, Option.map_some']

theorem ModInverse_unit (p : Nat) (hp : p ≠ 0) (s : Int) (u : ZMod p)
    (h : ((s : Int) : ZMod p) * u = 1) :
    ∃ z, ModInverse s (p : Int) = some z ∧ ((s : Int) : ZMod p) * ((z : Int) : ZMod p) = 1 := by
  haveI : NeZero p := ⟨hp⟩
  have hp0 : (p : Int) ≠ 0 := by exact_mod_cast hp
  have h1 : (((s * (u.val : Int) - 1 : Int)) : ZMod p) = 0 := by
    push_cast
    rw [ZMod.natCast_zmod_val, h, sub_self]
  obtain ⟨k, hk⟩ := (ZMod.intCast_zmod_eq_zero_iff_dvd _ p).1 h1
  have hcop : IsCoprime s (p : Int) := ⟨(u.val : Int), -k, by linear_combination hk⟩
  have hgcd : Int.gcd s (p : Int) = 1 := Int.isCoprime_iff_gcd_eq_one.1 hcop
  obtain ⟨z, hz, -, -, hdvd⟩ := ModInverse_of_coprime s (p : Int) hp0 hgcd
  refine ⟨z, hz, ?_⟩
  have h2 : (((s * z - 1 : Int)) : ZMod p) = 0 := (ZMod.intCast_zmod_eq_zero_iff_dvd _ p).2 hdvd
  push_cast at h2
  linear_combination h2

theorem getPrivkey_core (p q : Nat) [Fact q.Prime] (hp : 1 < p) (para : ElgamalPara)
    (hP : para.ElgamalP = (p : Int)) (hQ : para.ElgamalQ = (q : Int))
    (hg : ((para.ElgamalG : Int) : ZMod p) ^ q = 1) (draws : List (Int × Nat)) (secret y : Nat)
    (hnd : (((0 : Int) :: (virtualIdx draws.length ++ draws.map Prod.fst)).map
      fun x => ((x : Int) : ZMod q)).Nodup)
    (f : Polynomial (ZMod q)) (hdeg : f.degree < ((draws.length + 1 : Nat) : WithBot Nat))
    (hf0 : Polynomial.eval 0 f = ((secret : Nat) : ZMod q))
    (hfx : ∀ d ∈ draws, Polynomial.eval ((d.1 : Int) : ZMod q) f = ((d.2 : Nat) : ZMod q))
    (k : Int × Nat) (hk : k ∈ draws) (c2 : Option Int) :
    getPrivkey para (ShareKeyGen para k.1 k.2).privKeyShare
      ⟨some (Exp para.ElgamalG y para.ElgamalP), c2,
        ((virtualIdx draws.length).map (fun v =>
          (⟨v, Exp para.ElgamalG (Polynomial.eval ((v : Int) : ZMod q) f).val
            para.ElgamalP⟩ : PubKeyShare))).map
          fun share => (⟨share.X, Exp share.Y y para.ElgamalP⟩ : PubKeyShare)⟩
      = some (Exp para.ElgamalG (secret * y) para.ElgamalP) := by
  have hp0 : p ≠ 0 := by omega
  have hkX : k.1 ∈ (0 : Int) :: draws.map Prod.fst :=
    List.mem_cons_of_mem _ (List.mem_map.2 ⟨k, hk, rfl⟩)
  have hX : ((((virtualIdx draws.length).map (fun v =>
          (⟨v, Exp para.ElgamalG (Polynomial.eval ((v : Int) : ZMod q) f).val
            para.ElgamalP⟩ : PubKeyShare))).map
          fun share => (⟨share.X, Exp share.Y y para.ElgamalP⟩ : PubKeyShare)) ++
        [(⟨k.1, Exp (Exp para.ElgamalG y para.ElgamalP) k.2 para.ElgamalP⟩ : PubKeyShare)]).map
          (fun s => ((s.X : Int) : ZMod q))
      = ((virtualIdx draws.length ++ [k.1]).map fun x => ((x : Int) : ZMod q)) := by
    simp [List.map_append, List.map_map, Function.comp_def]
  have hrec := interpolate_poly p q hp para hP hQ hg 0
    ((((virtualIdx draws.length).map (fun v =>
          (⟨v, Exp para.ElgamalG (Polynomial.eval ((v : Int) : ZMod q) f).val
            para.ElgamalP⟩ : PubKeyShare))).map
          fun share => (⟨share.X, Exp share.Y y para.ElgamalP⟩ : PubKeyShare)) ++
        [(⟨k.1, Exp (Exp para.ElgamalG y para.ElgamalP) k.2 para.ElgamalP⟩ : PubKeyShare)])
    (by rw [hX]; exact nodup_virtual_one q _ _ _ hkX hnd)
    (((y : Nat) : ZMod q) • f)
    (by
      have h1 : (((y : Nat) : ZMod q) • f).degree ≤ f.degree := Polynomial.degree_smul_le _ _
      have h2 : f.degree < ((draws.length + 1 : Nat) : WithBot Nat) := hdeg
      simpa [virtualIdx] using lt_of_le_of_lt h1 h2)
    (by
      intro s hs
      rcases List.mem_append.1 hs with h | h
      · obtain ⟨s', hs', rfl⟩ := List.mem_map.1 h
        obtain ⟨v, -, rfl⟩ := List.mem_map.1 hs'
        simp only
        rw [hP, Exp_cast p hp0, Exp_cast p hp0, ← pow_mul]
        symm
        apply gpow_val p q _ hg
        rw [Polynomial.eval_smul, smul_eq_mul]
        push_cast
        rw [ZMod.natCast_zmod_val]
        ring
      · rw [List.mem_singleton] at h
        subst h
        simp only
        rw [hP, Exp_cast p hp0, Exp_cast p hp0, ← pow_mul]
        symm
        apply gpow_val p q _ hg
        rw [Polynomial.eval_smul, smul_eq_mul, hfx k hk]
        push_cast
        ring)
  have hval : Exp para.ElgamalG
      (Polynomial.eval (((0 : Int) : Int) : ZMod q) (((y : Nat) : ZMod q) • f)).val para.ElgamalP
      = Exp para.ElgamalG (secret * y) para.ElgamalP := by
    rw [hP]
    apply Exp_val p q hp0 _ hg
    rw [Polynomial.eval_smul, smul_eq_mul]
    push_cast
    rw [hf0]
    ring
  rw [hval] at hrec
  simp only [getPrivkey, ShareKeyGen, Option.some_bind, hrec, Option.map_some']

theorem Decrypt_core (p q : Nat) [Fact q.Prime] (hp : 1 < p) (para : ElgamalPara)
    (hP : para.ElgamalP = (p : Int))
    (hg : ((para.ElgamalG : Int) : ZMod p) ^ q = 1) (secret y : Nat) (m : Int)
    (hm0 : 0 ≤ m) (hm1 : m < para.ElgamalP) (priv : privKeyShare) (c1 : Option Int)
    (c3 : List PubKeyShare)
    (hpk : getPrivkey para priv
      ⟨c1, some (Exp (Exp para.ElgamalG secret para.ElgamalP) y para.ElgamalP * m
        % para.ElgamalP), c3⟩ = some (Exp para.ElgamalG (secret * y) para.ElgamalP)) :
    Decrypt para priv
      ⟨c1, some (Exp (Exp para.ElgamalG secret para.ElgamalP) y para.ElgamalP * m
        % para.ElgamalP), c3⟩ = some (Bytes m) := by
  have hp0 : p ≠ 0 := by omega
  have hpz : (p : Int) ≠ 0 := by exact_mod_cast hp0
  have hq : Nat.Prime q := Fact.out
  have hunit : (((Exp para.ElgamalG (secret * y) (p : Int) : Int)) : ZMod p) *
      ((para.ElgamalG : Int) : ZMod p) ^ (secret * y * (q - 1)) = 1 := by
    rw [Exp_cast p hp0, ← pow_add]
    have : secret * y + secret * y * (q - 1) = q * (secret * y) := by
      have := hq.pos
      have e : q = (q - 1) + 1 := by omega
      nth_rewrite 2 [e]
      ring
    rw [this, pow_mul, hg, one_pow]
  obtain ⟨z, hz, hsz⟩ := ModInverse_unit p hp0 _ _ hunit
  rw [hP] at hm1
  have hmsg : (Exp (Exp para.ElgamalG secret (p : Int)) y (p : Int) * m % (p : Int) * z)
      % (p : Int) = m := by
    have hc : (((Exp (Exp para.ElgamalG secret (p : Int)) y (p : Int) * m % (p : Int) * z
        : Int)) : ZMod p) = ((m : Int) : ZMod p) := by
      push_cast
      rw [Exp_cast p hp0, Exp_cast p hp0, ← pow_mul]
      rw [Exp_cast p hp0] at hsz
      linear_combination ((m : Int) : ZMod p) * hsz
    have := (ZMod.intCast_eq_intCast_iff' _ _ p).1 hc
    rw [this, Int.emod_eq_of_lt hm0 hm1]
  rw [hP] at hpk ⊢
  simp only [Decrypt, hpk, Option.some_bind, hP, hz, bigMod, if_neg hpz, hmsg, Option.map_some']

/-! ### Indices that avoid the reserved ones -/

theorem virtualIdx_mem (n : Nat) (v : Int) : v ∈ virtualIdx n ↔ 1 ≤ v ∧ v ≤ (n : Int) := by
  simp only [virtualIdx, ReserveIdx, List.mem_map, List.mem_range]
  constructor
  · rintro ⟨i, hi, rfl⟩
    omega
  · rintro ⟨h1, h2⟩
    exact ⟨(v - 1).toNat, by omega, by omega⟩

theorem virtualIdx_nodup (n : Nat) : ((0 : Int) :: virtualIdx n).Nodup := by
  rw [List.nodup_cons]
  constructor
  · rw [virtualIdx_mem]
    omega
  · unfold virtualIdx
    apply List.Nodup.map _ (List.nodup_range n)
    intro a b h
    simp only [ReserveIdx] at h
    omega

theorem noCollision_of_avoids (q : Nat) (hq : 1 < q) (para : ElgamalPara)
    (hQ : para.ElgamalQ = (q : Int)) (xs : List Int) (hne : xs ≠ [])
    (havoid : AvoidsReserved para xs) (hdist : (xs.map fun x => x % para.ElgamalQ).Nodup) :
    NoCollision para xs := by
  obtain ⟨x, hx⟩ := List.exists_mem_of_ne_nil xs hne
  have hqpos : (0 : Int) < (q : Int) := by omega
  have hr0 : 0 ≤ x % (q : Int) := Int.emod_nonneg _ (by omega)
  have hr1 : x % (q : Int) < (q : Int) := Int.emod_lt_of_pos _ hqpos
  unfold AvoidsReserved at havoid
  rw [hQ] at havoid hdist
  -- there are fewer than `q - 1` real indices
  have hsmall : (xs.length : Int) + 1 < (q : Int) := by
    by_contra hcon
    have h0 := havoid x hx 0 (List.mem_cons_self _ _)
    simp only [Int.zero_emod] at h0
    have hv : x % (q : Int) ∈ (0 : Int) :: virtualIdx xs.length := by
      apply List.mem_cons_of_mem
      rw [virtualIdx_mem]
      omega
    have h1 := havoid x hx (x % (q : Int)) hv
    exact h1 (Int.emod_emod_of_dvd x (dvd_refl _)).symm
  have hres : ∀ v ∈ (0 : Int) :: virtualIdx xs.length, v % (q : Int) = v := by
    intro v hv
    rcases List.mem_cons.1 hv with h | h
    · subst h
      simp
    · rw [virtualIdx_mem] at h
      exact Int.emod_eq_of_lt (by omega) (by omega)
  unfold NoCollision
  rw [hQ]
  have hsplit : ((0 : Int) :: (virtualIdx xs.length ++ xs))
      = ((0 : Int) :: virtualIdx xs.length) ++ xs := rfl
  rw [hsplit, List.map_append, List.nodup_append]
  refine ⟨?_, hdist, ?_⟩
  · rw [List.map_congr_left hres, List.map_id']
    exact virtualIdx_nodup _
  · intro a ha hb
    obtain ⟨v, hv, rfl⟩ := List.mem_map.1 ha
    obtain ⟨y, hy, hvy⟩ := List.mem_map.1 hb
    exact havoid y hy v hv hvy

/-! ### Skipping by value and skipping by position -/

theorem filter_eq_eraseIdx : ∀ (l : List PubKeyShare), (l.map fun s => s.X).Nodup →
    ∀ (i : Nat) (h : i < l.length),
      (l.filter fun s => decide (s.X ≠ (l.get ⟨i, h⟩).X)) = l.eraseIdx i := by
  intro l
  induction l with
  | nil => intro _ i h; simp at h
  | cons a rest ih =>
    intro hnd i h
    rw [List.map_cons, List.nodup_cons] at hnd
    cases i with
    | zero =>
      simp only [List.get_cons_zero, List.eraseIdx_cons_zero]
      rw [List.filter_cons_of_neg (by simp)]
      apply List.filter_eq_self.2
      intro s hs
      have : s.X ≠ a.X := by
        intro hc
        exact hnd.1 (List.mem_map.2 ⟨s, hs, hc⟩)
      simpa using this
    | succ j =>
      have hj : j < rest.length := by simpa using h
      simp only [List.get_cons_succ, List.eraseIdx_cons_succ]
      have hne : a.X ≠ (rest.get ⟨j, hj⟩).X := by
        intro hc
        exact hnd.1 (List.mem_map.2 ⟨rest.get ⟨j, hj⟩, List.get_mem _ _ _, hc.symm⟩)
      rw [List.filter_cons_of_pos (by simpa using hne), ih hnd.2 j hj]

/-! ### `Setup` -/

theorem primeLoop_spec : ∀ (primes : List (Option Int)) (P Q : Int),
    primeLoop primes = some (P, Q) →
      some P ∈ primes ∧ Q = (P - 1) / 2 ∧ Nat.Prime Q.toNat := by
  intro primes
  induction primes with
  | nil => intro P Q h; simp [primeLoop] at h
  | cons d rest ih =>
    intro P Q h
    cases d with
    | none => simp [primeLoop] at h
    | some P0 =>
      simp only [primeLoop] at h
      by_cases hpr : ProbablyPrime ((P0 - 1) / 2) = true
      · rw [if_pos hpr] at h
        simp only [Option.some.injEq, Prod.mk.injEq] at h
        obtain ⟨rfl, rfl⟩ := h
        refine ⟨List.mem_cons_self _ _, rfl, ?_⟩
        simpa [ProbablyPrime] using hpr
      · rw [if_neg hpr] at h
        obtain ⟨h1, h2, h3⟩ := ih P Q h
        exact ⟨List.mem_cons_of_mem _ h1, h2, h3⟩

theorem generatorLoop_spec (Q : Int) : ∀ (reads : List (Option (List Byte))) (G : Int),
    generatorLoop Q reads = some (Except.ok G) →
      (∃ k, some k ∈ reads ∧ G = SetBytes k * SetBytes k) ∧ 4 ≤ G ∧ G < Q := by
  intro reads
  induction reads with
  | nil => intro G h; simp [generatorLoop] at h
  | cons d rest ih =>
    intro G h
    cases d with
    | none => simp [generatorLoop] at h
    | some k =>
      simp only [generatorLoop] at h
      by_cases h4 : SetBytes k * SetBytes k < 4
      · rw [if_pos h4] at h
        obtain ⟨⟨k', hk', e⟩, h2, h3⟩ := ih G h
        exact ⟨⟨k', List.mem_cons_of_mem _ hk', e⟩, h2, h3⟩
      · rw [if_neg h4] at h
        by_cases hQ : SetBytes k * SetBytes k < Q
        · rw [if_pos hQ] at h
          simp only [Option.some.injEq, Except.ok.injEq] at h
          subst h
          exact ⟨⟨k, List.mem_cons_self _ _, rfl⟩, by omega, hQ⟩
        · rw [if_neg hQ] at h
          obtain ⟨⟨k', hk', e⟩, h2, h3⟩ := ih G h
          exact ⟨⟨k', List.mem_cons_of_mem _ hk', e⟩, h2, h3⟩

/-- A square `k * k` below `Q = (P - 1) / 2` has order dividing `Q` modulo the prime `P`. -/
theorem square_pow_order (P Q k : Int) (hP : Nat.Prime P.toNat) (hQ : Q = (P - 1) / 2)
    (hQp : Nat.Prime Q.toNat) (h4 : 4 ≤ k * k) (hlt : k * k < Q) :
    (k * k) ^ Q.toNat % P = 1 := by
  have hq1 := hQp.one_lt
  have hp1 := hP.one_lt
  have hPodd : P = 2 * Q + 1 := by
    have hQ2 : 2 ≤ Q := by omega
    rcases Nat.Prime.eq_two_or_odd hP with h2 | hodd
    · omega
    · omega
  haveI : Fact (Nat.Prime P.toNat) := ⟨hP⟩
  have ePn : P = ((P.toNat : Nat) : Int) := by omega
  have hk0 : ((k : Int) : ZMod P.toNat) ≠ 0 := by
    intro hz
    rw [ZMod.intCast_zmod_eq_zero_iff_dvd, ← ePn] at hz
    have hkne : k ≠ 0 := by
      intro h0
      rw [h0] at h4
      omega
    have hle : P ≤ |k| := by
      have := Int.le_of_dvd (abs_pos.mpr hkne) ((dvd_abs P k).2 hz)
      exact this
    have habs : |k| ≤ |k| * |k| := by
      have h1 : 1 ≤ |k| := Int.one_le_abs hkne
      nlinarith
    have : |k| * |k| = k * k := abs_mul_abs_self k
    omega
  have hferm := ZMod.pow_card_sub_one_eq_one hk0
  have hexp : P.toNat - 1 = 2 * Q.toNat := by omega
  have hc : ((((k * k) ^ Q.toNat : Int)) : ZMod P.toNat) = (((1 : Int) : Int) : ZMod P.toNat) := by
    push_cast
    rw [← pow_two, ← pow_mul, ← hexp]
    exact hferm
  have h3 := (ZMod.intCast_eq_intCast_iff' _ _ P.toNat).1 hc
  rw [← ePn] at h3
  rw [h3]
  exact Int.emod_eq_of_lt (by omega) (by omega)

/-! ### The nested loop against the closed form -/

theorem weightZ_eq_specWeight (q : Nat) (t : Int) (shares : List PubKeyShare)
    (hnd : (shares.map fun s => s.X).Nodup) (i : Nat) (h : i < shares.length) :
    (weightZ q t (shares.get ⟨i, h⟩).X shares).val = specWeight q t shares i := by
  unfold weightZ specWeight
  rw [filter_eq_eraseIdx shares hnd i h]
  have : shares.getD i ⟨0, 0⟩ = shares.get ⟨i, h⟩ := by
    simp [List.getD_eq_getElem?_getD, List.getElem?_eq_getElem h]
  rw [this]

theorem interpolate_eq_spec (p q : Nat) [Fact q.Prime] (hp : 1 < p) (para : ElgamalPara)
    (hP : para.ElgamalP = (p : Int)) (hQ : para.ElgamalQ = (q : Int)) (t : Int)
    (shares : List PubKeyShare)
    (hnd : (shares.map fun s => ((s.X : Int) : ZMod q)).Nodup) :
    interpolate para t shares = some (interpolateSpec para t shares) := by
  have hndX : (shares.map fun s => s.X).Nodup := by
    have h1 : (shares.map fun s => ((s.X : Int) : ZMod q))
        = (shares.map fun s => s.X).map fun x => ((x : Int) : ZMod q) := by
      rw [List.map_map]
      rfl
    rw [h1] at hnd
    exact List.Nodup.of_map _ hnd
  obtain ⟨y, hy, h0, h1, hc⟩ := interpolate_spec p q hp para hP hQ t shares
    (separated_of_nodup q shares hnd)
  have hlist : (shares.map fun s => ((s.Y : Int) : ZMod p) ^ (weightZ q t s.X shares).val)
      = (List.range shares.length).map fun i =>
          (((shares.getD i ⟨0, 0⟩).Y : Int) : ZMod p) ^ specWeight q t shares i := by
    apply List.ext_getElem
    · simp
    · intro i h1 h2
      have hi : i < shares.length := by simpa using h1
      have hget : shares.getD i ⟨0, 0⟩ = shares.get ⟨i, hi⟩ := by
        simp [List.getD_eq_getElem?_getD, List.getElem?_eq_getElem hi]
      simp only [List.getElem_map, List.getElem_range, hget]
      rw [← weightZ_eq_specWeight q t shares hndX i hi]
      rfl
  have hq : para.ElgamalQ.toNat = q := by
    rw [hQ]
    simp
  have hcast : ((((List.range shares.length).map fun i =>
      (shares.getD i ⟨0, 0⟩).Y ^ specWeight q t shares i).prod : Int) : ZMod p)
      = ((List.range shares.length).map fun i =>
          (((shares.getD i ⟨0, 0⟩).Y : Int) : ZMod p) ^ specWeight q t shares i).prod := by
    have hm := map_list_prod (Int.castRingHom (ZMod p)) ((List.range shares.length).map fun i =>
      (shares.getD i ⟨0, 0⟩).Y ^ specWeight q t shares i)
    simp only [eq_intCast, List.map_map] at hm
    rw [hm]
    congr 1
    apply List.map_congr_left
    intro i _
    simp
  have hy2 : y = ((List.range shares.length).map fun i =>
      (shares.getD i ⟨0, 0⟩).Y ^ specWeight q t shares i).prod % (p : Int) := by
    have h3 : ((y : Int) : ZMod p) = ((((List.range shares.length).map fun i =>
        (shares.getD i ⟨0, 0⟩).Y ^ specWeight q t shares i).prod : Int) : ZMod p) := by
      rw [hcast, ← hlist]
      exact hc
    have h4 := (ZMod.intCast_eq_intCast_iff' _ _ p).1 h3
    rw [← h4, Int.emod_eq_of_lt h0 h1]
  rw [hy]
  simp only [interpolateSpec, hq, hP]
  rw [← hy2]

/-! ### `Decrypt` returns whenever the recovered value is a power of the generator -/

theorem Decrypt_returns (p q : Nat) (hq : 0 < q) (hp : 1 < p) (para : ElgamalPara)
    (hP : para.ElgamalP = (p : Int)) (g : ZMod p) (hg : g ^ q = 1) (priv : privKeyShare)
    (c1 c2 : Int) (c3 : List PubKeyShare) (s : Int) (e : Nat)
    (hpk : getPrivkey para priv ⟨some c1, some c2, c3⟩ = some s)
    (hs : ((s : Int) : ZMod p) = g ^ e) :
    ∃ out, Decrypt para priv ⟨some c1, some c2, c3⟩ = some out := by
  have hp0 : p ≠ 0 := by omega
  have hpz : (p : Int) ≠ 0 := by exact_mod_cast hp0
  have hunit : ((s : Int) : ZMod p) * g ^ (e * (q - 1)) = 1 := by
    rw [hs, ← pow_add]
    have : e + e * (q - 1) = q * e := by
      have e1 : q = (q - 1) + 1 := by omega
      nth_rewrite 2 [e1]
      ring
    rw [this, pow_mul, hg, one_pow]
  obtain ⟨z, hz, -⟩ := ModInverse_unit p hp0 _ _ hunit
  refine ⟨Bytes (c2 * z % (p : Int)), ?_⟩
  simp only [Decrypt, hpk, Option.some_bind, hP, hz, bigMod, if_neg hpz, Option.map_some']

/-! ### Honest runs in a valid group -/

theorem SetBytes_nonneg (buf : List Byte) : 0 ≤ SetBytes buf := by
  unfold SetBytes
  have key : ∀ (l : List Byte) (a : Int), 0 ≤ a →
      0 ≤ l.foldl (fun acc b => acc * 256 + (b.val : Int)) a := by
    intro l
    induction l with
    | nil => intro a h; exact h
    | cons b rest ih =>
      intro a h
      rw [List.foldl_cons]
      apply ih
      positivity
  exact key buf 0 (le_refl _)

theorem validGroup_toNat (para : ElgamalPara) (hv : ValidGroup para) :
    Nat.Prime para.ElgamalQ.toNat ∧ 1 < para.ElgamalP.toNat ∧
      para.ElgamalP = ((para.ElgamalP.toNat : Nat) : Int) ∧
      para.ElgamalQ = ((para.ElgamalQ.toNat : Nat) : Int) ∧
      ((para.ElgamalG : Int) : ZMod para.ElgamalP.toNat) ^ para.ElgamalQ.toNat = 1 := by
  obtain ⟨p, q, hq, hp, eP, eQ, hg⟩ := validGroup_params para hv
  have e1 : para.ElgamalP.toNat = p := by omega
  have e2 : para.ElgamalQ.toNat = q := by omega
  subst e1
  subst e2
  exact ⟨hq, hp, eP, eQ, hg⟩

theorem honest_run (para : ElgamalPara) (hv : ValidGroup para) (draws : List (Int × Nat))
    (hnc : NoCollision para (draws.map Prod.fst)) (secret : Nat) :
    ∃ f : Polynomial (ZMod para.ElgamalQ.toNat),
      (f.degree < ((draws.length + 1 : Nat) : WithBot Nat) ∧
        Polynomial.eval 0 f = ((secret : Nat) : ZMod para.ElgamalQ.toNat) ∧
        ∀ d ∈ draws, Polynomial.eval ((d.1 : Int) : ZMod para.ElgamalQ.toNat) f
          = ((d.2 : Nat) : ZMod para.ElgamalQ.toNat)) ∧
      (∀ f' : Polynomial (ZMod para.ElgamalQ.toNat),
        (f'.degree < ((draws.length + 1 : Nat) : WithBot Nat) ∧
          Polynomial.eval 0 f' = ((secret : Nat) : ZMod para.ElgamalQ.toNat) ∧
          ∀ d ∈ draws, Polynomial.eval ((d.1 : Int) : ZMod para.ElgamalQ.toNat) f'
            = ((d.2 : Nat) : ZMod para.ElgamalQ.toNat)) → f' = f) ∧
      getPubkey para (publicShares para draws) secret =
        some (some (Exp para.ElgamalG secret para.ElgamalP),
          (virtualIdx draws.length).map (fun v =>
            (⟨v, Exp para.ElgamalG
              (Polynomial.eval ((v : Int) : ZMod para.ElgamalQ.toNat) f).val
              para.ElgamalP⟩ : PubKeyShare)),
          none) ∧
      (∀ first, (publicShares para draws ++
          [(⟨0, Exp para.ElgamalG secret para.ElgamalP⟩ : PubKeyShare)]).head? = some first →
        interpolate para 0 ((virtualIdx draws.length).map (fun v =>
            (⟨v, Exp para.ElgamalG
              (Polynomial.eval ((v : Int) : ZMod para.ElgamalQ.toNat) f).val
              para.ElgamalP⟩ : PubKeyShare)) ++ [first]) =
          some ⟨0, Exp para.ElgamalG secret para.ElgamalP⟩) ∧
      ∀ (y : Nat) (k : Int × Nat), k ∈ draws → ∀ c2 : Option Int,
        getPrivkey para (ShareKeyGen para k.1 k.2).privKeyShare
          ⟨some (Exp para.ElgamalG y para.ElgamalP), c2,
            ((virtualIdx draws.length).map (fun v =>
              (⟨v, Exp para.ElgamalG
                (Polynomial.eval ((v : Int) : ZMod para.ElgamalQ.toNat) f).val
                para.ElgamalP⟩ : PubKeyShare))).map
              fun share => (⟨share.X, Exp share.Y y para.ElgamalP⟩ : PubKeyShare)⟩
          = some (Exp para.ElgamalG (secret * y) para.ElgamalP) := by
  obtain ⟨hq, hp, eP, eQ, hg⟩ := validGroup_toNat para hv
  haveI : Fact (Nat.Prime para.ElgamalQ.toNat) := ⟨hq⟩
  have hnd := nodup_of_noCollision para.ElgamalQ.toNat para eQ _ hnc
  rw [List.length_map] at hnd
  have hnd0 : (((0 : Int) :: draws.map Prod.fst).map
      fun x => ((x : Int) : ZMod para.ElgamalQ.toNat)).Nodup := by
    have hsub : ((0 : Int) :: draws.map Prod.fst).Sublist
        ((0 : Int) :: (virtualIdx draws.length ++ draws.map Prod.fst)) :=
      List.Sublist.cons₂ _ (List.sublist_append_right _ _)
    exact List.Nodup.sublist (hsub.map _) hnd
  obtain ⟨f, ⟨hdeg, hf0, hfx⟩, huniq⟩ :=
    exists_blinded_poly para.ElgamalQ.toNat draws secret hnd0
  obtain ⟨hpub, hself⟩ := getPubkey_core para.ElgamalP.toNat para.ElgamalQ.toNat hp para eP eQ hg
    draws secret hnd f hdeg hf0 hfx
  refine ⟨f, ⟨hdeg, hf0, hfx⟩, huniq, hpub, hself, ?_⟩
  intro y k hk c2
  exact getPrivkey_core para.ElgamalP.toNat para.ElgamalQ.toNat hp para eP eQ hg draws secret y
    hnd f hdeg hf0 hfx k hk c2

/-! ### Failure of `interpolate` -/

theorem weightStep_none (para : ElgamalPara) (hQ : Nat.Prime para.ElgamalQ.toNat)
    (t xa w : Int) (sj : PubKeyShare) (hne : xa ≠ sj.X)
    (hcong : xa % para.ElgamalQ = sj.X % para.ElgamalQ) :
    weightStep para t xa w sj = none := by
  have hq1 := hQ.one_lt
  have hQ0 : para.ElgamalQ ≠ 0 := by omega
  have hz : (xa - sj.X) % para.ElgamalQ = 0 :=
    Int.emod_eq_emod_iff_emod_sub_eq_zero.1 hcong
  have hgcd : Int.gcd 0 para.ElgamalQ ≠ 1 := by
    rw [Int.gcd_zero_left]
    omega
  simp only [weightStep, bigMod, if_neg hQ0, ne_eq, hne, not_false_eq_true, if_true,
    Option.some_bind, hz, ModInverse_of_not_coprime 0 para.ElgamalQ hQ0 hgcd, Option.none_bind]

theorem weightLoop_none (para : ElgamalPara) (hQ : Nat.Prime para.ElgamalQ.toNat)
    (t xa : Int) : ∀ (l : List PubKeyShare) (w : Int),
    (∃ b ∈ l, xa ≠ b.X ∧ xa % para.ElgamalQ = b.X % para.ElgamalQ) →
    weightLoop para t xa l w = none := by
  intro l
  induction l with
  | nil => intro w h; obtain ⟨b, hb, -⟩ := h; simp at hb
  | cons sj rest ih =>
    intro w h
    obtain ⟨b, hb, hne, hcong⟩ := h
    simp only [weightLoop]
    rcases List.mem_cons.1 hb with h1 | h1
    · subst h1
      rw [weightStep_none para hQ t xa w b hne hcong]
      rfl
    · cases hstep : weightStep para t xa w sj with
      | none => rfl
      | some w1 =>
        simp only [Option.some_bind]
        exact ih w1 ⟨b, h1, hne, hcong⟩

theorem shareLoop_none (para : ElgamalPara) (hQ : Nat.Prime para.ElgamalQ.toNat)
    (t : Int) (shares : List PubKeyShare) : ∀ (l : List PubKeyShare) (acc : Int),
    (∃ a ∈ l, ∃ b ∈ shares, a.X ≠ b.X ∧ a.X % para.ElgamalQ = b.X % para.ElgamalQ) →
    shareLoop para t shares l acc = none := by
  intro l
  induction l with
  | nil => intro acc h; obtain ⟨a, ha, -⟩ := h; simp at ha
  | cons si rest ih =>
    intro acc h
    obtain ⟨a, ha, b, hb, hne, hcong⟩ := h
    simp only [shareLoop]
    rcases List.mem_cons.1 ha with h1 | h1
    · subst h1
      rw [weightLoop_none para hQ t a.X shares 1 ⟨b, hb, hne, hcong⟩]
      rfl
    · cases hw : weightLoop para t si.X shares 1 with
      | none => rfl
      | some w =>
        simp only [Option.some_bind]
        cases hm : bigMod (acc * Exp si.Y w.toNat para.ElgamalP) para.ElgamalP with
        | none => rfl
        | some y =>
          simp only [Option.some_bind]
          exact ih y ⟨a, h1, b, hb, hne, hcong⟩

theorem interpolate_none_of_collision (para : ElgamalPara)
    (hQ : Nat.Prime para.ElgamalQ.toNat) (t : Int) (shares : List PubKeyShare)
    (h : ∃ a ∈ shares, ∃ b ∈ shares, a.X ≠ b.X ∧ a.X % para.ElgamalQ = b.X % para.ElgamalQ) :
    interpolate para t shares = none := by
  simp only [interpolate, shareLoop_none para hQ t shares shares 1 h, Option.map_none']

theorem shareLoop_some (para : ElgamalPara) (hP : para.ElgamalP ≠ 0) (t : Int)
    (shares : List PubKeyShare) : ∀ (l : List PubKeyShare) (acc : Int),
    (∀ si ∈ l, ∃ w, weightLoop para t si.X shares 1 = some w) →
    ∃ y, shareLoop para t shares l acc = some y := by
  intro l
  induction l with
  | nil => intro acc _; exact ⟨acc, rfl⟩
  | cons si rest ih =>
    intro acc h
    obtain ⟨w, hw⟩ := h si (List.mem_cons_self _ _)
    obtain ⟨y, hy⟩ := ih (acc * Exp si.Y w.toNat para.ElgamalP % para.ElgamalP)
      (fun s hs => h s (List.mem_cons_of_mem _ hs))
    exact ⟨y, by simp only [shareLoop, hw, Option.some_bind, bigMod, if_neg hP, hy]⟩

theorem separated_of_no_collision (para : ElgamalPara) (shares : List PubKeyShare)
    (h : ¬ ∃ a ∈ shares, ∃ b ∈ shares,
      a.X ≠ b.X ∧ a.X % para.ElgamalQ = b.X % para.ElgamalQ)
    (hQnn : 0 ≤ para.ElgamalQ) :
    Separated para.ElgamalQ.toNat shares := by
  intro a ha b hb
  by_cases hab : a.X = b.X
  · exact Or.inl hab
  · right
    intro hc
    have h1 := (ZMod.intCast_eq_intCast_iff' _ _ _).1 hc
    rw [Int.toNat_of_nonneg hQnn] at h1
    exact h ⟨a, ha, b, hb, hab, h1⟩

theorem interpolate_some_of_separated (para : ElgamalPara)
    (hQ : Nat.Prime para.ElgamalQ.toNat) (hP : para.ElgamalP ≠ 0) (t : Int)
    (shares : List PubKeyShare) (hsep : Separated para.ElgamalQ.toNat shares) :
    ∃ r, interpolate para t shares = some r := by
  haveI : Fact (Nat.Prime para.ElgamalQ.toNat) := ⟨hQ⟩
  have hq1 := hQ.one_lt
  have eQ : para.ElgamalQ = ((para.ElgamalQ.toNat : Nat) : Int) := by omega
  obtain ⟨y, hy⟩ := shareLoop_some para hP t shares shares 1 (by
    intro si hsi
    obtain ⟨w, hw, -, -⟩ := weightLoop_spec para.ElgamalQ.toNat para eQ t si.X shares 1
      (fun s hs => hsep s hs si hsi)
    exact ⟨w, hw⟩)
  exact ⟨⟨t, y⟩, by simp only [interpolate, hy, Option.map_some']⟩

theorem interpolate_index (para : ElgamalPara) (t : Int) (shares : List PubKeyShare)
    (r : PubKeyShare) (h : interpolate para t shares = some r) : r.X = t := by
  simp only [interpolate, Option.map_eq_some'] at h
  obtain ⟨y, -, rfl⟩ := h
  rfl

/-! ### The minimal big-endian encoding -/

theorem bytesLoop_append : ∀ (fuel n : Nat) (acc : List Byte),
    bytesLoop fuel n acc = bytesLoop fuel n [] ++ acc := by
  intro fuel
  induction fuel with
  | zero => intro n acc; simp [bytesLoop]
  | succ k ih =>
    intro n acc
    unfold bytesLoop
    by_cases hn : n = 0
    · simp [hn]
    · rw [if_neg hn, if_neg hn, ih (n / 256) (Fin.ofNat (n % 256) :: acc),
        ih (n / 256) [Fin.ofNat (n % 256)]]
      simp

theorem bytesLoop_fuel : ∀ (f1 f2 n : Nat) (acc : List Byte), n ≤ f1 → n ≤ f2 →
    bytesLoop f1 n acc = bytesLoop f2 n acc := by
  intro f1
  induction f1 with
  | zero =>
    intro f2 n acc h1 _
    have : n = 0 := by omega
    subst this
    cases f2 <;> simp [bytesLoop]
  | succ k ih =>
    intro f2 n acc h1 h2
    cases f2 with
    | zero =>
      have : n = 0 := by omega
      subst this
      simp [bytesLoop]
    | succ k2 =>
      unfold bytesLoop
      by_cases hn : n = 0
      · simp [hn]
      · rw [if_neg hn, if_neg hn]
        exact ih k2 (n / 256) _ (by omega) (by omega)

theorem Bytes_zero : Bytes 0 = [] := rfl

theorem Bytes_step (n : Nat) (hn : n ≠ 0) :
    Bytes (n : Int) = Bytes ((n / 256 : Nat) : Int) ++ [Fin.ofNat (n % 256)] := by
  unfold Bytes
  simp only [Int.natAbs_ofNat]
  obtain ⟨m, rfl⟩ : ∃ m, n = m + 1 := ⟨n - 1, by omega⟩
  conv_lhs => unfold bytesLoop
  rw [if_neg hn, bytesLoop_append, bytesLoop_fuel m ((m + 1) / 256) ((m + 1) / 256) []
    (by omega) (le_refl _)]

theorem Bytes_ne_nil (n : Nat) (hn : n ≠ 0) : Bytes (n : Int) ≠ [] := by
  rw [Bytes_step n hn]
  simp

theorem Bytes_head (n : Nat) : (Bytes (n : Int)).head? ≠ some 0 := by
  induction n using Nat.strong_induction_on with
  | _ n ih =>
    by_cases hn : n = 0
    · subst hn
      simp [Bytes_zero]
    · rw [Bytes_step n hn]
      by_cases hd : n / 256 = 0
      · rw [hd]
        simp only [Nat.cast_zero, Bytes_zero, List.nil_append, List.head?_cons, ne_eq,
          Option.some.injEq]
        intro h0
        have h1 := congrArg Fin.val h0
        simp only [Fin.ofNat, Nat.mod_mod, Fin.val_zero] at h1
        have h2 : n < 256 := by
          by_contra hc
          have : 1 ≤ n / 256 := Nat.div_pos (by omega) (by norm_num)
          omega
        omega
      · have hne := Bytes_ne_nil (n / 256) hd
        rw [List.head?_append_of_ne_nil _ hne]
        exact ih (n / 256) (by omega)

theorem SetBytes_append (l : List Byte) (b : Byte) :
    SetBytes (l ++ [b]) = SetBytes l * 256 + (b.val : Int) := by
  simp [SetBytes, List.foldl_append]

theorem Bytes_SetBytes : ∀ (msg : List Byte), msg.head? ≠ some 0 →
    Bytes (SetBytes msg) = msg := by
  intro msg
  induction msg using List.reverseRecOn with
  | nil => intro _; rfl
  | append_singleton l b ih =>
    intro hhead
    have hnn := SetBytes_nonneg l
    obtain ⟨s, hs⟩ : ∃ s : Nat, SetBytes l = (s : Int) := ⟨(SetBytes l).toNat, by omega⟩
    have hb : b.val < 256 := b.isLt
    rw [SetBytes_append, hs]
    by_cases hl : l = []
    · subst hl
      have hs0 : s = 0 := by
        have : SetBytes [] = 0 := rfl
        omega
      subst hs0
      have hb0 : b.val ≠ 0 := by
        intro h0
        apply hhead
        simp only [List.nil_append, List.head?_cons, Option.some.injEq]
        exact Fin.ext h0
      have e : ((0 : Nat) : Int) * 256 + (b.val : Int) = ((b.val : Nat) : Int) := by simp
      rw [e, Bytes_step b.val hb0]
      have hd : b.val / 256 = 0 := by omega
      rw [hd]
      simp only [Nat.cast_zero, Bytes_zero, List.nil_append, List.cons.injEq, and_true]
      apply Fin.ext
      simp only [Fin.ofNat, Nat.mod_mod]
      omega
    · have hhead' : l.head? ≠ some 0 := by
        rwa [List.head?_append_of_ne_nil _ hl] at hhead
      have ihl := ih hhead'
      rw [hs] at ihl
      have hs0 : s ≠ 0 := by
        intro h0
        rw [h0] at ihl
        exact hl (by rw [← ihl]; rfl)
      have e : ((s : Nat) : Int) * 256 + (b.val : Int) = ((s * 256 + b.val : Nat) : Int) := by
        push_cast
        rfl
      rw [e, Bytes_step (s * 256 + b.val) (by omega)]
      have hd : (s * 256 + b.val) / 256 = s := by omega
      have hm : (s * 256 + b.val) % 256 = b.val := by omega
      rw [hd, hm, ihl]
      congr 1
      simp only [List.cons.injEq, and_true]
      apply Fin.ext
      simp only [Fin.ofNat]
      omega

/-! ### Iterated exponentiation -/

theorem Exp_Exp (x : Int) (a b : Nat) (m : Int) :
    Exp (Exp x a m) b m = Exp x (a * b) m := by
  by_cases hm : m = 0
  · simp only [Exp, if_pos hm, ← pow_mul]
  · simp only [Exp, if_neg hm]
    have h1 : (x ^ a % m) ^ b ≡ (x ^ a) ^ b [ZMOD m] := (Int.mod_modEq _ _).pow b
    rw [← pow_mul] at h1
    exact h1

/-! ### `Decrypt` on a message that need not be below `P` -/

theorem Decrypt_core_mod (p q : Nat) (hq : 0 < q) (hp : 1 < p) (para : ElgamalPara)
    (hP : para.ElgamalP = (p : Int))
    (hg : ((para.ElgamalG : Int) : ZMod p) ^ q = 1) (secret y : Nat) (m : Int)
    (priv : privKeyShare) (c1 : Option Int) (c3 : List PubKeyShare)
    (hpk : getPrivkey para priv
      ⟨c1, some (Exp (Exp para.ElgamalG secret para.ElgamalP) y para.ElgamalP * m
        % para.ElgamalP), c3⟩ = some (Exp para.ElgamalG (secret * y) para.ElgamalP)) :
    Decrypt para priv
      ⟨c1, some (Exp (Exp para.ElgamalG secret para.ElgamalP) y para.ElgamalP * m
        % para.ElgamalP), c3⟩ = some (Bytes (m % para.ElgamalP)) := by
  have hp0 : p ≠ 0 := by omega
  have hpz : (p : Int) ≠ 0 := by exact_mod_cast hp0
  have hunit : (((Exp para.ElgamalG (secret * y) (p : Int) : Int)) : ZMod p) *
      ((para.ElgamalG : Int) : ZMod p) ^ (secret * y * (q - 1)) = 1 := by
    rw [Exp_cast p hp0, ← pow_add]
    have : secret * y + secret * y * (q - 1) = q * (secret * y) := by
      have e : q = (q - 1) + 1 := by omega
      nth_rewrite 2 [e]
      ring
    rw [this, pow_mul, hg, one_pow]
  obtain ⟨z, hz, hsz⟩ := ModInverse_unit p hp0 _ _ hunit
  have hmsg : (Exp (Exp para.ElgamalG secret (p : Int)) y (p : Int) * m % (p : Int) * z)
      % (p : Int) = m % (p : Int) := by
    have hc : (((Exp (Exp para.ElgamalG secret (p : Int)) y (p : Int) * m % (p : Int) * z
        : Int)) : ZMod p) = ((m : Int) : ZMod p) := by
      push_cast
      rw [Exp_cast p hp0, Exp_cast p hp0, ← pow_mul]
      rw [Exp_cast p hp0] at hsz
      linear_combination ((m : Int) : ZMod p) * hsz
    exact (ZMod.intCast_eq_intCast_iff' _ _ p).1 hc
  rw [hP] at hpk ⊢
  simp only [Decrypt, hpk, Option.some_bind, hP, hz, bigMod, if_neg hpz, hmsg, Option.map_some']

/-! ### The indices of the refreshed shares -/

theorem refreshLoop_indices (para : ElgamalPara) (shares : List PubKeyShare) :
    ∀ (is : List Nat) (rs : List PubKeyShare), refreshLoop para shares is = some rs →
      rs.map (fun s => s.X) = is.map fun (i : Nat) => ReserveIdx + (i : Int) := by
  intro is
  induction is with
  | nil =>
    intro rs h
    simp only [refreshLoop, Option.some.injEq] at h
    subst h
    rfl
  | cons i rest ih =>
    intro rs h
    simp only [refreshLoop, Option.bind_eq_some, Option.map_eq_some'] at h
    obtain ⟨s, hs, l, hl, rfl⟩ := h
    rw [List.map_cons, List.map_cons, ih l hl, interpolate_index para _ shares s hs]

theorem getPubkey_indices (para : ElgamalPara) (shares : List PubKeyShare) (secret : Nat)
    (pk : Option Int) (rs : List PubKeyShare)
    (h : getPubkey para shares secret = some (pk, rs, none)) :
    rs.map (fun s => s.X) = virtualIdx shares.length := by
  unfold getPubkey at h
  simp only [Option.bind_eq_some] at h
  obtain ⟨newShares, hnew, first, -, recover, -, h⟩ := h
  by_cases hc : recover.Y ≠ Exp para.ElgamalG secret para.ElgamalP
  · rw [if_pos hc] at h
    simp at h
  · rw [if_neg hc] at h
    simp only [Option.some.injEq, Prod.mk.injEq, and_true] at h
    rw [← h.2]
    exact refreshLoop_indices para _ _ _ hnew

/-! ### The weights at a node -/

theorem weightZ_self (q : Nat) [Fact q.Prime] (xa : Int) (shares : List PubKeyShare)
    (hsep : ∀ s ∈ shares, s.X = xa ∨ ((s.X : Int) : ZMod q) ≠ ((xa : Int) : ZMod q)) :
    weightZ q xa xa shares = 1 := by
  unfold weightZ
  apply List.prod_eq_one
  intro z hz
  obtain ⟨s, hs, rfl⟩ := List.mem_map.1 hz
  rw [List.mem_filter] at hs
  have hne : s.X ≠ xa := by simpa using hs.2
  have hd : ((xa : Int) : ZMod q) - ((s.X : Int) : ZMod q) ≠ 0 := by
    rcases hsep s hs.1 with h | h
    · exact absurd h hne
    · intro hc
      exact h (sub_eq_zero.mp hc).symm
  exact mul_inv_cancel₀ hd

theorem weightZ_other (q : Nat) [Fact q.Prime] (t xa : Int) (shares : List PubKeyShare)
    (ht : ∃ s ∈ shares, s.X = t) (hne : t ≠ xa) :
    weightZ q t xa shares = 0 := by
  unfold weightZ
  obtain ⟨s, hs, hst⟩ := ht
  apply List.prod_eq_zero
  apply List.mem_map.2
  refine ⟨s, List.mem_filter.2 ⟨hs, by simpa [hst] using hne⟩, ?_⟩
  rw [hst]
  simp

/-! ### Interpolating at a node -/

theorem prod_single (p : Nat) (f : PubKeyShare → ZMod p) :
    ∀ (l : List PubKeyShare), (l.map fun s => s.X).Nodup → ∀ sk ∈ l,
      (l.map fun s => if s.X = sk.X then f s else 1).prod = f sk := by
  intro l
  induction l with
  | nil => intro _ sk hsk; simp at hsk
  | cons a rest ih =>
    intro hnd sk hsk
    rw [List.map_cons, List.nodup_cons] at hnd
    rw [List.map_cons, List.prod_cons]
    rcases List.mem_cons.1 hsk with h | h
    · subst h
      have hrest : (rest.map fun s => if s.X = sk.X then f s else 1).prod = 1 := by
        apply List.prod_eq_one
        intro z hz
        obtain ⟨s, hs, rfl⟩ := List.mem_map.1 hz
        have : s.X ≠ sk.X := by
          intro hc
          exact hnd.1 (List.mem_map.2 ⟨s, hs, hc⟩)
        rw [if_neg this]
      rw [hrest, if_pos rfl, mul_one]
    · have hne : a.X ≠ sk.X := by
        intro hc
        exact hnd.1 (List.mem_map.2 ⟨sk, h, hc.symm⟩)
      rw [if_neg hne, one_mul]
      exact ih hnd.2 sk h

theorem interpolate_at_node (p q : Nat) [Fact q.Prime] (hp : 1 < p) (para : ElgamalPara)
    (hP : para.ElgamalP = (p : Int)) (hQ : para.ElgamalQ = (q : Int))
    (shares : List PubKeyShare)
    (hnd : (shares.map fun s => ((s.X : Int) : ZMod q)).Nodup)
    (hY : ∀ s ∈ shares, 0 ≤ s.Y ∧ s.Y < para.ElgamalP) (sk : PubKeyShare) (hsk : sk ∈ shares) :
    interpolate para sk.X shares = some sk ∧
      ∀ s ∈ shares, weightLoop para sk.X s.X shares 1 = some (if s.X = sk.X then 1 else 0) := by
  have hq : Nat.Prime q := Fact.out
  haveI : Fact (1 < q) := ⟨hq.one_lt⟩
  have hq1 : (1 : Int) < (q : Int) := by exact_mod_cast hq.one_lt
  have hsep := separated_of_nodup q shares hnd
  have hndX : (shares.map fun s => s.X).Nodup := by
    have h1 : (shares.map fun s => ((s.X : Int) : ZMod q))
        = (shares.map fun s => s.X).map fun x => ((x : Int) : ZMod q) := by
      rw [List.map_map]
      rfl
    rw [h1] at hnd
    exact List.Nodup.of_map _ hnd
  have hw : ∀ s ∈ shares, weightZ q sk.X s.X shares = if s.X = sk.X then 1 else 0 := by
    intro s hs
    by_cases hx : s.X = sk.X
    · rw [if_pos hx, hx]
      exact weightZ_self q sk.X shares (fun s' hs' => hsep s' hs' sk hsk)
    · rw [if_neg hx]
      exact weightZ_other q sk.X s.X shares ⟨sk, hsk, rfl⟩ (fun h => hx h.symm)
  constructor
  · obtain ⟨y, hy, h0, h1, hc⟩ := interpolate_spec p q hp para hP hQ sk.X shares hsep
    have hmap : (shares.map fun s => ((s.Y : Int) : ZMod p) ^ (weightZ q sk.X s.X shares).val)
        = shares.map fun s => if s.X = sk.X then ((s.Y : Int) : ZMod p) else 1 := by
      apply List.map_congr_left
      intro s hs
      rw [hw s hs]
      by_cases hx : s.X = sk.X
      · simp [hx, ZMod.val_one]
      · simp [hx]
    rw [hmap, prod_single p (fun s => ((s.Y : Int) : ZMod p)) shares hndX sk hsk] at hc
    have h3 := (ZMod.intCast_eq_intCast_iff' _ _ p).1 hc
    obtain ⟨hk0, hk1⟩ := hY sk hsk
    rw [hP] at hk1
    rw [Int.emod_eq_of_lt h0 h1, Int.emod_eq_of_lt hk0 hk1] at h3
    rw [hy, h3]
  · intro s hs
    obtain ⟨w, hwl, hwc, hwb⟩ := weightLoop_spec q para hQ sk.X s.X shares 1
      (fun s' hs' => hsep s' hs' s hs)
    obtain ⟨hw0, hw1⟩ := hwb ⟨by norm_num, hq1⟩
    have hwz : (w : ZMod q) = weightZ q sk.X s.X shares := by simpa using hwc
    have hnat := weight_toNat q w _ hwz hw0 hw1
    rw [hw s hs] at hnat
    rw [hwl]
    by_cases hx : s.X = sk.X
    · rw [if_pos hx] at hnat ⊢
      rw [ZMod.val_one] at hnat
      congr 1
      omega
    · rw [if_neg hx] at hnat ⊢
      rw [ZMod.val_zero] at hnat
      congr 1
      omega

/-! ### Raising every value to a power -/

theorem weightLoop_map (para : ElgamalPara) (t xa : Int) (f : PubKeyShare → PubKeyShare)
    (hf : ∀ s, (f s).X = s.X) : ∀ (l : List PubKeyShare) (w : Int),
    weightLoop para t xa (l.map f) w = weightLoop para t xa l w := by
  intro l
  induction l with
  | nil => intro w; rfl
  | cons s rest ih =>
    intro w
    have hstep : weightStep para t xa w (f s) = weightStep para t xa w s := by
      simp only [weightStep, hf]
    simp only [List.map_cons, weightLoop, hstep]
    cases weightStep para t xa w s with
    | none => rfl
    | some w1 => exact ih w1

theorem shareLoop_pow (p : Nat) (hp : p ≠ 0) (para : ElgamalPara)
    (hP : para.ElgamalP = (p : Int)) (t : Int) (y : Nat) (shares : List PubKeyShare) :
    ∀ (l : List PubKeyShare) (acc acc1 r : Int),
      shareLoop para t shares l acc = some r →
      ((acc1 : Int) : ZMod p) = ((acc : Int) : ZMod p) ^ y →
      ∃ r1, shareLoop para t
          (shares.map fun s => (⟨s.X, Exp s.Y y para.ElgamalP⟩ : PubKeyShare))
          (l.map fun s => (⟨s.X, Exp s.Y y para.ElgamalP⟩ : PubKeyShare)) acc1 = some r1 ∧
        ((r1 : Int) : ZMod p) = ((r : Int) : ZMod p) ^ y ∧
        (l ≠ [] → 0 ≤ r1 ∧ r1 < (p : Int)) ∧ (l = [] → r1 = acc1 ∧ r = acc) := by
  have hp0 : (p : Int) ≠ 0 := by exact_mod_cast hp
  have hppos : (0 : Int) < (p : Int) := by
    have := Nat.pos_of_ne_zero hp
    exact_mod_cast this
  intro l
  induction l with
  | nil =>
    intro acc acc1 r h hc
    simp only [shareLoop, Option.some.injEq] at h
    subst h
    exact ⟨acc1, rfl, hc, fun h => absurd rfl h, fun _ => ⟨rfl, rfl⟩⟩
  | cons si rest ih =>
    intro acc acc1 r h hc
    simp only [shareLoop, Option.bind_eq_some] at h
    obtain ⟨w, hw, a1, ha1, hrest⟩ := h
    simp only [bigMod, hP, if_neg hp0, Option.some.injEq] at ha1
    have hcast : (((acc1 * Exp (Exp si.Y y (p : Int)) w.toNat (p : Int) % (p : Int) : Int)) :
        ZMod p) = ((a1 : Int) : ZMod p) ^ y := by
      rw [← ha1, ZMod.intCast_mod, ZMod.intCast_mod]
      push_cast
      rw [Exp_cast p hp, Exp_cast p hp, Exp_cast p hp, hc, mul_pow, ← pow_mul, ← pow_mul,
        Nat.mul_comm]
    obtain ⟨r1, hr1, hrc, hrb, hre⟩ := ih a1
      (acc1 * Exp (Exp si.Y y (p : Int)) w.toNat (p : Int) % (p : Int)) r hrest hcast
    refine ⟨r1, ?_, hrc, fun _ => ?_, fun h => absurd h (List.cons_ne_nil _ _)⟩
    · have hwm := weightLoop_map para t si.X
        (fun s => (⟨s.X, Exp s.Y y para.ElgamalP⟩ : PubKeyShare)) (fun _ => rfl) shares 1
      rw [hP] at hwm hr1
      rw [List.map_cons]
      simp only [shareLoop, hP, hwm, hw, Option.some_bind, bigMod, if_neg hp0]
      exact hr1
    · by_cases hr : rest = []
      · rw [(hre hr).1]
        exact ⟨Int.emod_nonneg _ hp0, Int.emod_lt_of_pos _ hppos⟩
      · exact hrb hr

/-! ### The sign of the modulus `P` is ignored -/

theorem Exp_abs (x : Int) (y : Nat) (m : Int) : Exp x y |m| = Exp x y m := by
  unfold Exp
  by_cases h : m = 0
  · subst h
    simp
  · rw [if_neg h, if_neg (abs_ne_zero.2 h), Int.emod_abs]

theorem bigMod_abs (x m : Int) : bigMod x |m| = bigMod x m := by
  unfold bigMod
  by_cases h : m = 0
  · subst h
    simp
  · rw [if_neg h, if_neg (abs_ne_zero.2 h), Int.emod_abs]

theorem weightLoop_modulus (para para2 : ElgamalPara) (h : para.ElgamalQ = para2.ElgamalQ)
    (t xa : Int) : ∀ (l : List PubKeyShare) (w : Int),
    weightLoop para t xa l w = weightLoop para2 t xa l w := by
  intro l
  induction l with
  | nil => intro w; rfl
  | cons sj rest ih =>
    intro w
    have hstep : weightStep para t xa w sj = weightStep para2 t xa w sj := by
      simp only [weightStep, h]
    simp only [weightLoop, hstep]
    cases weightStep para2 t xa w sj with
    | none => rfl
    | some w1 => exact ih w1

theorem shareLoop_abs (para : ElgamalPara) (t : Int) (shares : List PubKeyShare) :
    ∀ (l : List PubKeyShare) (acc : Int),
    shareLoop ⟨|para.ElgamalP|, para.ElgamalG, para.ElgamalQ, para.ParamLen⟩ t shares l acc
      = shareLoop para t shares l acc := by
  intro l
  induction l with
  | nil => intro acc; rfl
  | cons si rest ih =>
    intro acc
    have hw := weightLoop_modulus
      ⟨|para.ElgamalP|, para.ElgamalG, para.ElgamalQ, para.ParamLen⟩ para rfl t si.X shares 1
    simp only [shareLoop, hw, Exp_abs, bigMod_abs]
    cases weightLoop para t si.X shares 1 with
    | none => rfl
    | some w =>
      simp only [Option.some_bind]
      cases bigMod (acc * Exp si.Y w.toNat para.ElgamalP) para.ElgamalP with
      | none => rfl
      | some y => exact ih y

theorem interpolate_abs (para : ElgamalPara) (t : Int) (shares : List PubKeyShare) :
    interpolate ⟨|para.ElgamalP|, para.ElgamalG, para.ElgamalQ, para.ParamLen⟩ t shares
      = interpolate para t shares := by
  simp only [interpolate, shareLoop_abs]

theorem interpolateSpec_abs (para : ElgamalPara) (t : Int) (shares : List PubKeyShare) :
    interpolateSpec ⟨|para.ElgamalP|, para.ElgamalG, para.ElgamalQ, para.ParamLen⟩ t shares
      = interpolateSpec para t shares := by
  simp only [interpolateSpec, Int.emod_abs]

/-! ### The closed form for every non-zero modulus -/

theorem interpolate_eq_spec_nat (p q : Nat) [Fact q.Prime] (hp : p ≠ 0) (para : ElgamalPara)
    (hP : para.ElgamalP = (p : Int)) (hQ : para.ElgamalQ = (q : Int)) (t : Int)
    (shares : List PubKeyShare)
    (hnd : (shares.map fun s => ((s.X : Int) : ZMod q)).Nodup)
    (hne : shares ≠ [] ∨ 1 < p) :
    interpolate para t shares = some (interpolateSpec para t shares) := by
  by_cases h1 : 1 < p
  · exact interpolate_eq_spec p q h1 para hP hQ t shares hnd
  · have hp1 : p = 1 := by omega
    have hs : shares ≠ [] := by
      rcases hne with h | h
      · exact h
      · exact absurd h h1
    obtain ⟨y, hy, -, hyb⟩ := shareLoop_spec p q hp para hP hQ t shares
      (separated_of_nodup q shares hnd) shares 1 (fun s hs => hs)
    obtain ⟨h0, h2⟩ := hyb hs
    have hy0 : y = 0 := by
      rw [hp1] at h2
      push_cast at h2
      omega
    simp only [interpolate, hy, Option.map_some', interpolateSpec, hP, hp1, hy0]
    simp

theorem interpolate_eq_spec_of_ne_zero (para : ElgamalPara) (hP : para.ElgamalP ≠ 0)
    (hQ : Nat.Prime para.ElgamalQ.toNat) (t : Int) (shares : List PubKeyShare)
    (hnd : (shares.map fun s => ((s.X : Int) : ZMod para.ElgamalQ.toNat)).Nodup)
    (hne : shares ≠ [] ∨ 1 < |para.ElgamalP|) :
    interpolate para t shares = some (interpolateSpec para t shares) := by
  have hq1 := hQ.one_lt
  have eQ : para.ElgamalQ = ((para.ElgamalQ.toNat : Nat) : Int) := by omega
  haveI : Fact (Nat.Prime para.ElgamalQ.toNat) := ⟨hQ⟩
  have hp0 : para.ElgamalP.natAbs ≠ 0 := Int.natAbs_ne_zero.2 hP
  have h := interpolate_eq_spec_nat para.ElgamalP.natAbs para.ElgamalQ.toNat hp0
    ⟨|para.ElgamalP|, para.ElgamalG, para.ElgamalQ, para.ParamLen⟩
    (Int.natCast_natAbs para.ElgamalP).symm eQ t shares hnd (by
      rcases hne with h | h
      · exact Or.inl h
      · right
        have := Int.natCast_natAbs para.ElgamalP
        omega)
  rw [interpolate_abs, interpolateSpec_abs] at h
  exact h

/-! ## The claims -/

/-- C1, as stated, fails: in the valid group `P = 23`, `Q = 11`, `G = 4` the two
key shares with indices `102` and `113` (both at least `100`, neither congruent
to `0` or to a virtual index `1, 2` modulo `11`) satisfy every stated
precondition, yet `Encrypt` panics: the two indices are congruent modulo `Q`,
so `interpolate` dereferences the nil result of `ModInverse`. -/
theorem roundtrip_counterexample :
    ValidGroup toyPara ∧
      ([(102, 5), (113, 7)] : List (Int × Nat)) ≠ [] ∧
      (∀ d ∈ ([(102, 5), (113, 7)] : List (Int × Nat)), UserIdx ≤ d.1) ∧
      AvoidsReserved toyPara [102, 113] ∧
      0 ≤ SetBytes [9] ∧ SetBytes [9] < toyPara.ElgamalP ∧
      (3 : Int) < toyPara.ElgamalQ ∧ (6 : Int) < toyPara.ElgamalQ ∧
      Encrypt toyPara (publicShares toyPara [(102, 5), (113, 7)]) [9] 3 6 = none := by
  refine ⟨⟨by decide, by decide, by decide, by decide, by decide⟩, by decide, by decide,
    by decide, by decide, by decide, by decide, by decide, by decide⟩

/-- C1 (amended): round trip.  In a valid group, for a non-empty list of key
shares issued by `ShareKeyGen` whose indices are pairwise distinct modulo `Q`
and avoid `0` and the virtual indices modulo `Q`, for every message with
integer value below `P`, every blinding secret, every encryption randomness and
every participant `k`, `Encrypt` succeeds and `Decrypt` with the private share
of `k` returns the minimal encoding of the message integer, which decodes back
to it; the result does not depend on `k`. -/
theorem roundtrip_distinct_indices (para : ElgamalPara) (hv : ValidGroup para)
    (draws : List (Int × Nat)) (hne : draws ≠ [])
    (havoid : AvoidsReserved para (draws.map Prod.fst))
    (hdist : ((draws.map Prod.fst).map fun x => x % para.ElgamalQ).Nodup)
    (msg : List Byte) (hm : SetBytes msg < para.ElgamalP) (secret y : Nat)
    (k : Int × Nat) (hk : k ∈ draws) :
    ∃ c, Encrypt para (publicShares para draws) msg secret y = some (c, none) ∧
      Decrypt para (ShareKeyGen para k.1 k.2).privKeyShare c = some (Bytes (SetBytes msg)) ∧
      SetBytes (Bytes (SetBytes msg)) = SetBytes msg := by
  obtain ⟨hq, hp, eP, eQ, hg⟩ := validGroup_toNat para hv
  haveI : Fact (Nat.Prime para.ElgamalQ.toNat) := ⟨hq⟩
  have hnc : NoCollision para (draws.map Prod.fst) :=
    noCollision_of_avoids para.ElgamalQ.toNat hq.one_lt para eQ _
      (by simpa using hne) havoid hdist
  obtain ⟨f, -, -, hpub, -, hpriv⟩ := honest_run para hv draws hnc secret
  have hP0 : para.ElgamalP ≠ 0 := by omega
  have hE := Encrypt_ok para hP0 _ msg secret y _ _ hpub
  refine ⟨_, hE, ?_, SetBytes_Bytes _ (SetBytes_nonneg msg)⟩
  exact Decrypt_core para.ElgamalP.toNat para.ElgamalQ.toNat hp para eP hg secret y
    (SetBytes msg) (SetBytes_nonneg msg) hm _ _ _ (hpriv y k hk _)

/-- Witness of C1 (amended): participants `103` and `104` in the group
`P = 23`, `Q = 11`, `G = 4`, message byte `9`, decrypted by participant `104`. -/
theorem roundtrip_distinct_indices_witness :
    ∃ c, Encrypt toyPara (publicShares toyPara [(103, 5), (104, 7)]) [9] 3 6 = some (c, none) ∧
      Decrypt toyPara (ShareKeyGen toyPara 104 7).privKeyShare c = some (Bytes (SetBytes [9])) ∧
      SetBytes (Bytes (SetBytes [9])) = SetBytes [9] :=
  roundtrip_distinct_indices toyPara ⟨by decide, by decide, by decide, by decide, by decide⟩
    [(103, 5), (104, 7)] (by decide) (by decide) (by decide) [9] (by decide) 3 6 (104, 7)
    (by decide)

/-- C2: interpolation correctness.  In a valid group with `Q = q`, for every
polynomial `f` over `ZMod q` of degree at most `k - 1` and every list of `k ≥ 1`
points `(x_i, G ^ f(x_i) mod P)` whose indices are pairwise distinct modulo `Q`,
`interpolate` at any target index `x0` returns exactly `(x0, G ^ f(x0) mod P)`. -/
theorem interpolate_polynomial (para : ElgamalPara) (hv : ValidGroup para) (q : Nat)
    (hQ : para.ElgamalQ = (q : Int)) (f : Polynomial (ZMod q)) (pts : List PubKeyShare)
    (hdeg : f.natDegree + 1 ≤ pts.length)
    (hdist : (pts.map fun s => s.X % para.ElgamalQ).Nodup)
    (hY : ∀ s ∈ pts, s.Y =
      Exp para.ElgamalG (Polynomial.eval ((s.X : Int) : ZMod q) f).val para.ElgamalP)
    (x0 : Int) :
    interpolate para x0 pts =
      some ⟨x0, Exp para.ElgamalG (Polynomial.eval ((x0 : Int) : ZMod q) f).val
        para.ElgamalP⟩ := by
  obtain ⟨hq, hp, eP, eQ, hg⟩ := validGroup_toNat para hv
  have e : para.ElgamalQ.toNat = q := by omega
  rw [e] at hq hg
  haveI : Fact (Nat.Prime q) := ⟨hq⟩
  have hnd : (pts.map fun s => ((s.X : Int) : ZMod q)).Nodup := by
    rw [hQ] at hdist
    have h1 := nodup_cast_of_nodup_emod q (pts.map fun s => s.X)
      (by simpa [List.map_map, Function.comp_def] using hdist)
    simpa [List.map_map, Function.comp_def] using h1
  have hd : f.degree < ((pts.length : Nat) : WithBot Nat) :=
    lt_of_le_of_lt Polynomial.degree_le_natDegree (by exact_mod_cast hdeg)
  apply interpolate_poly para.ElgamalP.toNat q hp para eP hQ hg x0 pts hnd f hd
  intro s hs
  rw [hY s hs]
  have hp0 : para.ElgamalP.toNat ≠ 0 := by omega
  have := Exp_cast para.ElgamalP.toNat hp0 para.ElgamalG
    (Polynomial.eval ((s.X : Int) : ZMod q) f).val
  rw [← eP] at this
  exact this

/-- Witness of C2: the polynomial `X + 3` over `ZMod 11`, the points at the
indices `100` and `101`, interpolated at `0`. -/
theorem interpolate_polynomial_witness :
    interpolate toyPara 0 [⟨100, 3⟩, ⟨101, 12⟩] =
      some ⟨0, Exp toyPara.ElgamalG
        (Polynomial.eval (((0 : Int) : Int) : ZMod 11)
          (Polynomial.X + Polynomial.C (3 : ZMod 11))).val toyPara.ElgamalP⟩ :=
  interpolate_polynomial toyPara ⟨by decide, by decide, by decide, by decide, by decide⟩ 11 rfl
    (Polynomial.X + Polynomial.C (3 : ZMod 11)) [⟨100, 3⟩, ⟨101, 12⟩]
    (by
      haveI : Fact (Nat.Prime 11) := ⟨by decide⟩
      rw [Polynomial.natDegree_X_add_C]
      decide)
    (by decide)
    (by
      intro s hs
      simp only [List.mem_cons, List.mem_singleton, List.not_mem_nil, or_false] at hs
      rcases hs with rfl | rfl
      · simp only [Polynomial.eval_add, Polynomial.eval_X, Polynomial.eval_C]
        decide
      · simp only [Polynomial.eval_add, Polynomial.eval_X, Polynomial.eval_C]
        decide)
    0

/-- C3, as stated, fails: in the valid group `P = 23`, `Q = 11`, `G = 4` the
two honestly generated shares at the indices `100` and `101` collide with no
index among `0`, the virtual indices `1, 2` and each other, yet `getPubkey`
does not return: `100` is congruent to the virtual index `1` modulo `Q`, so the
self-check interpolation dereferences the nil result of `ModInverse`. -/
theorem getPubkey_counterexample :
    ValidGroup toyPara ∧
      2 ≤ ([(100, 5), (101, 7)] : List (Int × Nat)).length ∧
      (∀ d ∈ ([(100, 5), (101, 7)] : List (Int × Nat)),
        UserIdx ≤ d.1 ∧ (d.2 : Int) < toyPara.ElgamalQ) ∧
      ((0 : Int) :: (virtualIdx 2 ++ [100, 101])).Nodup ∧
      (3 : Int) < toyPara.ElgamalQ ∧
      getPubkey toyPara (publicShares toyPara [(100, 5), (101, 7)]) 3 = none := by
  refine ⟨⟨by decide, by decide, by decide, by decide, by decide⟩, by decide, by decide,
    by decide, by decide, by decide⟩

/-- C3 (amended): combine self-consistency.  In a valid group, for shares issued
by `ShareKeyGen` with no index collision modulo `Q` among `0`, the virtual
indices and the real indices, and for every blinding secret, `getPubkey` returns
no error, the public key `G ^ secret mod P` and exactly `n` refreshed shares;
interpolating at `0` over the refreshed shares plus the first original share
recovers `G ^ secret mod P`. -/
theorem getPubkey_selfconsistent (para : ElgamalPara) (hv : ValidGroup para)
    (draws : List (Int × Nat)) (hnc : NoCollision para (draws.map Prod.fst)) (secret : Nat) :
    ∃ refreshed,
      getPubkey para (publicShares para draws) secret =
        some (some (Exp para.ElgamalG secret para.ElgamalP), refreshed, none) ∧
      refreshed.length = draws.length ∧
      ∀ first, (publicShares para draws).head? = some first →
        interpolate para 0 (refreshed ++ [first]) =
          some ⟨0, Exp para.ElgamalG secret para.ElgamalP⟩ := by
  obtain ⟨f, -, -, hpub, hself, -⟩ := honest_run para hv draws hnc secret
  refine ⟨_, hpub, by simp [virtualIdx], ?_⟩
  intro first hfirst
  apply hself
  rw [List.head?_append, hfirst]
  rfl

/-- Witness of C3 (amended): participants `103` and `104` in the group
`P = 23`, `Q = 11`, `G = 4`. -/
theorem getPubkey_selfconsistent_witness :
    ∃ refreshed,
      getPubkey toyPara (publicShares toyPara [(103, 5), (104, 7)]) 3 =
        some (some (Exp toyPara.ElgamalG 3 toyPara.ElgamalP), refreshed, none) ∧
      refreshed.length = ([(103, 5), (104, 7)] : List (Int × Nat)).length ∧
      ∀ first, (publicShares toyPara [(103, 5), (104, 7)]).head? = some first →
        interpolate toyPara 0 (refreshed ++ [first]) =
          some ⟨0, Exp toyPara.ElgamalG 3 toyPara.ElgamalP⟩ :=
  getPubkey_selfconsistent toyPara ⟨by decide, by decide, by decide, by decide, by decide⟩
    [(103, 5), (104, 7)] (by decide) 3

/-- C4: the refreshed shares lie on the blinded polynomial.  In a valid group,
for shares `(x_j, G ^ y_j mod P)` and a secret with no index collision modulo
`Q`, there is exactly one polynomial `f` over `ZMod Q` of degree at most `n`
with `f(0) = secret` and `f(x_j) = y_j`, and the `i`-th refreshed share returned
by `getPubkey` is `(ReserveIdx + i, G ^ f(ReserveIdx + i) mod P)`. -/
theorem refreshed_on_blinded_polynomial (para : ElgamalPara) (hv : ValidGroup para)
    (draws : List (Int × Nat)) (hnc : NoCollision para (draws.map Prod.fst)) (secret : Nat) :
    ∃ f : Polynomial (ZMod para.ElgamalQ.toNat),
      (f.natDegree ≤ draws.length ∧
        Polynomial.eval 0 f = ((secret : Nat) : ZMod para.ElgamalQ.toNat) ∧
        ∀ d ∈ draws, Polynomial.eval ((d.1 : Int) : ZMod para.ElgamalQ.toNat) f
          = ((d.2 : Nat) : ZMod para.ElgamalQ.toNat)) ∧
      (∀ f' : Polynomial (ZMod para.ElgamalQ.toNat),
        (f'.natDegree ≤ draws.length ∧
          Polynomial.eval 0 f' = ((secret : Nat) : ZMod para.ElgamalQ.toNat) ∧
          ∀ d ∈ draws, Polynomial.eval ((d.1 : Int) : ZMod para.ElgamalQ.toNat) f'
            = ((d.2 : Nat) : ZMod para.ElgamalQ.toNat)) → f' = f) ∧
      getPubkey para (publicShares para draws) secret =
        some (some (Exp para.ElgamalG secret para.ElgamalP),
          (List.range draws.length).map (fun (i : Nat) =>
            (⟨ReserveIdx + (i : Int), Exp para.ElgamalG
              (Polynomial.eval ((ReserveIdx + (i : Int) : Int) : ZMod para.ElgamalQ.toNat) f).val
              para.ElgamalP⟩ : PubKeyShare)),
          none) := by
  obtain ⟨f, ⟨hdeg, hf0, hfx⟩, huniq, hpub, -, -⟩ := honest_run para hv draws hnc secret
  refine ⟨f, ⟨?_, hf0, hfx⟩, ?_, ?_⟩
  · by_cases hz : f = 0
    · rw [hz]
      simp
    · have := (Polynomial.natDegree_lt_iff_degree_lt hz).2 hdeg
      omega
  · rintro f' ⟨hd', h0', hx'⟩
    apply huniq f' ⟨?_, h0', hx'⟩
    exact lt_of_le_of_lt Polynomial.degree_le_natDegree
      (by exact_mod_cast Nat.lt_succ_of_le hd')
  · rw [hpub]
    simp [virtualIdx, List.map_map, Function.comp_def]

/-- Witness of C4: participants `103` and `104` in the group `P = 23`,
`Q = 11`, `G = 4`, blinding secret `3`. -/
theorem refreshed_on_blinded_polynomial_witness :
    ∃ f : Polynomial (ZMod toyPara.ElgamalQ.toNat),
      (f.natDegree ≤ ([(103, 5), (104, 7)] : List (Int × Nat)).length ∧
        Polynomial.eval 0 f = ((3 : Nat) : ZMod toyPara.ElgamalQ.toNat) ∧
        ∀ d ∈ ([(103, 5), (104, 7)] : List (Int × Nat)),
          Polynomial.eval ((d.1 : Int) : ZMod toyPara.ElgamalQ.toNat) f
            = ((d.2 : Nat) : ZMod toyPara.ElgamalQ.toNat)) ∧
      (∀ f' : Polynomial (ZMod toyPara.ElgamalQ.toNat),
        (f'.natDegree ≤ ([(103, 5), (104, 7)] : List (Int × Nat)).length ∧
          Polynomial.eval 0 f' = ((3 : Nat) : ZMod toyPara.ElgamalQ.toNat) ∧
          ∀ d ∈ ([(103, 5), (104, 7)] : List (Int × Nat)),
            Polynomial.eval ((d.1 : Int) : ZMod toyPara.ElgamalQ.toNat) f'
              = ((d.2 : Nat) : ZMod toyPara.ElgamalQ.toNat)) → f' = f) ∧
      getPubkey toyPara (publicShares toyPara [(103, 5), (104, 7)]) 3 =
        some (some (Exp toyPara.ElgamalG 3 toyPara.ElgamalP),
          (List.range ([(103, 5), (104, 7)] : List (Int × Nat)).length).map (fun (i : Nat) =>
            (⟨ReserveIdx + (i : Int), Exp toyPara.ElgamalG
              (Polynomial.eval ((ReserveIdx + (i : Int) : Int) : ZMod toyPara.ElgamalQ.toNat)
                f).val toyPara.ElgamalP⟩ : PubKeyShare)),
          none) :=
  refreshed_on_blinded_polynomial toyPara
    ⟨by decide, by decide, by decide, by decide, by decide⟩ [(103, 5), (104, 7)] (by decide) 3

theorem Exp_Exp_comm (x : Int) (a b : Nat) (m : Int) :
    Exp (Exp x a m) b m = Exp (Exp x b m) a m := by
  by_cases hm : m = 0
  · simp only [Exp, if_pos hm, ← pow_mul, Nat.mul_comm]
  · simp only [Exp, if_neg hm]
    have h1 : (x ^ a % m) ^ b ≡ (x ^ a) ^ b [ZMOD m] := (Int.mod_modEq _ _).pow b
    have h2 : (x ^ b % m) ^ a ≡ (x ^ b) ^ a [ZMOD m] := (Int.mod_modEq _ _).pow a
    have h3 : (x ^ a) ^ b = (x ^ b) ^ a := by rw [← pow_mul, ← pow_mul, Nat.mul_comm]
    rw [h3] at h1
    exact h1.trans h2.symm

theorem Encrypt_inv (para : ElgamalPara) (shares : List PubKeyShare) (msg : List Byte)
    (secret y : Nat) (c : ElCipher)
    (hE : Encrypt para shares msg secret y = some (c, none)) :
    ∃ pubkey refreshed c2,
      getPubkey para shares secret = some (some pubkey, refreshed, none) ∧
      c = ⟨some (Exp para.ElgamalG y para.ElgamalP), some c2,
        refreshed.map fun s => (⟨s.X, Exp s.Y y para.ElgamalP⟩ : PubKeyShare)⟩ := by
  unfold Encrypt at hE
  cases hg : getPubkey para shares secret with
  | none => rw [hg] at hE; simp at hE
  | some r =>
    rw [hg] at hE
    obtain ⟨pk, rs, err⟩ := r
    cases err with
    | some e => simp at hE
    | none =>
      cases pk with
      | none => simp at hE
      | some pk =>
        simp only [Option.some_bind, Option.map_eq_some'] at hE
        obtain ⟨c2, -, hc⟩ := hE
        simp only [Prod.mk.injEq, and_true] at hc
        exact ⟨pk, rs, c2, rfl, hc.symm⟩

/-- C5: the hints are partial decryptions.  Whenever `Encrypt` returns a
ciphertext `c` without error, `c.C1 = G ^ y mod P`, the hints `c.C3` are the
refreshed shares of `getPubkey` with each value raised to `y`, in the same
order and number, and a hint whose refreshed value is `G ^ s_i mod P` has the
value `C1 ^ s_i mod P`. -/
theorem hints_eq_C1_pow (para : ElgamalPara) (shares : List PubKeyShare)
    (msg : List Byte) (secret y : Nat) (c : ElCipher)
    (hE : Encrypt para shares msg secret y = some (c, none)) :
    ∃ pubkey refreshed,
      getPubkey para shares secret = some (some pubkey, refreshed, none) ∧
      c.C1 = some (Exp para.ElgamalG y para.ElgamalP) ∧
      c.C3 = refreshed.map (fun s => (⟨s.X, Exp s.Y y para.ElgamalP⟩ : PubKeyShare)) ∧
      c.C3.length = refreshed.length ∧
      ∀ (i : Nat) (r : PubKeyShare) (s_i : Nat), refreshed[i]? = some r →
        r.Y = Exp para.ElgamalG s_i para.ElgamalP →
        c.C3[i]? = some ⟨r.X, Exp r.Y y para.ElgamalP⟩ ∧
          Exp r.Y y para.ElgamalP = Exp (Exp para.ElgamalG y para.ElgamalP) s_i para.ElgamalP := by
  obtain ⟨pk, rs, c2, hpub, rfl⟩ := Encrypt_inv para shares msg secret y c hE
  refine ⟨pk, rs, hpub, rfl, rfl, by simp, ?_⟩
  intro i r s_i hr hY
  refine ⟨by simp [hr], ?_⟩
  rw [hY]
  exact Exp_Exp_comm _ _ _ _

/-- Witness of C5: the ciphertext of the message byte `9` for the participants
`103` and `104` in the group `P = 23`, `Q = 11`, `G = 4`. -/
theorem hints_eq_C1_pow_witness :
    ∃ pubkey refreshed,
      getPubkey toyPara (publicShares toyPara [(103, 5), (104, 7)]) 3
        = some (some pubkey, refreshed, none) ∧
      (⟨some 2, some 3, [⟨1, 13⟩, ⟨2, 9⟩]⟩ : ElCipher).C1
        = some (Exp toyPara.ElgamalG 6 toyPara.ElgamalP) ∧
      (⟨some 2, some 3, [⟨1, 13⟩, ⟨2, 9⟩]⟩ : ElCipher).C3
        = refreshed.map (fun s => (⟨s.X, Exp s.Y 6 toyPara.ElgamalP⟩ : PubKeyShare)) ∧
      (⟨some 2, some 3, [⟨1, 13⟩, ⟨2, 9⟩]⟩ : ElCipher).C3.length = refreshed.length ∧
      ∀ (i : Nat) (r : PubKeyShare) (s_i : Nat), refreshed[i]? = some r →
        r.Y = Exp toyPara.ElgamalG s_i toyPara.ElgamalP →
        (⟨some 2, some 3, [⟨1, 13⟩, ⟨2, 9⟩]⟩ : ElCipher).C3[i]?
            = some ⟨r.X, Exp r.Y 6 toyPara.ElgamalP⟩ ∧
          Exp r.Y 6 toyPara.ElgamalP
            = Exp (Exp toyPara.ElgamalG 6 toyPara.ElgamalP) s_i toyPara.ElgamalP :=
  hints_eq_C1_pow toyPara (publicShares toyPara [(103, 5), (104, 7)]) [9] 3 6
    ⟨some 2, some 3, [⟨1, 13⟩, ⟨2, 9⟩]⟩ (by decide)

/-- C6, as stated, fails where the modulus `P` lets the loop and the closed
form part.  For `P = 1` and the empty list (which meets every stated condition)
the loop returns the initial value `(t, 1)`, which it never reduces, while the
closed form is `(t, 1 mod 1) = (t, 0)`.  For `P = 0` and the single point
`(1, 8)` the `Mod` of the outer loop divides by zero and nothing is returned. -/
theorem interpolate_closed_form_counterexample :
    Nat.Prime (⟨1, 4, 11, 1⟩ : ElgamalPara).ElgamalQ.toNat ∧
      (([] : List PubKeyShare).map fun s => s.X % (⟨1, 4, 11, 1⟩ : ElgamalPara).ElgamalQ).Nodup ∧
      interpolate ⟨1, 4, 11, 1⟩ 5 [] = some ⟨5, 1⟩ ∧
      interpolateSpec ⟨1, 4, 11, 1⟩ 5 [] = ⟨5, 0⟩ ∧
      interpolate ⟨1, 4, 11, 1⟩ 5 [] ≠ some (interpolateSpec ⟨1, 4, 11, 1⟩ 5 []) ∧
      (([⟨1, 8⟩] : List PubKeyShare).map fun s =>
        s.X % (⟨0, 4, 11, 1⟩ : ElgamalPara).ElgamalQ).Nodup ∧
      interpolate ⟨0, 4, 11, 1⟩ 5 [⟨1, 8⟩] = none := by
  have hspec : interpolateSpec ⟨1, 4, 11, 1⟩ 5 [] = ⟨5, 0⟩ := by
    simp [interpolateSpec]
  have hprime : Nat.Prime (⟨1, 4, 11, 1⟩ : ElgamalPara).ElgamalQ.toNat := by
    show Nat.Prime 11
    norm_num
  refine ⟨hprime, by simp, by decide, hspec, ?_, by simp, by decide⟩
  rw [hspec]
  decide

/-- C6 (amended): `interpolate` equals its closed form.  For a prime `Q`, a
modulus `P ≠ 0` and a list of points whose indices are pairwise distinct modulo
`Q` and which is non-empty or comes with `|P| > 1`, the nested loop returns
`(t, Π_i Y_i ^ w_i mod P)` with `w_i` the product over the positions `j ≠ i` of
`(t - x_j) * (x_i - x_j)⁻¹` modulo `Q`, reduced into `[0, Q)`; and dropping the
points whose index equals `x_i` is dropping position `i`. -/
theorem interpolate_refines_closed_form (para : ElgamalPara) (hP : para.ElgamalP ≠ 0)
    (hQ : Nat.Prime para.ElgamalQ.toNat) (t : Int) (shares : List PubKeyShare)
    (hdist : (shares.map fun s => s.X % para.ElgamalQ).Nodup)
    (hne : shares ≠ [] ∨ 1 < |para.ElgamalP|) :
    interpolate para t shares = some (interpolateSpec para t shares) ∧
      ∀ (i : Nat) (h : i < shares.length),
        (shares.filter fun s => decide (s.X ≠ (shares.get ⟨i, h⟩).X)) = shares.eraseIdx i := by
  have hq1 := hQ.one_lt
  have eQ : para.ElgamalQ = ((para.ElgamalQ.toNat : Nat) : Int) := by omega
  haveI : Fact (Nat.Prime para.ElgamalQ.toNat) := ⟨hQ⟩
  have hndX : (shares.map fun s => s.X).Nodup := by
    have h1 : (shares.map fun s => s.X % para.ElgamalQ)
        = (shares.map fun s => s.X).map fun x => x % para.ElgamalQ := by
      rw [List.map_map]
      rfl
    rw [h1] at hdist
    exact List.Nodup.of_map _ hdist
  have hnd : (shares.map fun s => ((s.X : Int) : ZMod para.ElgamalQ.toNat)).Nodup := by
    rw [eQ] at hdist
    have h1 := nodup_cast_of_nodup_emod para.ElgamalQ.toNat (shares.map fun s => s.X)
      (by simpa [List.map_map, Function.comp_def] using hdist)
    simpa [List.map_map, Function.comp_def] using h1
  exact ⟨interpolate_eq_spec_of_ne_zero para hP hQ t shares hnd hne,
    fun i h => filter_eq_eraseIdx shares hndX i h⟩

/-- Witness of C6 (amended): three points in the group `P = 23`, `Q = 11`. -/
theorem interpolate_refines_closed_form_witness :
    interpolate toyPara 0 [⟨1, 8⟩, ⟨2, 12⟩, ⟨103, 3⟩]
        = some (interpolateSpec toyPara 0 [⟨1, 8⟩, ⟨2, 12⟩, ⟨103, 3⟩]) ∧
      ∀ (i : Nat) (h : i < ([⟨1, 8⟩, ⟨2, 12⟩, ⟨103, 3⟩] : List PubKeyShare).length),
        (([⟨1, 8⟩, ⟨2, 12⟩, ⟨103, 3⟩] : List PubKeyShare).filter fun s =>
            decide (s.X ≠ (([⟨1, 8⟩, ⟨2, 12⟩, ⟨103, 3⟩] : List PubKeyShare).get ⟨i, h⟩).X))
          = ([⟨1, 8⟩, ⟨2, 12⟩, ⟨103, 3⟩] : List PubKeyShare).eraseIdx i :=
  interpolate_refines_closed_form toyPara (by decide) (by decide) 0
    [⟨1, 8⟩, ⟨2, 12⟩, ⟨103, 3⟩] (by decide) (Or.inl (by decide))

/-- C7: `Setup` postcondition.  With `rand.Prime` returning primes and
`ProbablyPrime(50)` read as an exact test, whenever `Setup` returns parameters
without error they form a valid group (`P` prime, `Q = (P - 1) / 2` prime,
`G ^ Q mod P = 1`, `G mod P ≠ 1`) with `G ≠ 1`; the accepted `G` is the square
of the integer read and satisfies `4 ≤ G < Q`. -/
theorem Setup_postcondition (ParamLen : Int) (primes : List (Option Int))
    (reads : List (Option (List Byte))) (para : ElgamalPara)
    (hprimes : ∀ P, some P ∈ primes → Nat.Prime P.toNat)
    (h : Setup ParamLen primes reads = some (Except.ok para)) :
    ValidGroup para ∧ para.ElgamalG ≠ 1 ∧
      (∃ k, some k ∈ reads ∧ para.ElgamalG = SetBytes k * SetBytes k) ∧
      4 ≤ para.ElgamalG ∧ para.ElgamalG < para.ElgamalQ ∧ para.ParamLen = ParamLen := by
  unfold Setup at h
  by_cases hlen : ParamLen * 8 < 2
  · rw [if_pos hlen] at h
    simp at h
  · rw [if_neg hlen] at h
    cases hp : primeLoop primes with
    | none => rw [hp] at h; simp at h
    | some pq =>
      obtain ⟨P, Q⟩ := pq
      rw [hp] at h
      simp only [Option.some_bind] at h
      cases hgen : generatorLoop Q reads with
      | none => rw [hgen] at h; simp at h
      | some r =>
        rw [hgen] at h
        cases r with
        | error e => simp at h
        | ok G =>
          simp only [Option.map_some', Option.some.injEq, Except.ok.injEq] at h
          subst h
          obtain ⟨hmem, hQ, hQp⟩ := primeLoop_spec primes P Q hp
          obtain ⟨⟨k, hk, hG⟩, h4, hlt⟩ := generatorLoop_spec Q reads G hgen
          have hPp := hprimes P hmem
          have hq1 := hQp.one_lt
          have hp1 := hPp.one_lt
          have hord : G ^ Q.toNat % P = 1 := by
            rw [hG]
            exact square_pow_order P Q (SetBytes k) hPp hQ hQp (by rw [← hG]; exact h4)
              (by rw [← hG]; exact hlt)
          have hGP : G % P = G := Int.emod_eq_of_lt (by omega) (by omega)
          have hG1 : G ≠ 1 := by omega
          refine ⟨⟨hPp, hQp, hQ, hord, ?_⟩, hG1, ⟨k, hk, hG⟩, h4, hlt, rfl⟩
          simp only
          rw [hGP]
          omega

/-- Witness of C7: a run with `ParamLen = 2` in which the prime `32771` is
rejected (`16385` is not prime), the safe prime `32843` is kept, the reads `1`
and `200` are rejected (`1 < 4`, `40000 ≥ 16421`) and `100` is accepted. -/
theorem Setup_postcondition_witness :
    ValidGroup ⟨32843, 10000, 16421, 2⟩ ∧ (⟨32843, 10000, 16421, 2⟩ : ElgamalPara).ElgamalG ≠ 1 ∧
      (∃ k, some k ∈ ([some [1], some [200], some [100]] : List (Option (List Byte))) ∧
        (⟨32843, 10000, 16421, 2⟩ : ElgamalPara).ElgamalG = SetBytes k * SetBytes k) ∧
      4 ≤ (⟨32843, 10000, 16421, 2⟩ : ElgamalPara).ElgamalG ∧
      (⟨32843, 10000, 16421, 2⟩ : ElgamalPara).ElgamalG
        < (⟨32843, 10000, 16421, 2⟩ : ElgamalPara).ElgamalQ ∧
      (⟨32843, 10000, 16421, 2⟩ : ElgamalPara).ParamLen = 2 :=
  Setup_postcondition 2 [some 32771, some 32843] [some [1], some [200], some [100]]
    ⟨32843, 10000, 16421, 2⟩
    (by
      intro P hP
      simp only [List.mem_cons, Option.some.injEq, List.mem_singleton, List.not_mem_nil,
        or_false] at hP
      rcases hP with rfl | rfl
      · show Nat.Prime 32771
        norm_num
      · show Nat.Prime 32843
        norm_num)
    (by
      have h1 : ¬ Nat.Prime 16385 := by norm_num
      have h2 : Nat.Prime 16421 := by norm_num
      have e1 : SetBytes [1] = 1 := by decide
      have e2 : SetBytes [200] = 200 := by decide
      have e3 : SetBytes [100] = 100 := by decide
      simp [Setup, primeLoop, generatorLoop, ProbablyPrime, e1, e2, e3, h1, h2])

/-- C8: `ShareKeyGen` postcondition.  For every parameters, index `x` and drawn
exponent `y`, the private half is `(x, y)`, the public half is
`(x, G ^ y mod P)`, and both halves carry the same index. -/
theorem ShareKeyGen_postcondition (para : ElgamalPara) (x : Int) (y : Nat) :
    (ShareKeyGen para x y).privKeyShare = ⟨x, y⟩ ∧
      (ShareKeyGen para x y).PubKeyShare = ⟨x, Exp para.ElgamalG y para.ElgamalP⟩ ∧
      (ShareKeyGen para x y).privKeyShare.X = (ShareKeyGen para x y).PubKeyShare.X ∧
      (ShareKeyGen para x y).PubKeyShare.Y = para.ElgamalG ^ (ShareKeyGen para x y).privKeyShare.Y
        % para.ElgamalP := by
  refine ⟨rfl, rfl, rfl, ?_⟩
  simp only [ShareKeyGen, Exp]
  by_cases h : para.ElgamalP = 0
  · rw [if_pos h, h, Int.emod_zero]
  · rw [if_neg h]

theorem getPubkey_inv (para : ElgamalPara) (shares : List PubKeyShare) (secret : Nat)
    (pk : Option Int) (rs : List PubKeyShare)
    (h : getPubkey para shares secret = some (pk, rs, none)) :
    pk = some (Exp para.ElgamalG secret para.ElgamalP) := by
  unfold getPubkey at h
  simp only [Option.bind_eq_some] at h
  obtain ⟨newShares, -, first, -, recover, -, h⟩ := h
  by_cases hc : recover.Y ≠ Exp para.ElgamalG secret para.ElgamalP
  · rw [if_pos hc] at h
    simp at h
  · rw [if_neg hc] at h
    simp only [Option.some.injEq, Prod.mk.injEq, and_true] at h
    exact h.1.symm

/-- C9: the combined public key is the dealer point only.  Whenever
`getPubkey` returns without error, the key is `G ^ secret mod P`; two successful
runs with the same parameters and secret return the same key whatever the share
lists. -/
theorem pubkey_is_dealer_point (para : ElgamalPara) (secret : Nat)
    (shares1 shares2 : List PubKeyShare) (pk1 pk2 : Option Int) (rs1 rs2 : List PubKeyShare)
    (h1 : getPubkey para shares1 secret = some (pk1, rs1, none))
    (h2 : getPubkey para shares2 secret = some (pk2, rs2, none)) :
    pk1 = some (Exp para.ElgamalG secret para.ElgamalP) ∧ pk2 = pk1 := by
  have e1 := getPubkey_inv para shares1 secret pk1 rs1 h1
  have e2 := getPubkey_inv para shares2 secret pk2 rs2 h2
  exact ⟨e1, e2.trans e1.symm⟩

/-- Witness of C9: two different share lists, the same secret `3`, the same key `18`. -/
theorem pubkey_is_dealer_point_witness :
    (some 18 : Option Int) = some (Exp toyPara.ElgamalG 3 toyPara.ElgamalP) ∧
      (some 18 : Option Int) = some 18 :=
  pubkey_is_dealer_point toyPara 3 (publicShares toyPara [(103, 5), (104, 7)])
    (publicShares toyPara [(105, 2)]) (some 18) (some 18) [⟨1, 8⟩, ⟨2, 12⟩] [⟨1, 4⟩]
    (by decide) (by decide)

/-- C10, as stated, fails: the ciphertext of the message byte `9` for the
participants `103` and `104` carries hints at the indices `1` and `2`, and
`Decrypt` with a private share of index `1` returns normally, with the byte
string `[2]` (not the message). -/
theorem Decrypt_tamper_counterexample :
    Encrypt toyPara (publicShares toyPara [(103, 5), (104, 7)]) [9] 3 6
        = some (⟨some 2, some 3, [⟨1, 13⟩, ⟨2, 9⟩]⟩, none) ∧
      (∃ h ∈ ([⟨1, 13⟩, ⟨2, 9⟩] : List PubKeyShare), h.X = (⟨1, 5⟩ : privKeyShare).X) ∧
      Decrypt toyPara ⟨1, 5⟩ ⟨some 2, some 3, [⟨1, 13⟩, ⟨2, 9⟩]⟩ = some [2] := by
  refine ⟨by decide, by decide, by decide⟩

/-- C10 (amended): in a valid group, for a ciphertext that `Encrypt` produced
from shares issued by `ShareKeyGen` with no index collision modulo `Q`, and for
every private share whose index equals the index of one of the hints,
`Decrypt` is not rejected: it returns normally with a byte string (the colliding
points are skipped against each other by `interpolate`). -/
theorem Decrypt_accepts_hint_index (para : ElgamalPara) (hv : ValidGroup para)
    (draws : List (Int × Nat)) (hnc : NoCollision para (draws.map Prod.fst))
    (msg : List Byte) (secret y : Nat) (c : ElCipher)
    (hE : Encrypt para (publicShares para draws) msg secret y = some (c, none))
    (priv : privKeyShare) (hcol : ∃ h ∈ c.C3, h.X = priv.X) :
    ∃ out, Decrypt para priv c = some out := by
  obtain ⟨hq, hp, eP, eQ, hg⟩ := validGroup_toNat para hv
  haveI : Fact (Nat.Prime para.ElgamalQ.toNat) := ⟨hq⟩
  have hp0 : para.ElgamalP.toNat ≠ 0 := by omega
  obtain ⟨f, -, -, hpub, -, -⟩ := honest_run para hv draws hnc secret
  obtain ⟨pk, rs, c2, hpub', rfl⟩ := Encrypt_inv para _ msg secret y c hE
  rw [hpub] at hpub'
  simp only [Option.some.injEq, Prod.mk.injEq, and_true] at hpub'
  obtain ⟨-, hrs⟩ := hpub'
  subst hrs
  -- the index of the private share is a virtual index
  have hV : priv.X ∈ virtualIdx draws.length := by
    obtain ⟨h, hh, hx⟩ := hcol
    simp only [List.mem_map] at hh
    obtain ⟨s, ⟨v, hv', rfl⟩, rfl⟩ := hh
    rw [← hx]
    exact hv'
  have hnd := nodup_of_noCollision para.ElgamalQ.toNat para eQ _ hnc
  rw [List.length_map] at hnd
  have hndV : ((virtualIdx draws.length).map
      fun x => ((x : Int) : ZMod para.ElgamalQ.toNat)).Nodup := by
    have hsub : (virtualIdx draws.length).Sublist
        ((0 : Int) :: (virtualIdx draws.length ++ draws.map Prod.fst)) :=
      List.Sublist.cons _ (List.sublist_append_left _ _)
    exact List.Nodup.sublist (hsub.map _) hnd
  have hX : ∀ a ∈ ((virtualIdx draws.length).map (fun v =>
        (⟨v, Exp para.ElgamalG
          (Polynomial.eval ((v : Int) : ZMod para.ElgamalQ.toNat) f).val
          para.ElgamalP⟩ : PubKeyShare))).map
        (fun s => (⟨s.X, Exp s.Y y para.ElgamalP⟩ : PubKeyShare)) ++
      [(⟨priv.X, Exp (Exp para.ElgamalG y para.ElgamalP) priv.Y para.ElgamalP⟩ : PubKeyShare)],
      a.X ∈ virtualIdx draws.length ∧
        ∃ e : Nat, ((a.Y : Int) : ZMod para.ElgamalP.toNat)
          = ((para.ElgamalG : Int) : ZMod para.ElgamalP.toNat) ^ e := by
    intro a ha
    rcases List.mem_append.1 ha with h | h
    · simp only [List.mem_map] at h
      obtain ⟨s, ⟨v, hv', rfl⟩, rfl⟩ := h
      refine ⟨hv', (Polynomial.eval ((v : Int) : ZMod para.ElgamalQ.toNat) f).val * y, ?_⟩
      simp only
      rw [eP, Exp_cast _ hp0, Exp_cast _ hp0, ← pow_mul]
    · rw [List.mem_singleton] at h
      subst h
      refine ⟨hV, y * priv.Y, ?_⟩
      simp only
      rw [eP, Exp_cast _ hp0, Exp_cast _ hp0, ← pow_mul]
  have hsep : Separated para.ElgamalQ.toNat
      (((virtualIdx draws.length).map (fun v =>
        (⟨v, Exp para.ElgamalG
          (Polynomial.eval ((v : Int) : ZMod para.ElgamalQ.toNat) f).val
          para.ElgamalP⟩ : PubKeyShare))).map
        (fun s => (⟨s.X, Exp s.Y y para.ElgamalP⟩ : PubKeyShare)) ++
      [(⟨priv.X, Exp (Exp para.ElgamalG y para.ElgamalP) priv.Y para.ElgamalP⟩ :
        PubKeyShare)]) := by
    intro a ha b hb
    by_cases hab : ((a.X : Int) : ZMod para.ElgamalQ.toNat)
        = ((b.X : Int) : ZMod para.ElgamalQ.toNat)
    · left
      exact List.inj_on_of_nodup_map hndV (hX a ha).1 (hX b hb).1 hab
    · right
      exact hab
  obtain ⟨s, e, hint, -, -, hs⟩ := interpolate_pow para.ElgamalP.toNat para.ElgamalQ.toNat hp
    para eP eQ ((para.ElgamalG : Int) : ZMod para.ElgamalP.toNat) 0 _ hsep
    (fun a ha => (hX a ha).2)
  have hpk : getPrivkey para priv
      ⟨some (Exp para.ElgamalG y para.ElgamalP), some c2,
        ((virtualIdx draws.length).map (fun v =>
          (⟨v, Exp para.ElgamalG
            (Polynomial.eval ((v : Int) : ZMod para.ElgamalQ.toNat) f).val
            para.ElgamalP⟩ : PubKeyShare))).map
          (fun s => (⟨s.X, Exp s.Y y para.ElgamalP⟩ : PubKeyShare))⟩ = some s := by
    simp only [getPrivkey, Option.some_bind, hint, Option.map_some']
  exact Decrypt_returns para.ElgamalP.toNat para.ElgamalQ.toNat hq.pos hp para eP _ hg priv _ _ _
    s e hpk hs

/-- Witness of C10 (amended): the ciphertext of the message byte `9` for the
participants `103` and `104`, opened with a private share of index `1`. -/
theorem Decrypt_accepts_hint_index_witness :
    ∃ out, Decrypt toyPara ⟨1, 5⟩ ⟨some 2, some 3, [⟨1, 13⟩, ⟨2, 9⟩]⟩ = some out :=
  Decrypt_accepts_hint_index toyPara ⟨by decide, by decide, by decide, by decide, by decide⟩
    [(103, 5), (104, 7)] (by decide) [9] 3 6 ⟨some 2, some 3, [⟨1, 13⟩, ⟨2, 9⟩]⟩ (by decide)
    ⟨1, 5⟩ (by decide)

/-- C11, as stated, fails: the two points `(1, 8)` and `(1, 12)` share the
x-coordinate `1`, and `interpolate` returns the point `(0, 4)`: points with equal
x-coordinates are skipped against each other, no inverse is taken. -/
theorem interpolate_shared_index_counterexample :
    Nat.Prime toyPara.ElgamalQ.toNat ∧
      (⟨1, 8⟩ : PubKeyShare).X = (⟨1, 12⟩ : PubKeyShare).X ∧
      interpolate toyPara 0 [⟨1, 8⟩, ⟨1, 12⟩] = some ⟨0, 4⟩ := by
  refine ⟨by decide, by decide, by decide⟩

/-- C11 (amended): for a prime `Q`, whenever two of the points have
x-coordinates that are congruent modulo `Q` without being equal as integers,
the modular inverse of their difference does not exist and `interpolate` fails
instead of returning a point. -/
theorem interpolate_fails_on_congruent_indices (para : ElgamalPara)
    (hQ : Nat.Prime para.ElgamalQ.toNat) (t : Int) (shares : List PubKeyShare)
    (a b : PubKeyShare) (ha : a ∈ shares) (hb : b ∈ shares) (hne : a.X ≠ b.X)
    (hcong : a.X % para.ElgamalQ = b.X % para.ElgamalQ) :
    ModInverse ((a.X - b.X) % para.ElgamalQ) para.ElgamalQ = none ∧
      interpolate para t shares = none := by
  refine ⟨?_, interpolate_none_of_collision para hQ t shares ⟨a, ha, b, hb, hne, hcong⟩⟩
  have hq1 := hQ.one_lt
  have hQ0 : para.ElgamalQ ≠ 0 := by omega
  have hz : (a.X - b.X) % para.ElgamalQ = 0 :=
    Int.emod_eq_emod_iff_emod_sub_eq_zero.1 hcong
  rw [hz]
  apply ModInverse_of_not_coprime 0 para.ElgamalQ hQ0
  rw [Int.gcd_zero_left]
  omega

/-- Witness of C11 (amended): the indices `1` and `12` modulo `Q = 11`. -/
theorem interpolate_fails_on_congruent_indices_witness :
    ModInverse (((⟨1, 8⟩ : PubKeyShare).X - (⟨12, 12⟩ : PubKeyShare).X) % toyPara.ElgamalQ)
        toyPara.ElgamalQ = none ∧
      interpolate toyPara 0 [⟨1, 8⟩, ⟨12, 12⟩] = none :=
  interpolate_fails_on_congruent_indices toyPara (by decide) 0 [⟨1, 8⟩, ⟨12, 12⟩]
    ⟨1, 8⟩ ⟨12, 12⟩ (by decide) (by decide) (by decide) (by decide)

/-- C12, as stated, fails: with the hundred real indices `100, ..., 199`, all at
least `UserIdx`, the virtual index `ReserveIdx + 99 = 100` equals the real index
`100`. -/
theorem index_ranges_counterexample :
    (∀ x ∈ hundredIndices, UserIdx ≤ x) ∧ hundredIndices.length = 100 ∧
      ReserveIdx + ((99 : Nat) : Int) ∈ virtualIdx hundredIndices.length ∧
      ReserveIdx + ((99 : Nat) : Int) ∈ hundredIndices := by
  have hlen : hundredIndices.length = 100 := by simp [hundredIndices]
  refine ⟨?_, hlen, ?_, ?_⟩
  · intro x hx
    simp only [hundredIndices, List.mem_map, List.mem_range] at hx
    obtain ⟨i, -, rfl⟩ := hx
    omega
  · rw [hlen, virtualIdx_mem]
    simp only [ReserveIdx]
    omega
  · simp only [hundredIndices, List.mem_map, List.mem_range]
    exact ⟨0, by omega, by simp [ReserveIdx, UserIdx]⟩

/-- C12 (amended): index namespace disjointness for fewer than `UserIdx` real
participants.  For `n < 100` real indices, all at least `UserIdx`, the refreshed
shares that `getPubkey` returns carry exactly the virtual indices
`ReserveIdx + i`, which lie in `1..n`; no virtual index equals `0` or a real
index, and no real index equals `0`. -/
theorem index_ranges_disjoint (para : ElgamalPara) (shares : List PubKeyShare)
    (secret : Nat) (pk : Option Int) (rs : List PubKeyShare)
    (hge : ∀ s ∈ shares, UserIdx ≤ s.X) (hn : (shares.length : Int) < UserIdx)
    (h : getPubkey para shares secret = some (pk, rs, none)) :
    rs.map (fun s => s.X) = virtualIdx shares.length ∧
      (∀ v ∈ virtualIdx shares.length, 1 ≤ v ∧ v ≤ (shares.length : Int)) ∧
      (∀ v ∈ virtualIdx shares.length, v ≠ 0 ∧ ∀ s ∈ shares, v ≠ s.X) ∧
      ∀ s ∈ shares, s.X ≠ 0 := by
  refine ⟨getPubkey_indices para shares secret pk rs h, ?_, ?_, ?_⟩
  · intro v hv
    exact (virtualIdx_mem _ v).1 hv
  · intro v hv
    have hv' := (virtualIdx_mem _ v).1 hv
    refine ⟨by omega, ?_⟩
    intro s hs
    have := hge s hs
    omega
  · intro s hs
    have := hge s hs
    simp only [UserIdx] at this
    omega

/-- Witness of C12 (amended): participants `103` and `104` in the group
`P = 23`, `Q = 11`, `G = 4`. -/
theorem index_ranges_disjoint_witness :
    ([⟨1, 8⟩, ⟨2, 12⟩] : List PubKeyShare).map (fun s => s.X)
        = virtualIdx (publicShares toyPara [(103, 5), (104, 7)]).length ∧
      (∀ v ∈ virtualIdx (publicShares toyPara [(103, 5), (104, 7)]).length,
        1 ≤ v ∧ v ≤ ((publicShares toyPara [(103, 5), (104, 7)]).length : Int)) ∧
      (∀ v ∈ virtualIdx (publicShares toyPara [(103, 5), (104, 7)]).length,
        v ≠ 0 ∧ ∀ s ∈ publicShares toyPara [(103, 5), (104, 7)], v ≠ s.X) ∧
      ∀ s ∈ publicShares toyPara [(103, 5), (104, 7)], s.X ≠ 0 :=
  index_ranges_disjoint toyPara (publicShares toyPara [(103, 5), (104, 7)]) 3 (some 18)
    [⟨1, 8⟩, ⟨2, 12⟩] (by decide) (by decide) (by decide)

theorem shareLoop_modulus (para : ElgamalPara) (t : Int) (shares l : List PubKeyShare)
    (acc r : Int) (hl : l ≠ []) (h : shareLoop para t shares l acc = some r) :
    para.ElgamalP ≠ 0 := by
  cases l with
  | nil => exact absurd rfl hl
  | cons si rest =>
    simp only [shareLoop, Option.bind_eq_some] at h
    obtain ⟨w, -, a, ha, -⟩ := h
    intro hz
    simp [bigMod, hz] at ha

theorem getPubkey_modulus (para : ElgamalPara) (shares : List PubKeyShare) (secret : Nat)
    (r : Option Int × List PubKeyShare × Option String)
    (h : getPubkey para shares secret = some r) : para.ElgamalP ≠ 0 := by
  unfold getPubkey at h
  simp only [Option.bind_eq_some] at h
  obtain ⟨newShares, -, first, -, recover, hrec, -⟩ := h
  simp only [interpolate, Option.map_eq_some'] at hrec
  obtain ⟨y, hy, -⟩ := hrec
  exact shareLoop_modulus para 0 _ _ 1 y (by simp) hy

theorem getPubkey_outcome (para : ElgamalPara) (shares : List PubKeyShare) (secret : Nat)
    (pk : Option Int) (rs : List PubKeyShare) (err : Option String)
    (h : getPubkey para shares secret = some (pk, rs, err)) :
    (err = none ∧ pk = some (Exp para.ElgamalG secret para.ElgamalP)) ∨
      (err = some "getPubkey: recover secret failed." ∧ pk = none ∧ rs = []) := by
  unfold getPubkey at h
  simp only [Option.bind_eq_some] at h
  obtain ⟨newShares, -, first, -, recover, -, h⟩ := h
  by_cases hc : recover.Y ≠ Exp para.ElgamalG secret para.ElgamalP
  · rw [if_pos hc] at h
    simp only [Option.some.injEq, Prod.mk.injEq] at h
    exact Or.inr ⟨h.2.2.symm, h.1.symm, h.2.1.symm⟩
  · rw [if_neg hc] at h
    simp only [Option.some.injEq, Prod.mk.injEq] at h
    exact Or.inl ⟨h.2.2.symm, h.1.symm⟩

/-- C13, as stated, fails: for the shares at the indices `102` and `113` in the
group `P = 23`, `Q = 11`, `G = 4` the call of `getPubkey` returns no error (it
panics in `interpolate`), and `Encrypt` returns neither an error nor a
ciphertext with a nil error: it does not return. -/
theorem Encrypt_outcome_counterexample :
    getPubkey toyPara (publicShares toyPara [(102, 5), (113, 7)]) 3 = none ∧
      Encrypt toyPara (publicShares toyPara [(102, 5), (113, 7)]) [9] 3 6 = none := by
  refine ⟨by decide, by decide⟩

/-- C13 (amended): `Encrypt` returns an error exactly when its call of
`getPubkey` returns an error, and then with the empty `ElCipher`; it returns a
ciphertext (with `C1` and `C2` set) and a nil error exactly when `getPubkey`
returns without error; and it does not return exactly when `getPubkey` does not
return. -/
theorem Encrypt_outcomes (para : ElgamalPara) (shares : List PubKeyShare) (msg : List Byte)
    (secret y : Nat) :
    (∀ c e, Encrypt para shares msg secret y = some (c, some e) ↔
      (c = ElCipher.empty ∧ e = "genPubkey error" ∧
        ∃ pk rs e1, getPubkey para shares secret = some (pk, rs, some e1))) ∧
    ((∃ c1 c2 c3, Encrypt para shares msg secret y = some (⟨some c1, some c2, c3⟩, none)) ↔
      (∃ pk rs, getPubkey para shares secret = some (pk, rs, none))) ∧
    (∀ c, Encrypt para shares msg secret y = some (c, none) ↔
      ∃ c1 c2 c3, c = ⟨some c1, some c2, c3⟩ ∧
        Encrypt para shares msg secret y = some (⟨some c1, some c2, c3⟩, none)) ∧
    (Encrypt para shares msg secret y = none ↔ getPubkey para shares secret = none) := by
  cases hg : getPubkey para shares secret with
  | none =>
    have hE : Encrypt para shares msg secret y = none := by
      simp only [Encrypt, hg, Option.none_bind]
    refine ⟨?_, ?_, ?_, ?_⟩
    · intro c e
      simp [hE]
    · simp [hE]
    · intro c
      simp [hE]
    · simp [hE]
  | some r =>
    obtain ⟨pk, rs, err⟩ := r
    have hP := getPubkey_modulus para shares secret _ hg
    rcases getPubkey_outcome para shares secret pk rs err hg with ⟨rfl, rfl⟩ | ⟨rfl, rfl, rfl⟩
    · have hE := Encrypt_ok para hP shares msg secret y _ rs hg
      refine ⟨?_, ?_, ?_, ?_⟩
      · intro c e
        simp [hE]
      · simp [hE]
      · intro c
        rw [hE]
        constructor
        · intro h
          simp only [Option.some.injEq, Prod.mk.injEq, and_true] at h
          exact ⟨_, _, _, h.symm, rfl⟩
        · rintro ⟨c1, c2, c3, rfl, h⟩
          exact h
      · simp [hE]
    · have hE : Encrypt para shares msg secret y
          = some (ElCipher.empty, some "genPubkey error") := by
        simp only [Encrypt, hg, Option.some_bind]
      refine ⟨?_, ?_, ?_, ?_⟩
      · intro c e
        rw [hE]
        constructor
        · intro h
          simp only [Option.some.injEq, Prod.mk.injEq] at h
          exact ⟨h.1.symm, h.2.symm, _, _, _, rfl⟩
        · rintro ⟨rfl, rfl, -⟩
          rfl
      · simp [hE, ElCipher.empty]
      · intro c
        simp [hE]
      · simp [hE]

/-- C14, as stated, fails: for the two participants `103` and `104` in the group
`P = 23`, `Q = 11`, `G = 4`, the private share of participant `104` alone,
with the ciphertext and the parameters, makes `Decrypt` return the plaintext
byte `9`. -/
theorem single_share_counterexample :
    2 ≤ ([(103, 5), (104, 7)] : List (Int × Nat)).length ∧
      Encrypt toyPara (publicShares toyPara [(103, 5), (104, 7)]) [9] 3 6
        = some (⟨some 2, some 3, [⟨1, 13⟩, ⟨2, 9⟩]⟩, none) ∧
      Decrypt toyPara (ShareKeyGen toyPara 104 7).privKeyShare
        ⟨some 2, some 3, [⟨1, 13⟩, ⟨2, 9⟩]⟩ = some [9] := by
  refine ⟨by decide, by decide, by decide⟩

/-- C14 (amended): a single share decrypts.  In a valid group, for `n ≥ 2`
participants whose shares were issued by `ShareKeyGen` with no index collision
modulo `Q`, and a message with integer value below `P`, the private share of any
single participant, with the ciphertext and the parameters, makes `Decrypt`
return the encoding of the plaintext; `Decrypt` takes no second share. -/
theorem single_share_decrypts (para : ElgamalPara) (hv : ValidGroup para)
    (draws : List (Int × Nat)) (hn : 2 ≤ draws.length)
    (hnc : NoCollision para (draws.map Prod.fst))
    (msg : List Byte) (hm : SetBytes msg < para.ElgamalP) (secret y : Nat) :
    ∃ c, Encrypt para (publicShares para draws) msg secret y = some (c, none) ∧
      c.C3.length = draws.length ∧
      ∀ k ∈ draws, Decrypt para (ShareKeyGen para k.1 k.2).privKeyShare c
          = some (Bytes (SetBytes msg)) ∧
        SetBytes (Bytes (SetBytes msg)) = SetBytes msg := by
  obtain ⟨hq, hp, eP, eQ, hg⟩ := validGroup_toNat para hv
  haveI : Fact (Nat.Prime para.ElgamalQ.toNat) := ⟨hq⟩
  obtain ⟨f, -, -, hpub, -, hpriv⟩ := honest_run para hv draws hnc secret
  have hP0 : para.ElgamalP ≠ 0 := by omega
  have hE := Encrypt_ok para hP0 _ msg secret y _ _ hpub
  refine ⟨_, hE, by simp [virtualIdx], ?_⟩
  intro k hk
  exact ⟨Decrypt_core para.ElgamalP.toNat para.ElgamalQ.toNat hp para eP hg secret y
    (SetBytes msg) (SetBytes_nonneg msg) hm _ _ _ (hpriv y k hk _),
    SetBytes_Bytes _ (SetBytes_nonneg msg)⟩

/-- Witness of C14 (amended): participants `103` and `104`, message byte `9`. -/
theorem single_share_decrypts_witness :
    ∃ c, Encrypt toyPara (publicShares toyPara [(103, 5), (104, 7)]) [9] 3 6 = some (c, none) ∧
      c.C3.length = ([(103, 5), (104, 7)] : List (Int × Nat)).length ∧
      ∀ k ∈ ([(103, 5), (104, 7)] : List (Int × Nat)),
        Decrypt toyPara (ShareKeyGen toyPara k.1 k.2).privKeyShare c
          = some (Bytes (SetBytes [9])) ∧
        SetBytes (Bytes (SetBytes [9])) = SetBytes [9] :=
  single_share_decrypts toyPara ⟨by decide, by decide, by decide, by decide, by decide⟩
    [(103, 5), (104, 7)] (by decide) (by decide) [9] (by decide) 3 6

/-- C15: shared-secret recovery.  In a valid group, for a ciphertext that
`Encrypt` produced from shares issued by `ShareKeyGen` with no index collision
modulo `Q`, and the private share `(x_k, y_k)` of an original participant,
`getPrivkey` interpolates at `0` over the `n` embedded hints followed by the real
hint `(x_k, C1 ^ y_k mod P)` and returns `s = G ^ (secret * y) mod P`, which is
`pubkey ^ y mod P`, the factor multiplied into `C2`. -/
theorem shared_secret_recovery (para : ElgamalPara) (hv : ValidGroup para)
    (draws : List (Int × Nat)) (hnc : NoCollision para (draws.map Prod.fst))
    (msg : List Byte) (secret y : Nat) (c : ElCipher)
    (hE : Encrypt para (publicShares para draws) msg secret y = some (c, none))
    (k : Int × Nat) (hk : k ∈ draws) :
    c.C1 = some (Exp para.ElgamalG y para.ElgamalP) ∧
      c.C3.length = draws.length ∧
      interpolate para 0
          (c.C3 ++ [⟨k.1, Exp (Exp para.ElgamalG y para.ElgamalP) k.2 para.ElgamalP⟩])
        = some ⟨0, Exp para.ElgamalG (secret * y) para.ElgamalP⟩ ∧
      getPrivkey para (ShareKeyGen para k.1 k.2).privKeyShare c
        = some (Exp para.ElgamalG (secret * y) para.ElgamalP) ∧
      (∃ refreshed, getPubkey para (publicShares para draws) secret
        = some (some (Exp para.ElgamalG secret para.ElgamalP), refreshed, none)) ∧
      Exp para.ElgamalG (secret * y) para.ElgamalP
        = Exp (Exp para.ElgamalG secret para.ElgamalP) y para.ElgamalP ∧
      c.C2 = some (Exp (Exp para.ElgamalG secret para.ElgamalP) y para.ElgamalP
        * SetBytes msg % para.ElgamalP) := by
  obtain ⟨hq, hp, eP, eQ, hg⟩ := validGroup_toNat para hv
  obtain ⟨f, -, -, hpub, -, hpriv⟩ := honest_run para hv draws hnc secret
  have hP0 : para.ElgamalP ≠ 0 := by omega
  have hE' := Encrypt_ok para hP0 _ msg secret y _ _ hpub
  rw [hE] at hE'
  simp only [Option.some.injEq, Prod.mk.injEq, and_true] at hE'
  subst hE'
  have hpk := hpriv y k hk
    (some (Exp (Exp para.ElgamalG secret para.ElgamalP) y para.ElgamalP * SetBytes msg
      % para.ElgamalP))
  refine ⟨rfl, by simp [virtualIdx], ?_, hpk, ⟨_, hpub⟩, (Exp_Exp _ _ _ _).symm, rfl⟩
  simp only [getPrivkey, ShareKeyGen, Option.some_bind, Option.map_eq_some'] at hpk
  obtain ⟨r, hr, hrY⟩ := hpk
  have hrX := interpolate_index para 0 _ r hr
  rw [hr]
  congr 1
  cases r
  simp only at hrX hrY
  rw [hrX, hrY]

/-- Witness of C15: participants `103` and `104`, message byte `9`, secret `3`,
randomness `6`, opened by participant `104`. -/
theorem shared_secret_recovery_witness :
    (⟨some 2, some 3, [⟨1, 13⟩, ⟨2, 9⟩]⟩ : ElCipher).C1
        = some (Exp toyPara.ElgamalG 6 toyPara.ElgamalP) ∧
      (⟨some 2, some 3, [⟨1, 13⟩, ⟨2, 9⟩]⟩ : ElCipher).C3.length
        = ([(103, 5), (104, 7)] : List (Int × Nat)).length ∧
      interpolate toyPara 0
          ((⟨some 2, some 3, [⟨1, 13⟩, ⟨2, 9⟩]⟩ : ElCipher).C3 ++
            [⟨((104, 7) : Int × Nat).1,
              Exp (Exp toyPara.ElgamalG 6 toyPara.ElgamalP) ((104, 7) : Int × Nat).2
                toyPara.ElgamalP⟩])
        = some ⟨0, Exp toyPara.ElgamalG (3 * 6) toyPara.ElgamalP⟩ ∧
      getPrivkey toyPara
          (ShareKeyGen toyPara ((104, 7) : Int × Nat).1 ((104, 7) : Int × Nat).2).privKeyShare
          ⟨some 2, some 3, [⟨1, 13⟩, ⟨2, 9⟩]⟩
        = some (Exp toyPara.ElgamalG (3 * 6) toyPara.ElgamalP) ∧
      (∃ refreshed, getPubkey toyPara (publicShares toyPara [(103, 5), (104, 7)]) 3
        = some (some (Exp toyPara.ElgamalG 3 toyPara.ElgamalP), refreshed, none)) ∧
      Exp toyPara.ElgamalG (3 * 6) toyPara.ElgamalP
        = Exp (Exp toyPara.ElgamalG 3 toyPara.ElgamalP) 6 toyPara.ElgamalP ∧
      (⟨some 2, some 3, [⟨1, 13⟩, ⟨2, 9⟩]⟩ : ElCipher).C2
        = some (Exp (Exp toyPara.ElgamalG 3 toyPara.ElgamalP) 6 toyPara.ElgamalP
          * SetBytes [9] % toyPara.ElgamalP) :=
  shared_secret_recovery toyPara ⟨by decide, by decide, by decide, by decide, by decide⟩
    [(103, 5), (104, 7)] (by decide) [9] 3 6 ⟨some 2, some 3, [⟨1, 13⟩, ⟨2, 9⟩]⟩ (by decide)
    (104, 7) (by decide)

/-- C16: the byte-level round trip is lossy.  Under the round-trip
preconditions (valid group, a non-empty list of shares issued by `ShareKeyGen`
whose indices are pairwise distinct modulo `Q` and avoid `0` and the virtual
indices modulo `Q`), for every message byte string `msg`, `Decrypt` returns the
minimal big-endian encoding of `int(msg) mod P` (no leading zero byte, decoding
back to that integer); it equals `msg` exactly when `int(msg) < P` and `msg` has
no leading zero byte. -/
theorem byte_roundtrip_lossy (para : ElgamalPara) (hv : ValidGroup para)
    (draws : List (Int × Nat)) (hne : draws ≠ [])
    (havoid : AvoidsReserved para (draws.map Prod.fst))
    (hdist : ((draws.map Prod.fst).map fun x => x % para.ElgamalQ).Nodup)
    (msg : List Byte) (secret y : Nat) (k : Int × Nat) (hk : k ∈ draws) :
    ∃ c, Encrypt para (publicShares para draws) msg secret y = some (c, none) ∧
      Decrypt para (ShareKeyGen para k.1 k.2).privKeyShare c
        = some (Bytes (SetBytes msg % para.ElgamalP)) ∧
      (Bytes (SetBytes msg % para.ElgamalP)).head? ≠ some 0 ∧
      SetBytes (Bytes (SetBytes msg % para.ElgamalP)) = SetBytes msg % para.ElgamalP ∧
      (Bytes (SetBytes msg % para.ElgamalP) = msg ↔
        (SetBytes msg < para.ElgamalP ∧ msg.head? ≠ some 0)) := by
  obtain ⟨hq, hp, eP, eQ, hg⟩ := validGroup_toNat para hv
  haveI : Fact (Nat.Prime para.ElgamalQ.toNat) := ⟨hq⟩
  have hnc : NoCollision para (draws.map Prod.fst) :=
    noCollision_of_avoids para.ElgamalQ.toNat hq.one_lt para eQ _
      (by simpa using hne) havoid hdist
  obtain ⟨f, -, -, hpub, -, hpriv⟩ := honest_run para hv draws hnc secret
  have hP0 : para.ElgamalP ≠ 0 := by omega
  have hPpos : 0 < para.ElgamalP := by omega
  have hE := Encrypt_ok para hP0 _ msg secret y _ _ hpub
  have hm0 := SetBytes_nonneg msg
  have hr0 : 0 ≤ SetBytes msg % para.ElgamalP := Int.emod_nonneg _ hP0
  have hr1 : SetBytes msg % para.ElgamalP < para.ElgamalP := Int.emod_lt_of_pos _ hPpos
  have hnat : SetBytes msg % para.ElgamalP
      = (((SetBytes msg % para.ElgamalP).toNat : Nat) : Int) := by omega
  have hhead : (Bytes (SetBytes msg % para.ElgamalP)).head? ≠ some 0 := by
    rw [hnat]
    exact Bytes_head _
  refine ⟨_, hE, ?_, hhead, SetBytes_Bytes _ hr0, ?_⟩
  · exact Decrypt_core_mod para.ElgamalP.toNat para.ElgamalQ.toNat hq.pos hp para eP hg secret y
      (SetBytes msg) _ _ _ (hpriv y k hk _)
  · constructor
    · intro h
      have h1 := SetBytes_Bytes _ hr0
      rw [h] at h1
      refine ⟨by omega, ?_⟩
      rw [← h]
      exact hhead
    · rintro ⟨hlt, hh⟩
      rw [Int.emod_eq_of_lt hm0 hlt]
      exact Bytes_SetBytes msg hh

/-- Witness of C16: the message bytes `[0, 30]` (a leading zero byte and the
value `30 ≥ 23`) come back as `[7]`. -/
theorem byte_roundtrip_lossy_witness :
    ∃ c, Encrypt toyPara (publicShares toyPara [(103, 5), (104, 7)]) [0, 30] 3 6
        = some (c, none) ∧
      Decrypt toyPara (ShareKeyGen toyPara ((104, 7) : Int × Nat).1
          ((104, 7) : Int × Nat).2).privKeyShare c
        = some (Bytes (SetBytes [0, 30] % toyPara.ElgamalP)) ∧
      (Bytes (SetBytes [0, 30] % toyPara.ElgamalP)).head? ≠ some 0 ∧
      SetBytes (Bytes (SetBytes [0, 30] % toyPara.ElgamalP))
        = SetBytes [0, 30] % toyPara.ElgamalP ∧
      (Bytes (SetBytes [0, 30] % toyPara.ElgamalP) = [0, 30] ↔
        (SetBytes [0, 30] < toyPara.ElgamalP ∧
          ([0, 30] : List Byte).head? ≠ some 0)) :=
  byte_roundtrip_lossy toyPara ⟨by decide, by decide, by decide, by decide, by decide⟩
    [(103, 5), (104, 7)] (by decide) (by decide) (by decide) [0, 30] 3 6 (104, 7) (by decide)

/-- C17, as stated, fails for the modulus `P = 0`: on the two points `(1, 8)`
and `(1, 12)`, which share the integer x-coordinate `1`, no two x-coordinates
differ, both inner loops finish with the weight `1` and no inverse is taken, yet
the `Mod` of the outer loop divides by zero and `interpolate` returns no value. -/
theorem interpolate_zero_modulus_counterexample :
    Nat.Prime (⟨0, 4, 11, 1⟩ : ElgamalPara).ElgamalQ.toNat ∧
      interpolate ⟨0, 4, 11, 1⟩ 0 [⟨1, 8⟩, ⟨1, 12⟩] = none ∧
      (¬ ∃ a ∈ ([⟨1, 8⟩, ⟨1, 12⟩] : List PubKeyShare),
        ∃ b ∈ ([⟨1, 8⟩, ⟨1, 12⟩] : List PubKeyShare),
          a.X ≠ b.X ∧ a.X % (⟨0, 4, 11, 1⟩ : ElgamalPara).ElgamalQ
            = b.X % (⟨0, 4, 11, 1⟩ : ElgamalPara).ElgamalQ) ∧
      (∀ a ∈ ([⟨1, 8⟩, ⟨1, 12⟩] : List PubKeyShare),
        ∀ b ∈ ([⟨1, 8⟩, ⟨1, 12⟩] : List PubKeyShare), a.X = b.X) ∧
      (∀ a ∈ ([⟨1, 8⟩, ⟨1, 12⟩] : List PubKeyShare),
        weightLoop ⟨0, 4, 11, 1⟩ 0 a.X [⟨1, 8⟩, ⟨1, 12⟩] 1 = some 1) := by
  have hprime : Nat.Prime (⟨0, 4, 11, 1⟩ : ElgamalPara).ElgamalQ.toNat := by
    show Nat.Prime 11
    norm_num
  refine ⟨hprime, by decide, by decide, by decide, by decide⟩

/-- C17 (amended): the exact failure condition of `interpolate`.  For a prime
`Q` and a list of points that is empty or comes with a modulus `P ≠ 0`,
`interpolate` fails exactly when two points have x-coordinates that differ as
integers and are congruent modulo `Q`: the inner loop of a point fails (nil
inverse) exactly when another point is congruent to it modulo `Q` with a
different integer x-coordinate; when all points carry the same integer
x-coordinate `interpolate` returns a value. -/
theorem interpolate_fails_iff (para : ElgamalPara) (hQ : Nat.Prime para.ElgamalQ.toNat)
    (t : Int) (shares : List PubKeyShare) (hP : para.ElgamalP ≠ 0 ∨ shares = []) :
    (interpolate para t shares = none ↔
      ∃ a ∈ shares, ∃ b ∈ shares, a.X ≠ b.X ∧ a.X % para.ElgamalQ = b.X % para.ElgamalQ) ∧
    (∀ a ∈ shares, (weightLoop para t a.X shares 1 = none ↔
      ∃ b ∈ shares, a.X ≠ b.X ∧ a.X % para.ElgamalQ = b.X % para.ElgamalQ)) ∧
    ((∀ a ∈ shares, ∀ b ∈ shares, a.X = b.X) → ∃ r, interpolate para t shares = some r) := by
  have hq1 := hQ.one_lt
  have hQnn : 0 ≤ para.ElgamalQ := by omega
  have eQ : para.ElgamalQ = ((para.ElgamalQ.toNat : Nat) : Int) := by omega
  haveI : Fact (Nat.Prime para.ElgamalQ.toNat) := ⟨hQ⟩
  have key : (¬ ∃ a ∈ shares, ∃ b ∈ shares,
      a.X ≠ b.X ∧ a.X % para.ElgamalQ = b.X % para.ElgamalQ) →
      ∃ r, interpolate para t shares = some r := by
    intro h
    rcases hP with hP | hs
    · exact interpolate_some_of_separated para hQ hP t shares
        (separated_of_no_collision para shares h hQnn)
    · subst hs
      exact ⟨⟨t, 1⟩, rfl⟩
  refine ⟨⟨?_, interpolate_none_of_collision para hQ t shares⟩, ?_, ?_⟩
  · intro hnone
    by_contra hc
    obtain ⟨r, hr⟩ := key hc
    rw [hr] at hnone
    exact Option.noConfusion hnone
  · intro a _
    refine ⟨?_, weightLoop_none para hQ t a.X shares 1⟩
    intro hnone
    by_contra hc
    obtain ⟨w, hw, -, -⟩ := weightLoop_spec para.ElgamalQ.toNat para eQ t a.X shares 1 (by
      intro s hs
      by_cases hx : s.X = a.X
      · exact Or.inl hx
      · right
        intro hcast
        have h1 := (ZMod.intCast_eq_intCast_iff' _ _ _).1 hcast
        rw [← eQ] at h1
        exact hc ⟨s, hs, fun h => hx h.symm, h1.symm⟩)
    rw [hw] at hnone
    exact Option.noConfusion hnone
  · intro hall
    apply key
    rintro ⟨a, ha, b, hb, hne, -⟩
    exact hne (hall a ha b hb)

/-- Witness of C17 (amended), in the group `P = 23`, `Q = 11`: the points
`(1, 8)`, `(12, 12)`, whose x-coordinates differ and are congruent modulo `11`,
on which `interpolate` fails; and the points `(1, 8)`, `(1, 12)`, which share
the x-coordinate `1`, on which `interpolate` returns `(0, 4)`. -/
theorem interpolate_fails_iff_witness :
    (interpolate toyPara 0 [⟨1, 8⟩, ⟨12, 12⟩] = none ∧
      interpolate toyPara 0 [⟨1, 8⟩, ⟨1, 12⟩] = some ⟨0, 4⟩) ∧
    ((interpolate toyPara 0 [⟨1, 8⟩, ⟨12, 12⟩] = none ↔
      ∃ a ∈ ([⟨1, 8⟩, ⟨12, 12⟩] : List PubKeyShare),
        ∃ b ∈ ([⟨1, 8⟩, ⟨12, 12⟩] : List PubKeyShare),
          a.X ≠ b.X ∧ a.X % toyPara.ElgamalQ = b.X % toyPara.ElgamalQ) ∧
    (∀ a ∈ ([⟨1, 8⟩, ⟨12, 12⟩] : List PubKeyShare),
      (weightLoop toyPara 0 a.X [⟨1, 8⟩, ⟨12, 12⟩] 1 = none ↔
        ∃ b ∈ ([⟨1, 8⟩, ⟨12, 12⟩] : List PubKeyShare),
          a.X ≠ b.X ∧ a.X % toyPara.ElgamalQ = b.X % toyPara.ElgamalQ)) ∧
    ((∀ a ∈ ([⟨1, 8⟩, ⟨12, 12⟩] : List PubKeyShare),
        ∀ b ∈ ([⟨1, 8⟩, ⟨12, 12⟩] : List PubKeyShare), a.X = b.X) →
      ∃ r, interpolate toyPara 0 [⟨1, 8⟩, ⟨12, 12⟩] = some r)) ∧
    ((interpolate toyPara 0 [⟨1, 8⟩, ⟨1, 12⟩] = none ↔
      ∃ a ∈ ([⟨1, 8⟩, ⟨1, 12⟩] : List PubKeyShare),
        ∃ b ∈ ([⟨1, 8⟩, ⟨1, 12⟩] : List PubKeyShare),
          a.X ≠ b.X ∧ a.X % toyPara.ElgamalQ = b.X % toyPara.ElgamalQ) ∧
    (∀ a ∈ ([⟨1, 8⟩, ⟨1, 12⟩] : List PubKeyShare),
      (weightLoop toyPara 0 a.X [⟨1, 8⟩, ⟨1, 12⟩] 1 = none ↔
        ∃ b ∈ ([⟨1, 8⟩, ⟨1, 12⟩] : List PubKeyShare),
          a.X ≠ b.X ∧ a.X % toyPara.ElgamalQ = b.X % toyPara.ElgamalQ)) ∧
    ((∀ a ∈ ([⟨1, 8⟩, ⟨1, 12⟩] : List PubKeyShare),
        ∀ b ∈ ([⟨1, 8⟩, ⟨1, 12⟩] : List PubKeyShare), a.X = b.X) →
      ∃ r, interpolate toyPara 0 [⟨1, 8⟩, ⟨1, 12⟩] = some r)) :=
  ⟨⟨by decide, by decide⟩,
    interpolate_fails_iff toyPara (by decide) 0 [⟨1, 8⟩, ⟨12, 12⟩] (Or.inl (by decide)),
    interpolate_fails_iff toyPara (by decide) 0 [⟨1, 8⟩, ⟨1, 12⟩] (Or.inl (by decide))⟩

/-- C18: interpolation reproduces its nodes.  For a prime `Q`, a modulus
`P > 1`, points whose x-coordinates are pairwise distinct modulo `Q` and whose
values are arbitrary in `[0, P)`, and every position `k`, `interpolate` at `x_k`
returns the point `(x_k, Y_k)`: the inner loop gives weight `1` to the point `k`
and weight `0` to every other point. -/
theorem interpolate_reproduces_nodes (para : ElgamalPara) (hP : 1 < para.ElgamalP)
    (hQ : Nat.Prime para.ElgamalQ.toNat) (shares : List PubKeyShare)
    (hdist : (shares.map fun s => s.X % para.ElgamalQ).Nodup)
    (hY : ∀ s ∈ shares, 0 ≤ s.Y ∧ s.Y < para.ElgamalP) (k : Nat) (hk : k < shares.length) :
    interpolate para (shares.get ⟨k, hk⟩).X shares = some (shares.get ⟨k, hk⟩) ∧
      ∀ (i : Nat) (hi : i < shares.length),
        weightLoop para (shares.get ⟨k, hk⟩).X (shares.get ⟨i, hi⟩).X shares 1
          = some (if i = k then 1 else 0) := by
  have hq1 := hQ.one_lt
  have eP : para.ElgamalP = ((para.ElgamalP.toNat : Nat) : Int) := by omega
  have eQ : para.ElgamalQ = ((para.ElgamalQ.toNat : Nat) : Int) := by omega
  haveI : Fact (Nat.Prime para.ElgamalQ.toNat) := ⟨hQ⟩
  have hndX : (shares.map fun s => s.X).Nodup := by
    have h1 : (shares.map fun s => s.X % para.ElgamalQ)
        = (shares.map fun s => s.X).map fun x => x % para.ElgamalQ := by
      rw [List.map_map]
      rfl
    rw [h1] at hdist
    exact List.Nodup.of_map _ hdist
  have hnd : (shares.map fun s => ((s.X : Int) : ZMod para.ElgamalQ.toNat)).Nodup := by
    rw [eQ] at hdist
    have h1 := nodup_cast_of_nodup_emod para.ElgamalQ.toNat (shares.map fun s => s.X)
      (by simpa [List.map_map, Function.comp_def] using hdist)
    simpa [List.map_map, Function.comp_def] using h1
  obtain ⟨h1, h2⟩ := interpolate_at_node para.ElgamalP.toNat para.ElgamalQ.toNat (by omega)
    para eP eQ shares hnd hY (shares.get ⟨k, hk⟩) (List.get_mem _ _ _)
  refine ⟨h1, ?_⟩
  intro i hi
  rw [h2 _ (List.get_mem _ _ _)]
  have hiff : (shares.get ⟨i, hi⟩).X = (shares.get ⟨k, hk⟩).X ↔ i = k := by
    constructor
    · intro hx
      have hinj := (List.nodup_iff_injective_get.1 hndX)
      have hlen : (shares.map fun s => s.X).length = shares.length := List.length_map _ _
      have := @hinj ⟨i, by rw [hlen]; exact hi⟩ ⟨k, by rw [hlen]; exact hk⟩
        (by simpa using hx)
      simpa using this
    · rintro rfl
      rfl
  by_cases hik : i = k
  · rw [if_pos hik, if_pos (hiff.2 hik)]
  · rw [if_neg hik, if_neg (fun h => hik (hiff.1 h))]

/-- Witness of C18: three points in the group `P = 23`, `Q = 11`, one of them
with the value `0`, interpolated at the index of the second point. -/
theorem interpolate_reproduces_nodes_witness :
    interpolate toyPara
        (([⟨1, 8⟩, ⟨2, 0⟩, ⟨103, 22⟩] : List PubKeyShare).get ⟨1, by decide⟩).X
        [⟨1, 8⟩, ⟨2, 0⟩, ⟨103, 22⟩]
      = some (([⟨1, 8⟩, ⟨2, 0⟩, ⟨103, 22⟩] : List PubKeyShare).get ⟨1, by decide⟩) ∧
      ∀ (i : Nat) (hi : i < ([⟨1, 8⟩, ⟨2, 0⟩, ⟨103, 22⟩] : List PubKeyShare).length),
        weightLoop toyPara
            (([⟨1, 8⟩, ⟨2, 0⟩, ⟨103, 22⟩] : List PubKeyShare).get ⟨1, by decide⟩).X
            (([⟨1, 8⟩, ⟨2, 0⟩, ⟨103, 22⟩] : List PubKeyShare).get ⟨i, hi⟩).X
            [⟨1, 8⟩, ⟨2, 0⟩, ⟨103, 22⟩] 1
          = some (if i = 1 then 1 else 0) :=
  interpolate_reproduces_nodes toyPara (by decide) (by decide) [⟨1, 8⟩, ⟨2, 0⟩, ⟨103, 22⟩]
    (by decide) (by decide) 1 (by decide)

/-- C19, as stated, fails: for the modulus `P = 1 > 0` and the empty list of
points `interpolate` succeeds with the value `1` on both sides, but
`1 ^ y mod 1 = 0`. -/
theorem interpolate_pow_counterexample :
    (0 : Int) < (⟨1, 4, 11, 1⟩ : ElgamalPara).ElgamalP ∧
      interpolate ⟨1, 4, 11, 1⟩ 5 [] = some ⟨5, 1⟩ ∧
      interpolate ⟨1, 4, 11, 1⟩ 5
          (([] : List PubKeyShare).map fun s =>
            (⟨s.X, Exp s.Y 2 (⟨1, 4, 11, 1⟩ : ElgamalPara).ElgamalP⟩ : PubKeyShare))
        = some ⟨5, 1⟩ ∧
      (1 : Int) ≠ Exp 1 2 (⟨1, 4, 11, 1⟩ : ElgamalPara).ElgamalP ∧
      (1 : Int) ≠ (1 : Int) ^ 2 % (⟨1, 4, 11, 1⟩ : ElgamalPara).ElgamalP := by
  refine ⟨by decide, by decide, by decide, by decide, by decide⟩

/-- C19 (amended): interpolation commutes with exponentiation.  For a modulus
`P > 0`, a list of points on which `interpolate` succeeds that is non-empty or
`P > 1`, every target index and every exponent `y`, `interpolate` succeeds on
the points `(x_i, Y_i ^ y mod P)` and its value is the value on the points
`(x_i, Y_i)` raised to `y` modulo `P`. -/
theorem interpolate_pow_commutes (para : ElgamalPara) (hP : 0 < para.ElgamalP)
    (shares : List PubKeyShare) (hne : shares ≠ [] ∨ 1 < para.ElgamalP) (t : Int) (y : Nat)
    (r : PubKeyShare) (h : interpolate para t shares = some r) :
    interpolate para t
        (shares.map fun s => (⟨s.X, Exp s.Y y para.ElgamalP⟩ : PubKeyShare))
      = some ⟨t, Exp r.Y y para.ElgamalP⟩ ∧
      Exp r.Y y para.ElgamalP = r.Y ^ y % para.ElgamalP := by
  have eP : para.ElgamalP = ((para.ElgamalP.toNat : Nat) : Int) := by omega
  have hp0 : para.ElgamalP.toNat ≠ 0 := by omega
  have hPz : para.ElgamalP ≠ 0 := by omega
  refine ⟨?_, by simp only [Exp, if_neg hPz]⟩
  simp only [interpolate, Option.map_eq_some'] at h
  obtain ⟨v, hv, rfl⟩ := h
  obtain ⟨r1, hr1, hc, hb, he⟩ := shareLoop_pow para.ElgamalP.toNat hp0 para eP t y shares
    shares 1 1 v hv (by simp)
  simp only [interpolate, hr1, Option.map_some', Option.some.injEq, PubKeyShare.mk.injEq,
    true_and]
  by_cases hs : shares = []
  · obtain ⟨e1, e2⟩ := he hs
    have h1 : 1 < para.ElgamalP := by
      rcases hne with h | h
      · exact absurd hs h
      · exact h
    rw [e1, e2]
    simp only [Exp, if_neg hPz, one_pow]
    exact (Int.emod_eq_of_lt (by norm_num) h1).symm
  · obtain ⟨h0, h1⟩ := hb hs
    have := eq_Exp_of_cast para.ElgamalP.toNat hp0 v r1 y h0 h1 hc
    rw [← eP] at this
    exact this

/-- Witness of C19 (amended): three points in the group `P = 23`, `Q = 11`,
squared. -/
theorem interpolate_pow_commutes_witness :
    interpolate toyPara 0
        (([⟨1, 8⟩, ⟨2, 12⟩, ⟨103, 3⟩] : List PubKeyShare).map fun s =>
          (⟨s.X, Exp s.Y 2 toyPara.ElgamalP⟩ : PubKeyShare))
      = some ⟨0, Exp (⟨0, 6⟩ : PubKeyShare).Y 2 toyPara.ElgamalP⟩ ∧
      Exp (⟨0, 6⟩ : PubKeyShare).Y 2 toyPara.ElgamalP
        = (⟨0, 6⟩ : PubKeyShare).Y ^ 2 % toyPara.ElgamalP :=
  interpolate_pow_commutes toyPara (by decide) [⟨1, 8⟩, ⟨2, 12⟩, ⟨103, 3⟩]
    (Or.inl (by decide)) 0 2 ⟨0, 6⟩ (by decide)

/-- C20: the empty share list is accepted.  In a valid group, for every secret,
`getPubkey` on the empty share list returns no error, the public key
`G ^ secret mod P` and no refreshed share; its self-check interpolates the single
dealer point at index `0`; `Encrypt` then succeeds with a ciphertext that
carries no hints. -/
theorem empty_share_list_accepted (para : ElgamalPara) (hv : ValidGroup para) (secret : Nat)
    (msg : List Byte) (y : Nat) :
    getPubkey para [] secret = some (some (Exp para.ElgamalG secret para.ElgamalP), [], none) ∧
      (([] : List PubKeyShare) ++
        [(⟨0, Exp para.ElgamalG secret para.ElgamalP⟩ : PubKeyShare)]).head?
          = some ⟨0, Exp para.ElgamalG secret para.ElgamalP⟩ ∧
      interpolate para 0 [⟨0, Exp para.ElgamalG secret para.ElgamalP⟩]
        = some ⟨0, Exp para.ElgamalG secret para.ElgamalP⟩ ∧
      Encrypt para [] msg secret y
        = some (⟨some (Exp para.ElgamalG y para.ElgamalP),
            some (Exp (Exp para.ElgamalG secret para.ElgamalP) y para.ElgamalP
              * SetBytes msg % para.ElgamalP), []⟩, none) := by
  obtain ⟨hq, hp, eP, eQ, hg⟩ := validGroup_toNat para hv
  have hnc : NoCollision para (([] : List (Int × Nat)).map Prod.fst) := by
    simp [NoCollision, virtualIdx]
  obtain ⟨f, -, -, hpub, hself, -⟩ := honest_run para hv [] hnc secret
  have hpub' : getPubkey para [] secret
      = some (some (Exp para.ElgamalG secret para.ElgamalP), [], none) := by
    simpa [publicShares, virtualIdx] using hpub
  have hP0 : para.ElgamalP ≠ 0 := by omega
  refine ⟨hpub', rfl, ?_, ?_⟩
  · have := hself ⟨0, Exp para.ElgamalG secret para.ElgamalP⟩ (by simp [publicShares])
    simpa [virtualIdx] using this
  · have := Encrypt_ok para hP0 [] msg secret y _ _ hpub'
    simpa using this

/-- Witness of C20: the group `P = 23`, `Q = 11`, `G = 4`, secret `3`. -/
theorem empty_share_list_accepted_witness :
    getPubkey toyPara [] 3
        = some (some (Exp toyPara.ElgamalG 3 toyPara.ElgamalP), [], none) ∧
      (([] : List PubKeyShare) ++
        [(⟨0, Exp toyPara.ElgamalG 3 toyPara.ElgamalP⟩ : PubKeyShare)]).head?
          = some ⟨0, Exp toyPara.ElgamalG 3 toyPara.ElgamalP⟩ ∧
      interpolate toyPara 0 [⟨0, Exp toyPara.ElgamalG 3 toyPara.ElgamalP⟩]
        = some ⟨0, Exp toyPara.ElgamalG 3 toyPara.ElgamalP⟩ ∧
      Encrypt toyPara [] [9] 3 6
        = some (⟨some (Exp toyPara.ElgamalG 6 toyPara.ElgamalP),
            some (Exp (Exp toyPara.ElgamalG 3 toyPara.ElgamalP) 6 toyPara.ElgamalP
              * SetBytes [9] % toyPara.ElgamalP), []⟩, none) :=
  empty_share_list_accepted toyPara ⟨by decide, by decide, by decide, by decide, by decide⟩
    3 [9] 6

end Elgamir
